import Mathlib

/-!
# Vertex-label distance oracle (`OracleGeneral`, src/src/oracle_general.h)

A shallow embedding of the class `OracleGeneral` and a verification development about it.

* `std::vector` is a `List`, indexed with `[i]?` where the index comes from the caller.
* `std::set<T>` is a strictly increasing `List T` (`setInsert`, `setErase`, `begin` is the head).
* `std::map` and `std::unordered_map` are association lists (`mapGet`, `mapFind`, `mapModify`).
* `std::priority_queue<QEl, vector<QEl>, greater<QEl>>` is the list of its elements; `top` is the
  least element of the lexicographic order on pairs.
* vertex numbers and portal indices are non-negative `int`s and are stored as `Nat`; the
  witnesses returned by the queries are `Int`, because the queries return `-1` for "none".
* `random_shuffle` is not a function of the program state: its result is the argument `perm`.
-/

namespace OracleGeneral

/-! ## The collaborators: weight type and graph -/

/-- Modelled from the spec: the weight type `W` and its constant `infinity` are declared in
precision.h, which is absent from src/. The spec describes "a totally ordered numeric type
supporting addition and a designated infinity sentinel value that is greater than any finite sum
of edge weights"; this is the type of natural numbers with a top element. -/
abbrev W := ℕ∞

/-- Modelled from the spec: the constant `infinity` of precision.h, the "no path" marker. -/
abbrev infinity : W := ⊤

/-- Modelled from the spec: an entry `g.edges[u][i]` of the adjacency list of graph.h (absent
from src/), a directed edge to the neighbour `v` with the non-negative weight `w`. -/
structure Edge where
  v : Nat
  w : Nat
deriving DecidableEq, Repr

/-- Modelled from the spec: the graph container of graph.h (absent from src/): the vertex count
`n` and for each vertex its adjacency list. -/
structure Graph where
  n : Nat
  edges : List (List Edge)
deriving DecidableEq, Repr

/-! ## Orders on pairs (`operator<` of `std::pair`) -/

/-- Lexicographic `operator<` of `std::pair<A, B>`, with `r` the order of the second component. -/
def pairLt {α β : Type} [LT α] (r : β → β → Prop) (a b : α × β) : Prop :=
  a.1 < b.1 ∨ (a.1 = b.1 ∧ r a.2 b.2)

instance pairLtDecidable {α β : Type} [LT α] [DecidableRel (fun (x y : α) => x < y)]
    [DecidableEq α] (r : β → β → Prop) [DecidableRel r] : DecidableRel (pairLt (α := α) r) :=
  fun a b => by unfold pairLt; exact inferInstance

/-- Order of `pair<W, int>` whose second component is a stored vertex number. -/
abbrev ltWN : W × Nat → W × Nat → Prop := pairLt (fun (x y : Nat) => x < y)

/-- Order of `pair<W, int>` for query results, whose witness may be `-1`. -/
abbrev ltWI : W × Int → W × Int → Prop := pairLt (fun (x y : Int) => x < y)

/-- Order of `pair<int, int>`. -/
abbrev ltNN : Nat × Nat → Nat × Nat → Prop := pairLt (fun (x y : Nat) => x < y)

/-- Order of `pair<int, int>` for query results. -/
abbrev ltII : Int × Int → Int × Int → Prop := pairLt (fun (x y : Int) => x < y)

/-- Order of `pair<W, pair<int, int>>` on stored records. -/
abbrev ltWNN : W × (Nat × Nat) → W × (Nat × Nat) → Prop := pairLt ltNN

/-- Order of `pair<W, pair<int, int>>` for query results. -/
abbrev ltWII : W × (Int × Int) → W × (Int × Int) → Prop := pairLt ltII

/-- The function `std::min(a, b)`: `b` when `b < a`, otherwise `a`. -/
def stdMin {α : Type} (lt : α → α → Prop) [DecidableRel lt] (a b : α) : α :=
  if lt b a then b else a

/-! ## Containers -/

/-- The method `std::set::insert`: the set is a strictly increasing list. -/
def setInsert {α : Type} (lt : α → α → Prop) [DecidableRel lt] (x : α) : List α → List α
  | [] => [x]
  | y :: ys =>
    if lt x y then x :: y :: ys
    else if lt y x then y :: setInsert lt x ys
    else y :: ys

/-- The method `std::set::erase(key)`: drops the element equivalent to `x`. -/
def setErase {α : Type} (lt : α → α → Prop) [DecidableRel lt] (x : α) (s : List α) : List α :=
  s.filter (fun y => decide (lt x y ∨ lt y x))

/-- Reading `m[k]` of a map of sets: an absent key reads as the empty set. (`operator[]` also
creates the empty entry; no operation of the class tells an empty entry from an absent one in
a map that is read with `operator[]`.) -/
def mapGet {κ β : Type} [DecidableEq κ] (m : List (κ × List β)) (k : κ) : List β :=
  match m with
  | [] => []
  | (k', b) :: m' => if k' = k then b else mapGet m' k

/-- The method `find` of a map: `none` is `end()`. -/
def mapFind {κ β : Type} [DecidableEq κ] (m : List (κ × List β)) (k : κ) : Option (List β) :=
  match m with
  | [] => none
  | (k', b) :: m' => if k' = k then some b else mapFind m' k

/-- Updating `m[k]` in place with `f`, creating the entry from the empty set when absent. -/
def mapModify {κ β : Type} [DecidableEq κ] (f : List β → List β) (k : κ) :
    List (κ × List β) → List (κ × List β)
  | [] => [(k, f [])]
  | (k', b) :: m' => if k' = k then (k', f b) :: m' else (k', b) :: mapModify f k m'

/-- The element `queue.top()` of the min-priority queue, started from a first element `m`. -/
def pqMin : W × Nat → List (W × Nat) → W × Nat
  | m, [] => m
  | m, x :: xs => pqMin (if ltWN x m then x else m) xs

/-- The element `queue.top()`: `none` when the queue is empty. -/
def pqTop : List (W × Nat) → Option (W × Nat)
  | [] => none
  | x :: xs => some (pqMin x xs)

/-- The method `vector::resize` on a vector of `int`: truncates or pads with zeros. -/
def resizeInt (l : List Nat) (k : Nat) : List Nat :=
  l.take k ++ List.replicate (k - l.length) 0

/-! ## The fields of the class -/

/-- The struct `Portal`. -/
structure Portal where
  D_v : List W
  N_l : List (Int × List (W × Nat))

/-- The struct `Label`. -/
structure Label where
  S_v : List (Nat × List (W × Nat))
  P_l : List (Int × List (W × (Nat × Nat)))

/-- The struct `Vertex`; `vector::resize` value-initialises it to label 0, `p = (0, 0)` and an
empty `dist`. -/
structure Vertex where
  label : Int
  p : W × Nat
  dist : List (W × Nat)

/-- The fields of `OracleGeneral`. -/
structure Oracle where
  g : Graph
  portalNumbers : List Nat
  portalIndices : List Int
  portals : List Portal
  labels : List Label
  vertices : List Vertex

/-! ## Shortest path searches -/

/-- The local variables `queue` and `dist` of the two searches. -/
structure Search where
  queue : List (W × Nat)
  dist : List W

/-- One pass of the body of the loop over `g.edges[u]` (lines 103-111 and 140-148). -/
def relaxEdge (ud : W) (s : Search) (e : Edge) : Search :=
  let wd := ud + (e.w : W)
  if wd < s.dist.getD e.v infinity then
    { queue := (wd, e.v) :: s.queue, dist := s.dist.set e.v wd }
  else s

/-- The loop over `g.edges[u]`. -/
def relaxEdges (es : List Edge) (ud : W) (s : Search) : Search :=
  es.foldl (relaxEdge ud) s

/-- The start of both searches: `queue.push(make_pair(0, v)); dist[v] = 0;`. -/
def searchInit (g : Graph) (v : Nat) : Search :=
  { queue := [((0 : W), v)], dist := (List.replicate g.n infinity).set v 0 }

/-- The number of loop iterations granted to a search; `portalLoop_fuel` and `localLoop_fuel`
show that no search uses them up. -/
def searchFuel (g : Graph) : Nat :=
  (g.edges.map List.length).sum + 2

/-- The `while (!queue.empty())` loop of `initializePortals` (lines 97-112); `none` when the
fuel runs out. -/
def portalLoop (g : Graph) : Nat → Search → Option (List W)
  | 0, _ => none
  | fuel + 1, s =>
    match pqTop s.queue with
    | none => some s.dist
    | some curr =>
      let s1 : Search := { s with queue := s.queue.erase curr }
      if curr.1 ≠ s1.dist.getD curr.2 infinity then portalLoop g fuel s1
      else portalLoop g fuel (relaxEdges (g.edges.getD curr.2 []) curr.1 s1)

/-- The `while (!queue.empty())` loop of `initializeDistances` (lines 128-149). The result is
the pair of `vertices[v].p` (`none` when the loop ended without the assignment of line 135) and
`vertices[v].dist`, which starts as `acc`; the outer `none` is for the fuel. -/
def localLoop (g : Graph) (portalIndices : List Int) :
    Nat → Search → List (W × Nat) → Option (Option (W × Nat) × List (W × Nat))
  | 0, _, _ => none
  | fuel + 1, s, acc =>
    match pqTop s.queue with
    | none => some (none, acc)
    | some curr =>
      let s1 : Search := { s with queue := s.queue.erase curr }
      if curr.1 ≠ s1.dist.getD curr.2 infinity then localLoop g portalIndices fuel s1 acc
      else if portalIndices.getD curr.2 (-1) ≠ -1 then
        some (some (curr.1, (portalIndices.getD curr.2 (-1)).toNat), acc)
      else
        localLoop g portalIndices fuel (relaxEdges (g.edges.getD curr.2 []) curr.1 s1)
          (acc ++ [curr])

/-! ## Construction -/

/-- The read `vertices[v].label`; `vertices` has `g.n` entries and `v` is a vertex number. -/
def labelOf (vertices : List Vertex) (v : Nat) : Int :=
  match vertices[v]? with
  | some x => x.label
  | none => 0

/-- Indexing a vector with an `int`: `none` when the index is out of range. -/
def indexInt {α : Type} (xs : List α) (i : Int) : Option α :=
  if i < 0 then none else xs[i.toNat]?

/-- Writing a vector at an `int` index: `none` when the index is out of range. -/
def modifyInt {α : Type} (xs : List α) (i : Int) (f : α → α) : Option (List α) :=
  match indexInt xs i with
  | none => none
  | some x => some (xs.set i.toNat (f x))

/-- The body of the loop of lines 82-84: `portalIndices[portalNumbers[i]] = i`. -/
def portalIndexStep (portalNumbers : List Nat) (acc : Option (List Int)) (i : Nat) :
    Option (List Int) :=
  match acc, portalNumbers[i]? with
  | some idx, some p => if p < idx.length then some (idx.set p (i : Int)) else none
  | _, _ => none

/-- The method `selectPortals` (lines 75-85), with `perm` the outcome of `random_shuffle` on
`0, 1, ..., n-1`: the pair of `portalNumbers` and `portalIndices`. -/
def selectPortals (g : Graph) (perm : List Nat) (ro : Nat) : Option (List Nat × List Int) :=
  let portalNumbers := resizeInt perm ro
  match (List.range ro).foldl (portalIndexStep portalNumbers)
      (some (List.replicate g.n (-1))) with
  | none => none
  | some idx => some (portalNumbers, idx)

/-- The loop of lines 114-116, filling `portals[pi].N_l`. -/
def fillN_l (vertices : List Vertex) (dist : List W) (n : Nat)
    (m : List (Int × List (W × Nat))) : List (Int × List (W × Nat)) :=
  (List.range n).foldl
    (fun m v => mapModify (setInsert ltWN (dist.getD v infinity, v)) (labelOf vertices v) m) m

/-- The method `initializePortals` (lines 87-118). -/
def initializePortals (o : Oracle) (pi : Nat) : Option Oracle :=
  match o.portalNumbers[pi]?, o.portals[pi]? with
  | some p, some portal =>
    match portalLoop o.g (searchFuel o.g) (searchInit o.g p) with
    | none => none
    | some dist =>
      let filled : Portal := { D_v := dist, N_l := fillN_l o.vertices dist o.g.n portal.N_l }
      some { o with portals := o.portals.set pi filled }
  | _, _ => none

/-- The body of the loop of lines 152-157: `labels[l].S_v[u].insert(make_pair(du, v))`. -/
def fillS_vStep (l : Int) (v : Nat) (acc : Option (List Label)) (curr : W × Nat) :
    Option (List Label) :=
  match acc with
  | none => none
  | some labels =>
    modifyInt labels l
      (fun lab => { lab with S_v := mapModify (setInsert ltWN (curr.1, v)) curr.2 lab.S_v })

/-- The loop of lines 151-157 over the entries of `vertices[v].dist`. -/
def fillS_v (l : Int) (v : Nat) (lst : List (W × Nat)) (labels : List Label) :
    Option (List Label) :=
  lst.foldl (fillS_vStep l v) (some labels)

/-- The method `initializeDistances` (lines 120-158). -/
def initializeDistances (o : Oracle) (v : Nat) : Option Oracle :=
  match o.vertices[v]? with
  | none => none
  | some vx =>
    match localLoop o.g o.portalIndices (searchFuel o.g) (searchInit o.g v) vx.dist with
    | none => none
    | some (p, lst) =>
      let vx1 : Vertex := { vx with p := p.getD vx.p, dist := lst }
      match fillS_v vx.label v lst o.labels with
      | none => none
      | some labels => some { o with vertices := o.vertices.set v vx1, labels := labels }

/-- The line 166: `label.P_l[l2].insert(make_pair(u.first, make_pair(v, u.second)))`. -/
def insertRecord (l2 : Int) (v : Nat) (lab : Label) (u : W × Nat) : Label :=
  { lab with P_l := mapModify (setInsert ltWNN (u.1, (v, u.2))) l2 lab.P_l }

/-- The body of the loop over `label.S_v` (lines 163-167) for the entry `S`. -/
def insertRecords (vertices : List Vertex) (lab : Label) (S : Nat × List (W × Nat)) : Label :=
  S.2.foldl (insertRecord (labelOf vertices S.1) S.1) lab

/-- The body of the outer loop of `initializeLabels` (lines 162-168) for one entry of `labels`. -/
def initializeLabel (vertices : List Vertex) (label : Label) : Label :=
  label.S_v.foldl (insertRecords vertices) label

/-- The method `initializeLabels` (lines 160-170). -/
def initializeLabels (o : Oracle) : Oracle :=
  { o with labels := o.labels.map (initializeLabel o.vertices) }

/-- Running `f` for `i = 0, 1, ..., k-1` in turn, stopping at a failure. -/
def forRange (k : Nat) (f : Oracle → Nat → Option Oracle) (o : Oracle) : Option Oracle :=
  (List.range k).foldl
    (fun acc i =>
      match acc with
      | none => none
      | some o => f o i)
    (some o)

/-- The portal count in force: `if (ro == -1) ro = max(1, (int)sqrt(g.n));` (line 61); a
negative count other than `-1` makes `resize` fail. -/
def portalCount (n : Nat) (ro : Int) : Option Nat :=
  if ro = -1 then some (max 1 (Nat.sqrt n))
  else if ro < 0 then none
  else some ro.toNat

/-- The lines 56-59: `vertices.resize(g.n)` and the copy of the labels. -/
def initVertices (n : Nat) (llabels : List Int) : Option (List Vertex) :=
  (List.range n).foldl
    (fun acc v =>
      match acc, llabels[v]? with
      | some vs, some l => some (vs ++ [{ label := l, p := (0, 0), dist := [] }])
      | _, _ => none)
    (some [])

/-- The method `initializeWithLabels` (lines 55-73) on the graph `g`; `none` when an index is
out of range; no search runs out of fuel (`portalLoop_fuel`, `localLoop_fuel`), and on valid
input the result is an oracle (`initializeWithLabels_some`). -/
def initializeWithLabels (g : Graph) (perm : List Nat) (llabels : List Int) (ro : Int) :
    Option Oracle :=
  match initVertices g.n llabels, portalCount g.n ro with
  | some vertices, some k =>
    match selectPortals g perm k with
    | none => none
    | some (portalNumbers, portalIndices) =>
      let o0 : Oracle :=
        { g := g, portalNumbers := portalNumbers, portalIndices := portalIndices,
          portals := List.replicate k { D_v := [], N_l := [] },
          labels := [], vertices := vertices }
      match forRange portalNumbers.length initializePortals o0 with
      | none => none
      | some o1 =>
        let o2 : Oracle := { o1 with labels := List.replicate g.n { S_v := [], P_l := [] } }
        match forRange g.n initializeDistances o2 with
        | none => none
        | some o3 => some (initializeLabels o3)
  | _, _ => none

/-! ## Update and queries -/

/-- The body of the loop of `setLabel` (lines 200-201) for the portal `P`. -/
def setLabelStep (v : Nat) (l lp : Int) (acc : Option (List Portal)) (P : Portal) :
    Option (List Portal) :=
  match acc, P.D_v[v]? with
  | some ps, some d =>
    let erased := mapModify (setErase ltWN (d, v)) lp P.N_l
    some (ps ++ [{ P with N_l := mapModify (setInsert ltWN (d, v)) l erased }])
  | _, _ => none

/-- The method `setLabel` (lines 196-203). -/
def setLabel (o : Oracle) (v : Nat) (l : Int) : Option Oracle :=
  match o.vertices[v]? with
  | none => none
  | some vx =>
    match o.portals.foldl (setLabelStep v l vx.label) (some []) with
    | none => none
    | some portals => some { o with portals := portals }

/-- The local scan of `distanceToLabel` (lines 206-212). -/
def localScan (vertices : List Vertex) (l : Int) : List (W × Nat) → W × Int
  | [] => (infinity, -1)
  | curr :: rest =>
    if labelOf vertices curr.2 = l then (curr.1, (curr.2 : Int)) else localScan vertices l rest

/-- The method `distanceToLabel` (lines 205-218). -/
def distanceToLabel (o : Oracle) (v : Nat) (l : Int) : Option (W × Int) :=
  match o.vertices[v]? with
  | none => none
  | some vx =>
    let result := localScan o.vertices l vx.dist
    let p := vx.p
    match o.portals[p.2]? with
    | none => none
    | some portal =>
      match mapGet portal.N_l l with
      | [] => some result
      | it :: _ => some (stdMin ltWI result (p.1 + it.1, (it.2 : Int)))

/-- The body of the loop over the portals in `distanceBetweenLabels` (lines 224-228). -/
def portalStep (l1 l2 : Int) (result : W × (Int × Int)) (p : Portal) : W × (Int × Int) :=
  match mapGet p.N_l l1, mapGet p.N_l l2 with
  | v :: _, u :: _ => stdMin ltWII result (v.1 + u.1, ((v.2 : Int), (u.2 : Int)))
  | _, _ => result

/-- The method `distanceBetweenLabels` (lines 220-237). -/
def distanceBetweenLabels (o : Oracle) (l1 l2 : Int) : Option (W × (Int × Int)) :=
  let result := o.portals.foldl (portalStep l1 l2) (infinity, (-1, -1))
  match indexInt o.labels l1 with
  | none => none
  | some lab =>
    match mapFind lab.P_l l2 with
    | none => some result
    | some [] => none
    | some (x :: _) => some (stdMin ltWII result (x.1, ((x.2.1 : Int), (x.2.2 : Int))))

/-! ## The scenario of the specification -/

/-- The undirected path `0 - 1 - 2 - 3 - 4` with unit weights. -/
def pathGraph : Graph :=
  { n := 5,
    edges := [[⟨1, 1⟩], [⟨0, 1⟩, ⟨2, 1⟩], [⟨1, 1⟩, ⟨3, 1⟩], [⟨2, 1⟩, ⟨4, 1⟩], [⟨3, 1⟩]] }

/-- The labels `0, 0, 1, 1, 2` of the scenario. -/
def pathLabels : List Int := [0, 0, 1, 1, 2]

/-- The graph with two vertices and no edge. -/
def twoIsolated : Graph := { n := 2, edges := [[], []] }

/-- The graph with two vertices joined by an edge of weight 0 in both directions. -/
def zeroEdge : Graph := { n := 2, edges := [[⟨1, 0⟩], [⟨0, 0⟩]] }

/-- The graph with one vertex and no edge. -/
def oneVertex : Graph := { n := 1, edges := [[]] }

/-- The undirected path `0 - 1 - 2` with unit weights. -/
def shortPath : Graph := { n := 3, edges := [[⟨1, 1⟩], [⟨0, 1⟩, ⟨2, 1⟩], [⟨1, 1⟩]] }

/-! ## Specification notions -/

/-- A walk in `g` from `u` to `x` of total weight `k`, following the adjacency lists. -/
inductive Walk (g : Graph) (u : Nat) : Nat → Nat → Prop
  | nil : u < g.n → Walk g u u 0
  | snoc {x k : Nat} {e : Edge} : Walk g u x k → e ∈ g.edges.getD x [] → Walk g u e.v (k + e.w)

/-- The graph container is well formed: one adjacency list per vertex and every edge ends at a
vertex. -/
def Graph.WF (g : Graph) : Prop :=
  g.edges.length = g.n ∧ ∀ x e, e ∈ g.edges.getD x [] → e.v < g.n

/-- The graph is symmetric in the sense of the specification: for every edge `u → v` there is
a walk `v → u` of the same weight. -/
def Graph.Symmetric (g : Graph) : Prop :=
  ∀ x e, x < g.n → e ∈ g.edges.getD x [] → Walk g e.v x e.w

/-- The value `d` is the true shortest distance from `v` to the vertices satisfying `T`: the
least weight of a walk from `v` to such a vertex, and `infinity` when there is none. -/
def IsDistTo (g : Graph) (v : Nat) (T : Nat → Prop) (d : W) : Prop :=
  IsLeast {x : W | x = infinity ∨ ∃ u k, T u ∧ Walk g v u k ∧ x = (k : W)} d

/-- The value `d` is the true shortest distance between the vertices satisfying `S` and the
vertices satisfying `T`: the least weight of a walk from the former to the latter, and
`infinity` when there is none. -/
def IsDistBetween (g : Graph) (S T : Nat → Prop) (d : W) : Prop :=
  IsLeast {x : W | x = infinity ∨ ∃ a b k, S a ∧ T b ∧ Walk g a b k ∧ x = (k : W)} d

/-- A sequence of `setLabel` calls, run from left to right. -/
def setLabels (o : Oracle) (calls : List (Nat × Int)) : Option Oracle :=
  calls.foldl
    (fun acc c =>
      match acc with
      | none => none
      | some o => setLabel o c.1 c.2)
    (some o)

/-- The label each vertex currently holds: the label most recently assigned to it, by the
construction (`llabels`) or by a later `setLabel` call. -/
def currentLabels (llabels : List Int) (calls : List (Nat × Int)) : List Int :=
  calls.foldl (fun ls c => ls.set c.1 c.2) llabels


/-! ## Invariants of the searches -/

/-- The vertex `x` is closed: it has a finite tentative distance and the queue does not hold
the entry with that distance, so its edges have been relaxed. -/
def Closed (s : Search) (x : Nat) : Prop :=
  s.dist.getD x infinity ≠ infinity ∧ (s.dist.getD x infinity, x) ∉ s.queue

instance closedDecidable (s : Search) (x : Nat) : Decidable (Closed s x) := by
  unfold Closed
  exact inferInstance

/-- The invariant of a search from `src` between two iterations of its `while` loop. -/
structure SearchInv (g : Graph) (src : Nat) (s : Search) : Prop where
  len : s.dist.length = g.n
  nodup : s.queue.Nodup
  qlt : ∀ d x, (d, x) ∈ s.queue → x < g.n ∧ d ≠ infinity ∧ s.dist.getD x infinity ≤ d
  walk : ∀ (x k : Nat), s.dist.getD x infinity = (k : W) → Walk g src x k
  src0 : s.dist.getD src infinity = 0
  mono : ∀ x, Closed s x → ∀ d y, (d, y) ∈ s.queue → s.dist.getD x infinity ≤ d
  relaxed : ∀ x, Closed s x → ∀ e ∈ g.edges.getD x [],
    s.dist.getD e.v infinity ≤ s.dist.getD x infinity + (e.w : W)

/-- The invariant of the loop over the edges of the popped vertex `u` with key `m`, after the
edges `done` have been relaxed. -/
structure RelaxInv (g : Graph) (src u : Nat) (m : W) (done : List Edge) (s : Search) :
    Prop where
  len : s.dist.length = g.n
  nodup : s.queue.Nodup
  qlt : ∀ d x, (d, x) ∈ s.queue → x < g.n ∧ d ≠ infinity ∧ s.dist.getD x infinity ≤ d
  walk : ∀ (x k : Nat), s.dist.getD x infinity = (k : W) → Walk g src x k
  src0 : s.dist.getD src infinity = 0
  cur : s.dist.getD u infinity = m ∧ m ≠ infinity ∧ u < g.n ∧ (m, u) ∉ s.queue
  lower : ∀ d y, (d, y) ∈ s.queue → m ≤ d
  closedLe : ∀ x, Closed s x → s.dist.getD x infinity ≤ m
  relaxed : ∀ x, x ≠ u → Closed s x → ∀ e ∈ g.edges.getD x [],
    s.dist.getD e.v infinity ≤ s.dist.getD x infinity + (e.w : W)
  doneLe : ∀ e ∈ done, s.dist.getD e.v infinity ≤ m + (e.w : W)

/-- The number of edges leaving `x`. -/
def degree (g : Graph) (x : Nat) : Nat :=
  (g.edges.getD x []).length

/-- The number of edges leaving the vertices of `l` that are not closed. -/
def openWeight (g : Graph) (s : Search) (l : List Nat) : Nat :=
  ((l.filter (fun x => decide (¬ Closed s x))).map (degree g)).sum

/-- The measure that bounds the number of iterations a search still makes. -/
def potential (g : Graph) (s : Search) : Nat :=
  s.queue.length + openWeight g s (List.range g.n)

/-- What `initializePortals` leaves in `D_v` after a search from `src`: the exact distances. -/
structure PortalPost (g : Graph) (src : Nat) (D : List W) : Prop where
  len : D.length = g.n
  walk : ∀ (x k : Nat), D.getD x infinity = (k : W) → Walk g src x k
  least : ∀ (x k : Nat), Walk g src x k → D.getD x infinity ≤ (k : W)

/-- What the search of `initializeDistances` from `src` returns when it starts with the list
`acc`: the entries it appends belong to vertices that are not portals and carry the weight of
a walk from `src`; `p`, when assigned, is the weight of a walk from `src` to a portal, with
the index of that portal; and `p` is left unassigned only when no walk leads from `src` to a
portal. -/
structure LocalPost (g : Graph) (portalIndices : List Int) (src : Nat) (acc : List (W × Nat))
    (r : Option (W × Nat) × List (W × Nat)) : Prop where
  ext : ∃ rest, r.2 = acc ++ rest ∧
    ∀ c ∈ rest, portalIndices.getD c.2 (-1) = -1 ∧ ∃ k : Nat, c.1 = (k : W) ∧ Walk g src c.2 k
  portal : ∀ q, r.1 = some q →
    ∃ (u k : Nat), portalIndices.getD u (-1) ≠ -1 ∧ q.2 = (portalIndices.getD u (-1)).toNat ∧
      q.1 = (k : W) ∧ Walk g src u k
  unassigned : r.1 = none → ∀ (u k : Nat), Walk g src u k → portalIndices.getD u (-1) = -1

/-! ## What the construction builds -/

/-- The element `x` belongs to a set stored in the map `m` under the key `k`. -/
def InMap {κ β : Type} (m : List (κ × List β)) (k : κ) (x : β) : Prop :=
  ∃ S, (k, S) ∈ m ∧ x ∈ S

/-- The portal record `P` built by `initializePortals(i)` when the vertices carry the labels
`lbl`: its distance vector is the result of the search from `portalNumbers[i]`, and its bucket
for a label is the sorted set of the pairs `(D_v[v], v)` of the vertices with that label. -/
def PortalBuilt (g : Graph) (pn : List Nat) (lbl : Nat → Int) (i : Nat) (P : Portal) : Prop :=
  ∃ p, pn[i]? = some p ∧
    portalLoop g (searchFuel g) (searchInit g p) = some P.D_v ∧
    (∀ l x, x ∈ mapGet P.N_l l ↔ ∃ v, v < g.n ∧ lbl v = l ∧ x = (P.D_v.getD v infinity, v)) ∧
    ∀ l, (mapGet P.N_l l).Pairwise ltWN

/-- The vertex record `vx` built for the vertex `v` by `initializeDistances(v)`. -/
def VertexBuilt (g : Graph) (pidx : List Int) (llabels : List Int) (v : Nat) (vx : Vertex) :
    Prop :=
  llabels[v]? = some vx.label ∧
    ∃ r, localLoop g pidx (searchFuel g) (searchInit g v) [] = some r ∧
      vx.p = r.1.getD (0, 0) ∧ vx.dist = r.2

/-- The entry `lab` of `labels` at index `j` after `initializeLabels`: its set for the label
`l2` holds the records `(d, (u, v))` for the vertices `v` labelled `j` and the entries `(d, u)`
of `vertices[v].dist` with `u` labelled `l2`; no set is empty. -/
def LabelBuilt (vertices : List Vertex) (j : Nat) (lab : Label) : Prop :=
  (∀ l2 x, x ∈ mapGet lab.P_l l2 ↔
    ∃ vx, vertices[x.2.2]? = some vx ∧ vx.label = (j : Int) ∧ (x.1, x.2.1) ∈ vx.dist ∧
      labelOf vertices x.2.1 = l2) ∧
  (∀ l2, (mapGet lab.P_l l2).Pairwise ltWNN) ∧
  ∀ l2, mapFind lab.P_l l2 ≠ some []

/-- The fields of the oracle that `initializeWithLabels` returns for the graph `g`, the portal
vertices `pn` with their index table `pidx`, and the labels `llabels`. -/
structure Built (g : Graph) (pn : List Nat) (pidx : List Int) (llabels : List Int)
    (o : Oracle) : Prop where
  g_eq : o.g = g
  pn_eq : o.portalNumbers = pn
  pidx_eq : o.portalIndices = pidx
  vlen : o.vertices.length = g.n
  vert : ∀ (v : Nat) (vx : Vertex), o.vertices[v]? = some vx → VertexBuilt g pidx llabels v vx
  plen : o.portals.length = pn.length
  port : ∀ (i : Nat) (P : Portal), o.portals[i]? = some P →
    PortalBuilt g pn (labelOf o.vertices) i P
  llen : o.labels.length = g.n
  lab : ∀ (j : Nat) (lab : Label), o.labels[j]? = some lab → LabelBuilt o.vertices j lab

/-- The state `o2` reached from the constructed oracle `o` by `setLabel` calls after which the
table `cur` holds the current label of every vertex: only the buckets of the portals have
changed, and the bucket of a label holds the pairs `(D_v[u], u)` of the vertices `u` that
currently hold the label. -/
structure Updated (g : Graph) (cur : List Int) (o o2 : Oracle) : Prop where
  vertices_eq : o2.vertices = o.vertices
  labels_eq : o2.labels = o.labels
  plen : o2.portals.length = o.portals.length
  port : ∀ (i : Nat) (P2 : Portal), o2.portals[i]? = some P2 →
    ∃ P, o.portals[i]? = some P ∧ P2.D_v = P.D_v ∧
      ∀ l x, x ∈ mapGet P2.N_l l ↔
        ∃ u, u < g.n ∧ cur[u]? = some l ∧ x = (P.D_v.getD u infinity, u)

/-- What the search of `initializeDistances` from `src` returns, in full: the list is sorted by
distance, holds a vertex at most once, and each entry is a vertex that is not a portal with its
true distance from `src`; `p`, when assigned, is the true distance to a nearest portal, no
entry is farther than `p`, and every vertex nearer than `p` is in the list; when `p` is left
unassigned, no portal can be reached and every vertex that can be reached is in the list. -/
structure LocalExact (g : Graph) (portalIndices : List Int) (src : Nat)
    (r : Option (W × Nat) × List (W × Nat)) : Prop where
  sorted : r.2.Pairwise (fun a b => a.1 ≤ b.1)
  nodup : (r.2.map Prod.snd).Nodup
  exact : ∀ c ∈ r.2, portalIndices.getD c.2 (-1) = -1 ∧
    ∃ k : Nat, c.1 = (k : W) ∧ Walk g src c.2 k ∧ ∀ k2, Walk g src c.2 k2 → k ≤ k2
  nearest : ∀ q, r.1 = some q →
    ∃ (u k : Nat), portalIndices.getD u (-1) ≠ -1 ∧
      q.2 = (portalIndices.getD u (-1)).toNat ∧ q.1 = (k : W) ∧ Walk g src u k ∧
      (∀ (w k2 : Nat), portalIndices.getD w (-1) ≠ -1 → Walk g src w k2 → k ≤ k2) ∧
      (∀ c ∈ r.2, c.1 ≤ q.1) ∧
      ∀ (x k2 : Nat), Walk g src x k2 → k2 < k → ∃ c ∈ r.2, c.2 = x
  unassigned : r.1 = none →
    ∀ (u k : Nat), Walk g src u k → portalIndices.getD u (-1) = -1 ∧ ∃ c ∈ r.2, c.2 = u

/-- Modelled from the spec: for `n ≥ 1` the number `r` is `sqrt(n)` rounded to the nearest
integer, `r - 1/2 < sqrt(n) < r + 1/2`, written without square roots as
`(2r - 1)^2 < 4n < (2r + 1)^2`. -/
def IsRoundSqrt (n r : Nat) : Prop :=
  4 * r * r + 1 < 4 * n + 4 * r ∧ 4 * n < (2 * r + 1) * (2 * r + 1)

instance isRoundSqrtDecidable (n r : Nat) : Decidable (IsRoundSqrt n r) := by
  unfold IsRoundSqrt
  exact inferInstance
/-! ## The construction reads the shuffle through `resize` only -/

set_option maxRecDepth 100000

theorem initializeWithLabels_congr (g : Graph) (perm perm2 : List Nat) (ll : List Int) (ro : Int)
    (h : ∀ k, portalCount g.n ro = some k → resizeInt perm k = resizeInt perm2 k) :
    initializeWithLabels g perm ll ro = initializeWithLabels g perm2 ll ro := by
  unfold initializeWithLabels
  cases hv : initVertices g.n ll with
  | none => rfl
  | some vs =>
    cases hk : portalCount g.n ro with
    | none => rfl
    | some k =>
      have h1 : selectPortals g perm k = selectPortals g perm2 k := by
        simp only [selectPortals, h k hk]
      simp only [h1]

theorem initializeWithLabels_one (g : Graph) (p : Nat) (rest : List Nat) (ll : List Int) :
    initializeWithLabels g (p :: rest) ll 1 = initializeWithLabels g [p] ll 1 := by
  apply initializeWithLabels_congr
  intro k hk
  have hk1 : k = 1 := by
    simp [portalCount] at hk
    exact hk.symm
  subst hk1
  simp [resizeInt]

theorem perm_range_five (perm : List Nat) (h : perm.Perm (List.range 5)) :
    ∃ p rest, perm = p :: rest ∧ p < 5 := by
  cases perm with
  | nil => simpa using h.length_eq
  | cons p rest =>
    refine ⟨p, rest, rfl, ?_⟩
    have hp : p ∈ List.range 5 := h.subset (List.mem_cons_self _ _)
    simpa using hp

/-! ## Orders on pairs -/

theorem pairLt_isStrictTotalOrder {α β : Type} [LinearOrder α] (r : β → β → Prop)
    [IsStrictTotalOrder β r] : IsStrictTotalOrder (α × β) (pairLt r) where
  trichotomous := by
    rintro ⟨a1, a2⟩ ⟨b1, b2⟩
    simp only [pairLt, Prod.mk.injEq]
    rcases lt_trichotomy a1 b1 with h | h | h
    · exact Or.inl (Or.inl h)
    · rcases trichotomous_of r a2 b2 with h2 | h2 | h2
      · exact Or.inl (Or.inr ⟨h, h2⟩)
      · exact Or.inr (Or.inl ⟨h, h2⟩)
      · exact Or.inr (Or.inr (Or.inr ⟨h.symm, h2⟩))
    · exact Or.inr (Or.inr (Or.inl h))
  irrefl := by
    rintro ⟨a1, a2⟩ h
    rcases h with h | ⟨_, h⟩
    · exact lt_irrefl _ h
    · exact irrefl_of r _ h
  trans := by
    rintro ⟨a1, a2⟩ ⟨b1, b2⟩ ⟨c1, c2⟩ hab hbc
    simp only [pairLt] at hab hbc ⊢
    rcases hab with h | ⟨h, h2⟩
    · rcases hbc with k | ⟨k, _⟩
      · exact Or.inl (lt_trans h k)
      · exact Or.inl (k ▸ h)
    · rcases hbc with k | ⟨k, k2⟩
      · exact Or.inl (h ▸ k)
      · exact Or.inr ⟨h.trans k, trans_of r h2 k2⟩

theorem ltWN_sto : IsStrictTotalOrder (W × Nat) ltWN :=
  pairLt_isStrictTotalOrder _

theorem ltNN_sto : IsStrictTotalOrder (Nat × Nat) ltNN :=
  pairLt_isStrictTotalOrder _

theorem ltWNN_sto : IsStrictTotalOrder (W × (Nat × Nat)) ltWNN :=
  haveI := ltNN_sto
  pairLt_isStrictTotalOrder _

theorem not_ltWN_fst {a b : W × Nat} (h : ¬ ltWN a b) : b.1 ≤ a.1 := by
  by_contra hc
  exact h (Or.inl (lt_of_not_le hc))

/-! ## Sets as strictly increasing lists -/

section SetLemmas

variable {α : Type} (lt : α → α → Prop) [DecidableRel lt] [IsStrictTotalOrder α lt]

theorem mem_setInsert (x y : α) (s : List α) : y ∈ setInsert lt x s ↔ y = x ∨ y ∈ s := by
  induction s with
  | nil => simp [setInsert]
  | cons z zs ih =>
    unfold setInsert
    split_ifs with h1 h2
    · simp
    · simp only [List.mem_cons, ih]
      tauto
    · have hxz : x = z := by
        rcases trichotomous_of lt x z with h | h | h
        · exact absurd h h1
        · exact h
        · exact absurd h h2
      subst hxz
      simp

theorem sorted_setInsert (x : α) (s : List α) (hs : s.Pairwise lt) :
    (setInsert lt x s).Pairwise lt := by
  induction s with
  | nil => simp [setInsert]
  | cons z zs ih =>
    rw [List.pairwise_cons] at hs
    unfold setInsert
    split_ifs with h1 h2
    · rw [List.pairwise_cons]
      refine ⟨?_, List.pairwise_cons.mpr hs⟩
      intro y hy
      rcases List.mem_cons.mp hy with rfl | hy
      · exact h1
      · exact trans_of lt h1 (hs.1 y hy)
    · rw [List.pairwise_cons]
      refine ⟨?_, ih hs.2⟩
      intro y hy
      rcases (mem_setInsert lt x y zs).mp hy with rfl | hy
      · exact h2
      · exact hs.1 y hy
    · exact List.pairwise_cons.mpr hs

theorem mem_setErase (x y : α) (s : List α) : y ∈ setErase lt x s ↔ y ∈ s ∧ y ≠ x := by
  unfold setErase
  rw [List.mem_filter]
  refine and_congr_right (fun _ => ?_)
  rw [decide_eq_true_iff]
  constructor
  · rintro (h | h) rfl <;> exact irrefl_of lt _ h
  · intro hne
    rcases trichotomous_of lt x y with h | h | h
    · exact Or.inl h
    · exact absurd h.symm hne
    · exact Or.inr h

end SetLemmas

theorem sorted_setErase {α : Type} (lt : α → α → Prop) [DecidableRel lt] (x : α) (s : List α)
    (hs : s.Pairwise lt) :
    (setErase lt x s).Pairwise lt :=
  hs.filter _

theorem head_le_of_sorted {α : Type} (lt : α → α → Prop) {x y : α} {t s : List α}
    (hs : s.Pairwise lt) (hx : s = x :: t)
    (hy : y ∈ s) : y = x ∨ lt x y := by
  subst hx
  rw [List.pairwise_cons] at hs
  rcases List.mem_cons.mp hy with h | h
  · exact Or.inl h
  · exact Or.inr (hs.1 y h)

/-! ## Maps as association lists -/

section MapLemmas

variable {κ β : Type} [DecidableEq κ]

theorem mapGet_mapModify (f : List β → List β) (k k2 : κ) (m : List (κ × List β)) :
    mapGet (mapModify f k m) k2 = if k2 = k then f (mapGet m k) else mapGet m k2 := by
  induction m with
  | nil =>
    simp only [mapModify, mapGet]
    by_cases h : k2 = k
    · simp [h]
    · have h2 : ¬ k = k2 := fun e => h e.symm
      simp [h, h2]
  | cons e m ih =>
    obtain ⟨k1, b⟩ := e
    simp only [mapModify]
    by_cases h1 : k1 = k
    · subst h1
      simp only [if_true, mapGet]
      by_cases h : k2 = k1
      · subst h
        simp
      · have h2 : ¬ k1 = k2 := fun e => h e.symm
        simp [h, h2]
    · simp only [h1, if_false, mapGet]
      by_cases h : k1 = k2
      · subst h
        simp [h1]
      · simp only [h, if_false, ih]

theorem mapFind_mapModify (f : List β → List β) (k k2 : κ) (m : List (κ × List β)) :
    mapFind (mapModify f k m) k2 =
      if k2 = k then some (f (mapGet m k)) else mapFind m k2 := by
  induction m with
  | nil =>
    simp only [mapModify, mapFind, mapGet]
    by_cases h : k2 = k
    · simp [h]
    · have h2 : ¬ k = k2 := fun e => h e.symm
      simp [h, h2]
  | cons e m ih =>
    obtain ⟨k1, b⟩ := e
    simp only [mapModify]
    by_cases h1 : k1 = k
    · subst h1
      simp only [if_true, mapFind, mapGet]
      by_cases h : k2 = k1
      · subst h
        simp
      · have h2 : ¬ k1 = k2 := fun e => h e.symm
        simp [h, h2]
    · simp only [h1, if_false, mapFind, mapGet]
      by_cases h : k1 = k2
      · subst h
        simp [h1]
      · simp only [h, if_false, ih]

theorem mapGet_of_mapFind {m : List (κ × List β)} {k : κ} {s : List β}
    (h : mapFind m k = some s) : mapGet m k = s := by
  induction m with
  | nil => simp [mapFind] at h
  | cons e m ih =>
    obtain ⟨k1, b⟩ := e
    simp only [mapFind, mapGet] at h ⊢
    split_ifs at h ⊢ with h1
    · exact Option.some.inj h
    · exact ih h

theorem mapGet_of_mapFind_none {m : List (κ × List β)} {k : κ}
    (h : mapFind m k = none) : mapGet m k = [] := by
  induction m with
  | nil => rfl
  | cons e m ih =>
    obtain ⟨k1, b⟩ := e
    simp only [mapFind, mapGet] at h ⊢
    split_ifs at h ⊢ with h1
    exact ih h

end MapLemmas

/-! ## The priority queue -/

theorem pqMin_mem (m : W × Nat) (xs : List (W × Nat)) : pqMin m xs ∈ m :: xs := by
  induction xs generalizing m with
  | nil => simp [pqMin]
  | cons x xs ih =>
    simp only [pqMin]
    have h := ih (if ltWN x m then x else m)
    split_ifs at h ⊢ with hx
    · exact List.mem_cons_of_mem _ h
    · rcases List.mem_cons.mp h with h | h
      · rw [h]; exact List.mem_cons_self _ _
      · exact List.mem_cons_of_mem _ (List.mem_cons_of_mem _ h)

theorem pqMin_le (m : W × Nat) (xs : List (W × Nat)) :
    ∀ y ∈ m :: xs, ¬ ltWN y (pqMin m xs) := by
  haveI := ltWN_sto
  induction xs generalizing m with
  | nil =>
    intro y hy
    simp only [List.mem_singleton] at hy
    subst hy
    exact irrefl_of ltWN _
  | cons x xs ih =>
    intro y hy
    simp only [pqMin]
    have hmin := ih (if ltWN x m then x else m)
    rcases List.mem_cons.mp hy with rfl | hy
    · split_ifs at hmin ⊢ with hx
      · intro hc
        exact hmin x (List.mem_cons_self _ _) (trans_of ltWN hx hc)
      · exact hmin y (List.mem_cons_self _ _)
    · rcases List.mem_cons.mp hy with rfl | hy
      · split_ifs at hmin ⊢ with hx
        · exact hmin y (List.mem_cons_self _ _)
        · intro hc
          have h1 := hmin m (List.mem_cons_self _ _)
          rcases trichotomous_of ltWN y m with h | h | h
          · exact hx h
          · rw [h] at hc; exact h1 hc
          · exact h1 (trans_of ltWN h hc)
      · exact hmin y (List.mem_cons_of_mem _ hy)

theorem pqTop_some {q : List (W × Nat)} {c : W × Nat} (h : pqTop q = some c) :
    c ∈ q ∧ ∀ y ∈ q, c.1 ≤ y.1 := by
  cases q with
  | nil => simp [pqTop] at h
  | cons x xs =>
    simp only [pqTop, Option.some.injEq] at h
    subst h
    exact ⟨pqMin_mem x xs, fun y hy => not_ltWN_fst (pqMin_le x xs y hy)⟩

theorem pqTop_none {q : List (W × Nat)} (h : pqTop q = none) : q = [] := by
  cases q with
  | nil => rfl
  | cons x xs => simp [pqTop] at h

/-! ## Reading and writing the distance vector -/

theorem getD_set_self {l : List W} {i : Nat} (h : i < l.length) (a : W) :
    (l.set i a).getD i infinity = a := by
  simp [List.getD_eq_getElem?_getD, List.getElem?_set, h]

theorem getD_set_ne {l : List W} {i j : Nat} (h : i ≠ j) (a : W) :
    (l.set i a).getD j infinity = l.getD j infinity := by
  simp [List.getD_eq_getElem?_getD, List.getElem?_set, h]

theorem getD_set_le {l : List W} {i : Nat} {a : W} (h : a ≤ l.getD i infinity) (j : Nat) :
    (l.set i a).getD j infinity ≤ l.getD j infinity := by
  by_cases hij : i = j
  · subst hij
    by_cases hi : i < l.length
    · rw [getD_set_self hi]; exact h
    · have : l.set i a = l := by
        apply List.set_eq_of_length_le
        exact Nat.le_of_not_lt hi
      rw [this]
  · rw [getD_set_ne hij]

/-! ## One relaxation -/

theorem relaxEdge_inv {g : Graph} {src u : Nat} {m : W} {done : List Edge} {s : Search}
    (e : Edge) (he : e ∈ g.edges.getD u []) (hv : e.v < g.n)
    (h : RelaxInv g src u m done s) :
    RelaxInv g src u m (done ++ [e]) (relaxEdge m s e) ∧
      (∀ x, Closed s x → Closed (relaxEdge m s e) x) ∧
      (relaxEdge m s e).queue.length ≤ s.queue.length + 1 := by
  unfold relaxEdge
  simp only
  split_ifs with hlt
  · -- the edge improves `dist[e.v]`
    have hvlen : e.v < s.dist.length := by rw [h.len]; exact hv
    have hmle : m ≤ m + (e.w : W) := le_self_add
    have hne : e.v ≠ u := by
      intro heq
      rw [heq, h.cur.1] at hlt
      exact absurd hlt (not_lt.mpr hmle)
    have hnotclosed : ¬ Closed s e.v := fun hc =>
      absurd (lt_of_lt_of_le hlt (h.closedLe _ hc)) (not_lt.mpr hmle)
    have hwfin : m + (e.w : W) ≠ infinity := ne_top_of_lt hlt
    have hdle : ∀ j, (s.dist.set e.v (m + (e.w : W))).getD j infinity ≤ s.dist.getD j infinity :=
      fun j => getD_set_le (le_of_lt hlt) j
    have hclosed : ∀ x, Closed s x →
        Closed ⟨(m + (e.w : W), e.v) :: s.queue, s.dist.set e.v (m + (e.w : W))⟩ x := by
      intro x hx
      have hxv : e.v ≠ x := fun heq => hnotclosed (heq ▸ hx)
      refine ⟨?_, ?_⟩
      · simp only [getD_set_ne hxv]; exact hx.1
      · simp only [getD_set_ne hxv, List.mem_cons, Prod.mk.injEq, not_or]
        exact ⟨fun hc => hxv hc.2.symm, hx.2⟩
    have hclosed2 : ∀ x,
        Closed ⟨(m + (e.w : W), e.v) :: s.queue, s.dist.set e.v (m + (e.w : W))⟩ x →
        x ≠ e.v ∧ Closed s x := by
      intro x hx
      have hxv : x ≠ e.v := by
        intro heq
        subst heq
        apply hx.2
        simp only [getD_set_self hvlen]
        exact List.mem_cons_self _ _
      refine ⟨hxv, ?_, ?_⟩
      · have h1 := hx.1
        simp only [getD_set_ne hxv.symm] at h1
        exact h1
      · have h2 := hx.2
        simp only [getD_set_ne hxv.symm] at h2
        exact fun hc => h2 (List.mem_cons_of_mem _ hc)
    refine ⟨?_, hclosed, by simp⟩
    constructor
    · simp [h.len]
    · simp only [List.nodup_cons]
      refine ⟨?_, h.nodup⟩
      intro hmem
      exact absurd (lt_of_lt_of_le hlt (h.qlt _ _ hmem).2.2) (lt_irrefl _)
    · intro d x hmem
      simp only [List.mem_cons, Prod.mk.injEq] at hmem
      rcases hmem with ⟨rfl, rfl⟩ | hmem
      · refine ⟨hv, hwfin, ?_⟩
        simp only [getD_set_self hvlen]
        exact le_refl _
      · obtain ⟨h1, h2, h3⟩ := h.qlt d x hmem
        exact ⟨h1, h2, le_trans (hdle x) h3⟩
    · intro x k hk
      simp only at hk
      by_cases hxv : e.v = x
      · subst hxv
        rw [getD_set_self hvlen] at hk
        obtain ⟨k0, hk0⟩ : ∃ k0 : Nat, m = (k0 : W) := by
          have hmfin : m ≠ ⊤ := h.cur.2.1
          exact ⟨m.toNat, (ENat.coe_toNat hmfin).symm⟩
        have hw0 : Walk g src u k0 := h.walk u k0 (by rw [h.cur.1, hk0])
        have hkeq : k = k0 + e.w := by
          rw [hk0] at hk
          have : ((k0 + e.w : Nat) : W) = (k : W) := by
            rw [← hk]; push_cast; rfl
          exact (Nat.cast_inj.mp this).symm
        rw [hkeq]
        exact Walk.snoc hw0 he
      · rw [getD_set_ne hxv] at hk
        exact h.walk x k hk
    · simp only
      have hsv : e.v ≠ src := by
        intro heq
        rw [heq, h.src0] at hlt
        exact absurd hlt (not_lt.mpr (zero_le _))
      rw [getD_set_ne hsv]
      exact h.src0
    · simp only [getD_set_ne hne, List.mem_cons, Prod.mk.injEq, not_or]
      exact ⟨h.cur.1, h.cur.2.1, h.cur.2.2.1, fun hc => hne hc.2.symm, h.cur.2.2.2⟩
    · intro d y hmem
      simp only [List.mem_cons, Prod.mk.injEq] at hmem
      rcases hmem with ⟨rfl, rfl⟩ | hmem
      · exact hmle
      · exact h.lower d y hmem
    · intro x hx
      obtain ⟨hxv, hcx⟩ := hclosed2 x hx
      simp only [getD_set_ne hxv.symm]
      exact h.closedLe x hcx
    · intro x hxu hx e2 he2
      obtain ⟨hxv, hcx⟩ := hclosed2 x hx
      simp only [getD_set_ne hxv.symm]
      exact le_trans (hdle e2.v) (h.relaxed x hxu hcx e2 he2)
    · intro e2 he2
      simp only
      rcases List.mem_append.mp he2 with he2 | he2
      · exact le_trans (hdle e2.v) (h.doneLe e2 he2)
      · rw [List.mem_singleton.mp he2, getD_set_self hvlen]
  · refine ⟨?_, fun x hx => hx, Nat.le_succ _⟩
    refine { h with doneLe := ?_ }
    intro e2 he2
    rcases List.mem_append.mp he2 with he2 | he2
    · exact h.doneLe e2 he2
    · rw [List.mem_singleton.mp he2]
      exact not_lt.mp hlt

theorem relaxEdges_inv {g : Graph} (hg : g.WF) {src u : Nat} {m : W} (es : List Edge) :
    ∀ {done : List Edge} {s : Search}, (∀ e ∈ es, e ∈ g.edges.getD u []) →
      RelaxInv g src u m done s →
      RelaxInv g src u m (done ++ es) (relaxEdges es m s) ∧
        (∀ x, Closed s x → Closed (relaxEdges es m s) x) ∧
        (relaxEdges es m s).queue.length ≤ s.queue.length + es.length := by
  induction es with
  | nil =>
    intro done s _ h
    simp only [relaxEdges, List.foldl_nil, List.append_nil, List.length_nil, Nat.add_zero]
    exact ⟨h, fun x hx => hx, le_refl _⟩
  | cons e es ih =>
    intro done s hes h
    have he : e ∈ g.edges.getD u [] := hes e (List.mem_cons_self _ _)
    obtain ⟨h1, h2, h3⟩ := relaxEdge_inv e he (hg.2 u e he) h
    obtain ⟨k1, k2, k3⟩ := ih (fun e2 he2 => hes e2 (List.mem_cons_of_mem _ he2)) h1
    refine ⟨?_, ?_, ?_⟩
    · have hl : done ++ e :: es = done ++ [e] ++ es := by simp
      rw [hl]
      exact k1
    · exact fun x hx => k2 x (h2 x hx)
    · simp only [relaxEdges, List.foldl_cons, List.length_cons] at k3 ⊢
      omega

/-! ## Popping the queue -/

theorem searchInv_stale {g : Graph} {src : Nat} {s : Search} {c : W × Nat}
    (h : SearchInv g src s) (hst : c.1 ≠ s.dist.getD c.2 infinity) :
    SearchInv g src { s with queue := s.queue.erase c } ∧
      (∀ x, Closed s x → Closed { s with queue := s.queue.erase c } x) := by
  have hsub : ∀ y, y ∈ s.queue.erase c → y ∈ s.queue := fun y hy => List.mem_of_mem_erase hy
  have hcl : ∀ x, Closed { s with queue := s.queue.erase c } x → Closed s x := by
    intro x hx
    refine ⟨hx.1, fun hmem => hx.2 ?_⟩
    have hne : (s.dist.getD x infinity, x) ≠ c := by
      intro heq
      apply hst
      rw [← heq]
    exact (List.mem_erase_of_ne hne).mpr hmem
  refine ⟨?_, fun x hx => ⟨hx.1, fun hmem => hx.2 (hsub _ hmem)⟩⟩
  constructor
  · exact h.len
  · exact h.nodup.erase c
  · exact fun d x hmem => h.qlt d x (hsub _ hmem)
  · exact h.walk
  · exact h.src0
  · exact fun x hx d y hmem => h.mono x (hcl x hx) d y (hsub _ hmem)
  · exact fun x hx => h.relaxed x (hcl x hx)

theorem searchInv_pop {g : Graph} {src : Nat} {s : Search} {c : W × Nat}
    (h : SearchInv g src s) (htop : pqTop s.queue = some c)
    (hst : c.1 = s.dist.getD c.2 infinity) :
    RelaxInv g src c.2 c.1 [] { s with queue := s.queue.erase c } ∧
      (∀ x, Closed s x → Closed { s with queue := s.queue.erase c } x) ∧
      ¬ Closed s c.2 ∧ Closed { s with queue := s.queue.erase c } c.2 ∧ c.2 < g.n := by
  obtain ⟨hmem, hmin⟩ := pqTop_some htop
  obtain ⟨hn, hfin, _⟩ := h.qlt c.1 c.2 hmem
  have hsub : ∀ y, y ∈ s.queue.erase c → y ∈ s.queue := fun y hy => List.mem_of_mem_erase hy
  have hnot : c ∉ s.queue.erase c := h.nodup.not_mem_erase
  have hcl : ∀ x, x ≠ c.2 → Closed { s with queue := s.queue.erase c } x → Closed s x := by
    intro x hxu hx
    refine ⟨hx.1, fun hm => hx.2 ?_⟩
    have hne : (s.dist.getD x infinity, x) ≠ c := by
      intro heq
      apply hxu
      rw [← heq]
    exact (List.mem_erase_of_ne hne).mpr hm
  refine ⟨?_, fun x hx => ⟨hx.1, fun hm => hx.2 (hsub _ hm)⟩, ?_, ?_, hn⟩
  · constructor
    · exact h.len
    · exact h.nodup.erase c
    · exact fun d x hm => h.qlt d x (hsub _ hm)
    · exact h.walk
    · exact h.src0
    · exact ⟨hst.symm, hfin, hn, hnot⟩
    · exact fun d y hm => hmin (d, y) (hsub _ hm)
    · intro x hx
      by_cases hxu : x = c.2
      · rw [hxu, ← hst]
      · exact h.mono x (hcl x hxu hx) c.1 c.2 hmem
    · exact fun x hxu hx => h.relaxed x (hcl x hxu hx)
    · intro e he
      exact absurd he (List.not_mem_nil _)
  · intro hc
    apply hc.2
    rw [← hst]
    exact hmem
  · refine ⟨?_, ?_⟩
    · show s.dist.getD c.2 infinity ≠ infinity
      rw [← hst]
      exact hfin
    · show (s.dist.getD c.2 infinity, c.2) ∉ s.queue.erase c
      rw [← hst]
      exact hnot

theorem searchInv_of_relaxInv {g : Graph} {src u : Nat} {m : W} {s : Search}
    (h : RelaxInv g src u m (g.edges.getD u []) s) : SearchInv g src s := by
  constructor
  · exact h.len
  · exact h.nodup
  · exact h.qlt
  · exact h.walk
  · exact h.src0
  · exact fun x hx d y hm => le_trans (h.closedLe x hx) (h.lower d y hm)
  · intro x hx e he
    by_cases hxu : x = u
    · subst hxu
      rw [h.cur.1]
      exact h.doneLe e he
    · exact h.relaxed x hxu hx e he

/-- The state after a vertex has been popped with its current distance and its edges have been
relaxed. -/
theorem searchInv_step {g : Graph} (hg : g.WF) {src : Nat} {s : Search} {c : W × Nat}
    (h : SearchInv g src s) (htop : pqTop s.queue = some c)
    (hst : c.1 = s.dist.getD c.2 infinity) :
    SearchInv g src
        (relaxEdges (g.edges.getD c.2 []) c.1 { s with queue := s.queue.erase c }) ∧
      (∀ x, Closed s x →
        Closed (relaxEdges (g.edges.getD c.2 []) c.1 { s with queue := s.queue.erase c }) x) ∧
      Closed (relaxEdges (g.edges.getD c.2 []) c.1 { s with queue := s.queue.erase c }) c.2 ∧
      (relaxEdges (g.edges.getD c.2 []) c.1 { s with queue := s.queue.erase c }).queue.length
        ≤ (s.queue.erase c).length + degree g c.2 := by
  obtain ⟨h1, h2, _, h4, _⟩ := searchInv_pop h htop hst
  obtain ⟨k1, k2, k3⟩ := relaxEdges_inv hg (g.edges.getD c.2 []) (fun e he => he) h1
  rw [List.nil_append] at k1
  exact ⟨searchInv_of_relaxInv k1, fun x hx => k2 x (h2 x hx), k2 _ h4, k3⟩

/-! ## Vertices are closed only by being popped -/

theorem closed_of_erase_stale {s : Search} {c : W × Nat}
    (hst : c.1 ≠ s.dist.getD c.2 infinity) (x : Nat)
    (hx : Closed { s with queue := s.queue.erase c } x) : Closed s x := by
  refine ⟨hx.1, fun hmem => hx.2 ?_⟩
  have hne : (s.dist.getD x infinity, x) ≠ c := by
    intro heq
    apply hst
    rw [← heq]
  exact (List.mem_erase_of_ne hne).mpr hmem

theorem closed_of_erase {s : Search} {c : W × Nat} (x : Nat) (hxu : x ≠ c.2)
    (hx : Closed { s with queue := s.queue.erase c } x) : Closed s x := by
  refine ⟨hx.1, fun hm => hx.2 ?_⟩
  have hne : (s.dist.getD x infinity, x) ≠ c := by
    intro heq
    apply hxu
    rw [← heq]
  exact (List.mem_erase_of_ne hne).mpr hm

theorem closed_of_relaxEdge {g : Graph} {src u : Nat} {m : W} {done : List Edge} {s : Search}
    (e : Edge) (hv : e.v < g.n) (h : RelaxInv g src u m done s) (x : Nat)
    (hx : Closed (relaxEdge m s e) x) : Closed s x := by
  unfold relaxEdge at hx
  simp only at hx
  split_ifs at hx with hlt
  · have hvlen : e.v < s.dist.length := by rw [h.len]; exact hv
    have hxv : x ≠ e.v := by
      intro heq
      subst heq
      apply hx.2
      simp only [getD_set_self hvlen]
      exact List.mem_cons_self _ _
    refine ⟨?_, ?_⟩
    · have h1 := hx.1
      simp only [getD_set_ne hxv.symm] at h1
      exact h1
    · have h2 := hx.2
      simp only [getD_set_ne hxv.symm] at h2
      exact fun hc => h2 (List.mem_cons_of_mem _ hc)
  · exact hx

theorem closed_of_relaxEdges {g : Graph} (hg : g.WF) {src u : Nat} {m : W} (es : List Edge) :
    ∀ {done : List Edge} {s : Search}, (∀ e ∈ es, e ∈ g.edges.getD u []) →
      RelaxInv g src u m done s → ∀ x, Closed (relaxEdges es m s) x → Closed s x := by
  induction es with
  | nil => intro done s _ _ x hx; exact hx
  | cons e es ih =>
    intro done s hes h x hx
    have he : e ∈ g.edges.getD u [] := hes e (List.mem_cons_self _ _)
    obtain ⟨h1, _, _⟩ := relaxEdge_inv e he (hg.2 u e he) h
    have hx2 : Closed (relaxEdge m s e) x :=
      ih (fun e2 he2 => hes e2 (List.mem_cons_of_mem _ he2)) h1 x hx
    exact closed_of_relaxEdge e (hg.2 u e he) h x hx2

theorem closed_of_step {g : Graph} (hg : g.WF) {src : Nat} {s : Search} {c : W × Nat}
    (h : SearchInv g src s) (htop : pqTop s.queue = some c)
    (hst : c.1 = s.dist.getD c.2 infinity) (x : Nat)
    (hx : Closed (relaxEdges (g.edges.getD c.2 []) c.1 { s with queue := s.queue.erase c }) x) :
    Closed s x ∨ x = c.2 := by
  obtain ⟨h1, _, _, _, _⟩ := searchInv_pop h htop hst
  have hx1 := closed_of_relaxEdges hg (g.edges.getD c.2 []) (fun e he => he) h1 x hx
  by_cases hxu : x = c.2
  · exact Or.inr hxu
  · exact Or.inl (closed_of_erase x hxu hx1)

/-! ## The measure -/

theorem openWeight_mono (g : Graph) {s t : Search} (h : ∀ x, Closed s x → Closed t x)
    (l : List Nat) : openWeight g t l ≤ openWeight g s l := by
  induction l with
  | nil => simp [openWeight]
  | cons y l ih =>
    simp only [openWeight] at ih ⊢
    by_cases hs : Closed s y
    · have ht : Closed t y := h y hs
      simp only [List.filter_cons, hs, ht, not_true_eq_false, decide_False, Bool.false_eq_true,
        if_false]
      exact ih
    · by_cases ht : Closed t y
      · simp only [List.filter_cons, hs, ht, not_true_eq_false, not_false_eq_true, decide_True,
          decide_False, Bool.false_eq_true, if_false, if_true, List.map_cons, List.sum_cons]
        exact le_trans ih (Nat.le_add_left _ _)
      · simp only [List.filter_cons, hs, ht, not_false_eq_true, decide_True, if_true,
          List.map_cons, List.sum_cons]
        exact Nat.add_le_add_left ih _

theorem openWeight_strict (g : Graph) {s t : Search} (h : ∀ x, Closed s x → Closed t x)
    {u : Nat} (h1 : ¬ Closed s u) (h2 : Closed t u) (l : List Nat) (hu : u ∈ l) :
    openWeight g t l + degree g u ≤ openWeight g s l := by
  induction l with
  | nil => exact absurd hu (List.not_mem_nil _)
  | cons y l ih =>
    by_cases hy : y = u
    · subst hy
      have hm := openWeight_mono g h l
      simp only [openWeight] at hm ⊢
      simp only [List.filter_cons, h1, h2, not_true_eq_false, not_false_eq_true, decide_True,
        decide_False, Bool.false_eq_true, if_false, if_true, List.map_cons, List.sum_cons]
      omega
    · have hul : u ∈ l := by
        rcases List.mem_cons.mp hu with h3 | h3
        · exact absurd h3.symm hy
        · exact h3
      have ih2 := ih hul
      simp only [openWeight] at ih2 ⊢
      by_cases hs : Closed s y
      · have ht : Closed t y := h y hs
        simp only [List.filter_cons, hs, ht, not_true_eq_false, decide_False,
          Bool.false_eq_true, if_false]
        exact ih2
      · by_cases ht : Closed t y
        · simp only [List.filter_cons, hs, ht, not_true_eq_false, not_false_eq_true,
            decide_True, decide_False, Bool.false_eq_true, if_false, if_true, List.map_cons,
            List.sum_cons]
          omega
        · simp only [List.filter_cons, hs, ht, not_false_eq_true, decide_True, if_true,
            List.map_cons, List.sum_cons]
          omega

theorem openWeight_le_sum (g : Graph) (s : Search) (l : List Nat) :
    openWeight g s l ≤ (l.map (degree g)).sum := by
  induction l with
  | nil => simp [openWeight]
  | cons y l ih =>
    simp only [openWeight] at ih ⊢
    by_cases hs : Closed s y
    · simp only [List.filter_cons, hs, not_true_eq_false, decide_False, Bool.false_eq_true,
        if_false, List.map_cons, List.sum_cons]
      omega
    · simp only [List.filter_cons, hs, not_false_eq_true, decide_True, if_true, List.map_cons,
        List.sum_cons]
      omega

theorem map_degree_range (g : Graph) (hg : g.WF) :
    (List.range g.n).map (degree g) = g.edges.map List.length := by
  rw [← hg.1]
  apply List.ext_getElem
  · simp
  · intro i h1 h2
    simp only [List.length_map, List.length_range] at h1
    simp [degree, List.getD_eq_getElem?_getD, h1]

theorem potential_stale {g : Graph} {src : Nat} {s : Search} {c : W × Nat}
    (h : SearchInv g src s) (hmem : c ∈ s.queue) (hst : c.1 ≠ s.dist.getD c.2 infinity) :
    potential g { s with queue := s.queue.erase c } < potential g s := by
  have hm := openWeight_mono g (searchInv_stale h hst).2 (List.range g.n)
  have hl := List.length_erase_of_mem hmem
  have hpos : 0 < s.queue.length := List.length_pos_of_mem hmem
  simp only [potential, hl]
  omega

theorem potential_step {g : Graph} (hg : g.WF) {src : Nat} {s : Search} {c : W × Nat}
    (h : SearchInv g src s) (htop : pqTop s.queue = some c)
    (hst : c.1 = s.dist.getD c.2 infinity) :
    potential g (relaxEdges (g.edges.getD c.2 []) c.1 { s with queue := s.queue.erase c })
      < potential g s := by
  obtain ⟨_, h2, h3, h4⟩ := searchInv_step hg h htop hst
  obtain ⟨_, _, k3, _, k5⟩ := searchInv_pop h htop hst
  have hmem := (pqTop_some htop).1
  have hl := List.length_erase_of_mem hmem
  have hpos : 0 < s.queue.length := List.length_pos_of_mem hmem
  have hw := openWeight_strict g h2 k3 h3 (List.range g.n) (List.mem_range.mpr k5)
  rw [hl] at h4
  simp only [potential]
  omega

/-! ## The start of a search -/

theorem getD_replicate_set (n v x : Nat) (hv : v < n) :
    ((List.replicate n infinity).set v (0 : W)).getD x infinity =
      if x = v then 0 else infinity := by
  by_cases hx : x = v
  · subst hx
    rw [getD_set_self (by simpa using hv)]
    simp
  · rw [getD_set_ne (fun e => hx e.symm)]
    simp only [hx, if_false]
    simp only [List.getD_eq_getElem?_getD, List.getElem?_replicate]
    split_ifs <;> rfl

theorem searchInv_init (g : Graph) (v : Nat) (hv : v < g.n) :
    SearchInv g v (searchInit g v) := by
  have hd : ∀ x, (searchInit g v).dist.getD x infinity = if x = v then 0 else infinity :=
    fun x => getD_replicate_set g.n v x hv
  have hq : (searchInit g v).queue = [((0 : W), v)] := rfl
  have hnc : ∀ x, ¬ Closed (searchInit g v) x := by
    intro x hx
    by_cases hxv : x = v
    · apply hx.2
      rw [hd, hq, hxv]
      simp
    · apply hx.1
      rw [hd]
      simp [hxv]
  constructor
  · simp [searchInit]
  · simp [searchInit]
  · intro d x hmem
    rw [hq] at hmem
    simp only [List.mem_singleton, Prod.mk.injEq] at hmem
    obtain ⟨rfl, rfl⟩ := hmem
    refine ⟨hv, by simp, ?_⟩
    rw [hd]
    simp
  · intro x k hk
    rw [hd] at hk
    by_cases hxv : x = v
    · subst hxv
      simp only [if_true] at hk
      have hk0 : k = 0 := by exact_mod_cast hk.symm
      subst hk0
      exact Walk.nil hv
    · simp only [hxv, if_false] at hk
      exact absurd hk.symm (ENat.coe_ne_top k)
  · rw [hd]
    simp
  · exact fun x hx => absurd hx (hnc x)
  · exact fun x hx => absurd hx (hnc x)

theorem potential_init (g : Graph) (hg : g.WF) (v : Nat) :
    potential g (searchInit g v) < searchFuel g := by
  have h1 := openWeight_le_sum g (searchInit g v) (List.range g.n)
  rw [map_degree_range g hg] at h1
  have hq : (searchInit g v).queue.length = 1 := rfl
  simp only [potential, searchFuel, hq]
  omega

/-! ## The search of `initializePortals` -/

theorem portalPost_of_empty {g : Graph} {src : Nat} {s : Search} (h : SearchInv g src s)
    (hq : s.queue = []) : PortalPost g src s.dist := by
  refine ⟨h.len, h.walk, ?_⟩
  intro x k hw
  induction hw with
  | nil _ =>
    rw [h.src0]
    simp
  | snoc hw he ih =>
    rename_i y k1 e
    have hfin : s.dist.getD y infinity ≠ infinity :=
      ne_top_of_le_ne_top (ENat.coe_ne_top k1) ih
    have hc : Closed s y := ⟨hfin, by rw [hq]; exact List.not_mem_nil _⟩
    calc s.dist.getD e.v infinity ≤ s.dist.getD y infinity + (e.w : W) := h.relaxed y hc e he
      _ ≤ (k1 : W) + (e.w : W) := add_le_add_right ih _
      _ = ((k1 + e.w : Nat) : W) := by push_cast; rfl

theorem portalLoop_spec (g : Graph) (hg : g.WF) (src : Nat) :
    ∀ fuel s, SearchInv g src s → potential g s < fuel →
      ∃ D, portalLoop g fuel s = some D ∧ PortalPost g src D := by
  intro fuel
  induction fuel with
  | zero => intro s _ hp; exact absurd hp (Nat.not_lt_zero _)
  | succ fuel ih =>
    intro s h hp
    unfold portalLoop
    cases htop : pqTop s.queue with
    | none =>
      exact ⟨s.dist, rfl, portalPost_of_empty h (pqTop_none htop)⟩
    | some c =>
      simp only
      by_cases hst : c.1 = s.dist.getD c.2 infinity
      · have hstep := searchInv_step hg h htop hst
        have hpot := potential_step hg h htop hst
        simp only [ne_eq, hst, not_true_eq_false, if_false]
        rw [← hst]
        exact ih _ hstep.1 (by omega)
      · have hstale := searchInv_stale h hst
        have hpot := potential_stale h (pqTop_some htop).1 hst
        simp only [ne_eq, hst, not_false_eq_true, if_true]
        exact ih _ hstale.1 (by omega)

/-- The search of `initializePortals` from a vertex ends within its fuel and leaves the exact
distances from that vertex. -/
theorem portalLoop_fuel (g : Graph) (hg : g.WF) (src : Nat) (hsrc : src < g.n) :
    ∃ D, portalLoop g (searchFuel g) (searchInit g src) = some D ∧ PortalPost g src D :=
  portalLoop_spec g hg src _ _ (searchInv_init g src hsrc) (potential_init g hg src)

/-! ## The search of `initializeDistances` -/

theorem localLoop_spec (g : Graph) (hg : g.WF) (pidx : List Int) (src : Nat) :
    ∀ fuel s acc, SearchInv g src s → potential g s < fuel →
      (∀ x, Closed s x → pidx.getD x (-1) = -1) →
      ∃ r, localLoop g pidx fuel s acc = some r ∧ LocalPost g pidx src acc r := by
  intro fuel
  induction fuel with
  | zero => intro s _ _ hp; exact absurd hp (Nat.not_lt_zero _)
  | succ fuel ih =>
    intro s acc h hp hcl
    unfold localLoop
    cases htop : pqTop s.queue with
    | none =>
      refine ⟨(none, acc), rfl, ⟨[], by simp, by simp⟩, by simp, ?_⟩
      intro _ u k hw
      have hq := pqTop_none htop
      have hle := (portalPost_of_empty h hq).least u k hw
      exact hcl u ⟨ne_top_of_le_ne_top (ENat.coe_ne_top k) hle,
        by rw [hq]; exact List.not_mem_nil _⟩
    | some c =>
      simp only
      by_cases hst : c.1 = s.dist.getD c.2 infinity
      · obtain ⟨k, hk⟩ : ∃ k : Nat, c.1 = (k : W) :=
          ⟨c.1.toNat, (ENat.coe_toNat (h.qlt c.1 c.2 (pqTop_some htop).1).2.1).symm⟩
        have hwalk : Walk g src c.2 k := h.walk c.2 k (by rw [← hst, hk])
        simp only [ne_eq, hst, not_true_eq_false, if_false]
        by_cases hp2 : pidx.getD c.2 (-1) = -1
        · have hstep := searchInv_step hg h htop hst
          have hpot := potential_step hg h htop hst
          have hcl2 : ∀ x, Closed (relaxEdges (g.edges.getD c.2 []) c.1
              { s with queue := s.queue.erase c }) x → pidx.getD x (-1) = -1 := by
            intro x hx
            rcases closed_of_step hg h htop hst x hx with h3 | h3
            · exact hcl x h3
            · rw [h3]; exact hp2
          simp only [hp2, not_true_eq_false, if_false]
          rw [← hst]
          obtain ⟨r, hr, hpost⟩ := ih _ (acc ++ [c]) hstep.1 (by omega) hcl2
          refine ⟨r, hr, ?_, hpost.portal, hpost.unassigned⟩
          obtain ⟨rest, hrest, hall⟩ := hpost.ext
          refine ⟨c :: rest, by simp [hrest], ?_⟩
          intro c2 hc2
          rcases List.mem_cons.mp hc2 with rfl | hc2
          · exact ⟨hp2, k, hk, hwalk⟩
          · exact hall c2 hc2
        · simp only [hp2, not_false_eq_true, if_true]
          refine ⟨_, rfl, ⟨[], by simp, by simp⟩, ?_, by simp⟩
          intro q hq
          simp only [Option.some.injEq] at hq
          subst hq
          exact ⟨c.2, k, hp2, rfl, by rw [← hst, hk], hwalk⟩
      · have hstale := searchInv_stale h hst
        have hpot := potential_stale h (pqTop_some htop).1 hst
        simp only [ne_eq, hst, not_false_eq_true, if_true]
        exact ih _ acc hstale.1 (by omega)
          (fun x hx => hcl x (closed_of_erase_stale hst x hx))

theorem not_closed_init (g : Graph) (v : Nat) (hv : v < g.n) (x : Nat) :
    ¬ Closed (searchInit g v) x := by
  intro hx
  have hd : (searchInit g v).dist.getD x infinity = if x = v then 0 else infinity :=
    getD_replicate_set g.n v x hv
  have hq : (searchInit g v).queue = [((0 : W), v)] := rfl
  by_cases hxv : x = v
  · apply hx.2
    rw [hd, hq, hxv]
    simp
  · apply hx.1
    rw [hd]
    simp [hxv]

/-- The search of `initializeDistances` from a vertex ends within its fuel. -/
theorem localLoop_fuel (g : Graph) (hg : g.WF) (pidx : List Int) (src : Nat) (hsrc : src < g.n)
    (acc : List (W × Nat)) :
    ∃ r, localLoop g pidx (searchFuel g) (searchInit g src) acc = some r ∧
      LocalPost g pidx src acc r :=
  localLoop_spec g hg pidx src _ _ acc (searchInv_init g src hsrc) (potential_init g hg src)
    (fun x hx => absurd hx (not_closed_init g src hsrc x))

theorem localLoop_step_portal (g : Graph) (pidx : List Int) (fuel : Nat) (s : Search)
    (acc : List (W × Nat)) (c : W × Nat) (htop : pqTop s.queue = some c)
    (hst : c.1 = s.dist.getD c.2 infinity) (hp : pidx.getD c.2 (-1) ≠ -1) :
    localLoop g pidx (fuel + 1) s acc =
      some (some (c.1, (pidx.getD c.2 (-1)).toNat), acc) := by
  rw [localLoop]
  simp only [htop]
  simp only [ne_eq, hst, not_true_eq_false, if_false, hp, not_false_eq_true, if_true]

theorem localLoop_step_local (g : Graph) (pidx : List Int) (fuel : Nat) (s : Search)
    (acc : List (W × Nat)) (c : W × Nat) (htop : pqTop s.queue = some c)
    (hst : c.1 = s.dist.getD c.2 infinity) (hp : pidx.getD c.2 (-1) = -1) :
    localLoop g pidx (fuel + 1) s acc =
      localLoop g pidx fuel
        (relaxEdges (g.edges.getD c.2 []) c.1 { s with queue := s.queue.erase c })
        (acc ++ [c]) := by
  rw [localLoop]
  simp only [htop]
  simp only [ne_eq, hst, not_true_eq_false, if_false, hp]

/-- The search from a portal stops at once: it records the portal itself at distance 0 and
appends nothing. -/
theorem localLoop_portal (g : Graph) (pidx : List Int) (src : Nat) (hsrc : src < g.n)
    (acc : List (W × Nat)) (hp : pidx.getD src (-1) ≠ -1) :
    localLoop g pidx (searchFuel g) (searchInit g src) acc =
      some (some (0, (pidx.getD src (-1)).toNat), acc) := by
  have hd : (searchInit g src).dist.getD src infinity = 0 := (searchInv_init g src hsrc).src0
  have htop : pqTop (searchInit g src).queue = some ((0 : W), src) := rfl
  exact localLoop_step_portal g pidx _ _ acc ((0 : W), src) htop hd.symm hp

/-- The search from a vertex that is not a portal first appends the vertex itself at
distance 0. -/
theorem localLoop_first (g : Graph) (hg : g.WF) (pidx : List Int) (src : Nat)
    (hsrc : src < g.n) (hp : pidx.getD src (-1) = -1) :
    ∃ r, localLoop g pidx (searchFuel g) (searchInit g src) [] = some r ∧
      LocalPost g pidx src [] r ∧ ∃ rest, r.2 = ((0 : W), src) :: rest := by
  have hinv := searchInv_init g src hsrc
  have hpot := potential_init g hg src
  have htop : pqTop (searchInit g src).queue = some ((0 : W), src) := rfl
  have hd : (searchInit g src).dist.getD src infinity = 0 := hinv.src0
  have hst : ((0 : W), src).1 = (searchInit g src).dist.getD ((0 : W), src).2 infinity :=
    hd.symm
  have hstep := searchInv_step hg hinv htop hst
  have hpot2 := potential_step hg hinv htop hst
  obtain ⟨r, hr, hpost⟩ := localLoop_spec g hg pidx src ((g.edges.map List.length).sum + 1) _
    [((0 : W), src)] hstep.1 (by simp only [searchFuel] at hpot; omega)
    (fun x hx => by
      rcases closed_of_step hg hinv htop hst x hx with h3 | h3
      · exact absurd h3 (not_closed_init g src hsrc x)
      · rw [h3]; exact hp)
  refine ⟨r, ?_, ?_, ?_⟩
  · rw [← hr]
    exact localLoop_step_local g pidx _ _ [] ((0 : W), src) htop hst hp
  · obtain ⟨rest, hrest, hall⟩ := hpost.ext
    refine ⟨⟨((0 : W), src) :: rest, by simp [hrest], ?_⟩, hpost.portal, hpost.unassigned⟩
    intro c hc
    rcases List.mem_cons.mp hc with rfl | hc
    · exact ⟨hp, 0, by simp, Walk.nil hsrc⟩
    · exact hall c hc
  · obtain ⟨rest, hrest, _⟩ := hpost.ext
    exact ⟨rest, by simp [hrest]⟩

/-! ## Loops of the construction -/

theorem forRange_succ (k : Nat) (f : Oracle → Nat → Option Oracle) (o : Oracle) :
    forRange (k + 1) f o = (forRange k f o).bind (fun a => f a k) := by
  simp only [forRange, List.range_succ, List.foldl_append, List.foldl_cons, List.foldl_nil]
  generalize List.foldl _ (some o) (List.range k) = X
  cases X <;> rfl

/-- An invariant of the loop body holds after the loop. -/
theorem forRange_inv {k : Nat} {f : Oracle → Nat → Option Oracle} {o b : Oracle}
    (P : Nat → Oracle → Prop) (h0 : P 0 o)
    (hstep : ∀ i a c, i < k → P i a → f a i = some c → P (i + 1) c)
    (h : forRange k f o = some b) : P k b := by
  induction k generalizing b with
  | zero =>
    simp only [forRange, List.range_zero, List.foldl_nil, Option.some.injEq] at h
    exact h ▸ h0
  | succ k ih =>
    rw [forRange_succ] at h
    cases ha : forRange k f o with
    | none => rw [ha] at h; exact absurd h (by simp)
    | some a =>
      rw [ha] at h
      simp only [Option.some_bind] at h
      exact hstep k a b (Nat.lt_succ_self k)
        (ih (fun i a c hi => hstep i a c (Nat.lt_succ_of_lt hi)) ha) h

/-- A loop whose body succeeds under an invariant succeeds. -/
theorem forRange_some {k : Nat} {f : Oracle → Nat → Option Oracle} {o : Oracle}
    (P : Nat → Oracle → Prop) (h0 : P 0 o)
    (hstep : ∀ i a, i < k → P i a → ∃ c, f a i = some c ∧ P (i + 1) c) :
    ∃ b, forRange k f o = some b ∧ P k b := by
  induction k with
  | zero => exact ⟨o, rfl, h0⟩
  | succ k ih =>
    obtain ⟨a, ha, hPa⟩ := ih (fun i a hi => hstep i a (Nat.lt_succ_of_lt hi))
    obtain ⟨c, hc, hPc⟩ := hstep k a (Nat.lt_succ_self k) hPa
    refine ⟨c, ?_, hPc⟩
    rw [forRange_succ, ha]
    simpa using hc

/-! ## `initVertices` -/

theorem initVertices_succ (n : Nat) (ll : List Int) :
    initVertices (n + 1) ll =
      (initVertices n ll).bind (fun vs =>
        (ll[n]?).map (fun l => vs ++ [{ label := l, p := (0, 0), dist := [] }])) := by
  simp only [initVertices, List.range_succ, List.foldl_append, List.foldl_cons, List.foldl_nil]
  generalize List.foldl _ (some []) (List.range n) = X
  cases X with
  | none => rfl
  | some vs => cases ll[n]? <;> rfl

theorem initVertices_spec {n : Nat} {ll : List Int} {vs : List Vertex}
    (h : initVertices n ll = some vs) :
    vs.length = n ∧ ∀ (v : Nat) (vx : Vertex), vs[v]? = some vx →
      ll[v]? = some vx.label ∧ vx.p = (0, 0) ∧ vx.dist = [] := by
  induction n generalizing vs with
  | zero =>
    simp only [initVertices, List.range_zero, List.foldl_nil, Option.some.injEq] at h
    subst h
    simp
  | succ n ih =>
    rw [initVertices_succ] at h
    cases hv : initVertices n ll with
    | none => rw [hv] at h; exact absurd h (by simp)
    | some vs0 =>
      cases hl : ll[n]? with
      | none => rw [hv, hl] at h; exact absurd h (by simp)
      | some l =>
        rw [hv, hl] at h
        simp only [Option.some_bind, Option.map_some', Option.some.injEq] at h
        subst h
        obtain ⟨hlen, hall⟩ := ih hv
        refine ⟨by simp [hlen], ?_⟩
        intro v vx hvx
        by_cases hvn : v < n
        · rw [List.getElem?_append_left (by rw [hlen]; exact hvn)] at hvx
          exact hall v vx hvx
        · have hvn2 : vs0.length ≤ v := by rw [hlen]; exact Nat.le_of_not_lt hvn
          rw [List.getElem?_append_right hvn2] at hvx
          have hv0 : v - vs0.length = 0 := by
            by_contra hne
            have : ([({ label := l, p := (0, 0), dist := [] } : Vertex)])[v - vs0.length]? =
                none := by
              apply List.getElem?_eq_none
              simp only [List.length_singleton]
              omega
            rw [this] at hvx
            exact absurd hvx (by simp)
          rw [hv0] at hvx
          simp only [List.getElem?_cons_zero, Option.some.injEq] at hvx
          subst hvx
          have hveq : v = n := by omega
          subst hveq
          exact ⟨hl, rfl, rfl⟩

theorem initVertices_some (n : Nat) (ll : List Int) (h : n ≤ ll.length) :
    ∃ vs, initVertices n ll = some vs := by
  induction n with
  | zero => exact ⟨[], rfl⟩
  | succ n ih =>
    obtain ⟨vs, hvs⟩ := ih (Nat.le_of_succ_le h)
    have hl : ll[n]? = some ll[n] := List.getElem?_eq_getElem (by omega)
    rw [initVertices_succ, hvs, hl]
    exact ⟨_, rfl⟩

/-! ## `selectPortals` -/

/-- The loop of lines 82-84 after `j` iterations. -/
theorem selectPortals_loop (n : Nat) (pn : List Nat) (j : Nat) (idx : List Int)
    (h : (List.range j).foldl (portalIndexStep pn) (some (List.replicate n (-1))) = some idx) :
    idx.length = n ∧
      (∀ x, idx.getD x (-1) ≠ -1 →
        ∃ i, i < j ∧ idx.getD x (-1) = (i : Int) ∧ pn[i]? = some x) ∧
      (∀ (i p : Nat), i < j → pn[i]? = some p → p < n ∧ idx.getD p (-1) ≠ -1) := by
  induction j generalizing idx with
  | zero =>
    simp only [List.range_zero, List.foldl_nil, Option.some.injEq] at h
    subst h
    refine ⟨by simp, ?_, ?_⟩
    · intro x hx
      exfalso
      apply hx
      simp only [List.getD_eq_getElem?_getD, List.getElem?_replicate]
      split_ifs <;> rfl
    · intro i p hi
      exact absurd hi (Nat.not_lt_zero _)
  | succ j ih =>
    simp only [List.range_succ, List.foldl_append, List.foldl_cons, List.foldl_nil] at h
    cases hacc : (List.range j).foldl (portalIndexStep pn) (some (List.replicate n (-1))) with
    | none => rw [hacc] at h; simp [portalIndexStep] at h
    | some idx0 =>
      rw [hacc] at h
      obtain ⟨hlen, h1, h2⟩ := ih idx0 hacc
      cases hp : pn[j]? with
      | none => simp [portalIndexStep, hp] at h
      | some p =>
        simp only [portalIndexStep, hp] at h
        split_ifs at h with hpl
        simp only [Option.some.injEq] at h
        subst h
        have hget : ∀ x, (idx0.set p (j : Int)).getD x (-1) =
            if x = p then (j : Int) else idx0.getD x (-1) := by
          intro x
          by_cases hx : x = p
          · subst hx
            simp [List.getD_eq_getElem?_getD, List.getElem?_set, hpl]
          · have hx2 : ¬ p = x := fun e => hx e.symm
            simp [List.getD_eq_getElem?_getD, List.getElem?_set, hx, hx2]
        refine ⟨by simp [hlen], ?_, ?_⟩
        · intro x hx
          rw [hget] at hx ⊢
          by_cases hxp : x = p
          · subst hxp
            simp only [if_true]
            exact ⟨j, Nat.lt_succ_self j, rfl, hp⟩
          · simp only [hxp, if_false] at hx ⊢
            obtain ⟨i, hi, hi2, hi3⟩ := h1 x hx
            exact ⟨i, Nat.lt_succ_of_lt hi, hi2, hi3⟩
        · intro i q hi hq
          rw [hget]
          by_cases hqp : q = p
          · subst hqp
            simp only [if_true]
            refine ⟨by rw [← hlen]; exact hpl, ?_⟩
            have : (0 : Int) ≤ (j : Int) := Int.natCast_nonneg j
            omega
          · simp only [hqp, if_false]
            have hij : i < j := by
              rcases Nat.lt_succ_iff_lt_or_eq.mp hi with h3 | h3
              · exact h3
              · subst h3
                rw [hp] at hq
                exact absurd (Option.some.inj hq).symm hqp
            exact h2 i q hij hq

theorem selectPortals_spec {g : Graph} {perm : List Nat} {k : Nat} {pn : List Nat}
    {pidx : List Int} (h : selectPortals g perm k = some (pn, pidx)) :
    pn = resizeInt perm k ∧ pn.length = k ∧ pidx.length = g.n ∧
      (∀ x, pidx.getD x (-1) ≠ -1 →
        0 ≤ pidx.getD x (-1) ∧ pn[(pidx.getD x (-1)).toNat]? = some x) ∧
      (∀ (i p : Nat), pn[i]? = some p → p < g.n ∧ pidx.getD p (-1) ≠ -1) := by
  unfold selectPortals at h
  simp only at h
  split at h
  · exact absurd h (by simp)
  · rename_i idx hidx
    simp only [Option.some.injEq, Prod.mk.injEq] at h
    obtain ⟨rfl, rfl⟩ := h
    obtain ⟨h1, h2, h3⟩ := selectPortals_loop g.n (resizeInt perm k) k idx hidx
    have hlen : (resizeInt perm k).length = k := by
      simp only [resizeInt, List.length_append, List.length_take, List.length_replicate]
      omega
    refine ⟨rfl, hlen, h1, ?_, ?_⟩
    · intro x hx
      obtain ⟨i, _, hi2, hi3⟩ := h2 x hx
      rw [hi2]
      exact ⟨Int.natCast_nonneg i, by simpa using hi3⟩
    · intro i p hp
      have hi : i < k := by
        rw [← hlen]
        exact (List.getElem?_eq_some.mp hp).1
      exact h3 i p hi hp

/-! ## `initializePortals` -/

theorem fillN_l_succ (vs : List Vertex) (dist : List W) (n : Nat)
    (m : List (Int × List (W × Nat))) :
    fillN_l vs dist (n + 1) m =
      mapModify (setInsert ltWN (dist.getD n infinity, n)) (labelOf vs n)
        (fillN_l vs dist n m) := by
  simp only [fillN_l, List.range_succ, List.foldl_append, List.foldl_cons, List.foldl_nil]

theorem fillN_l_spec (vs : List Vertex) (dist : List W) (n : Nat)
    (m : List (Int × List (W × Nat))) :
    (∀ l x, x ∈ mapGet (fillN_l vs dist n m) l ↔
      x ∈ mapGet m l ∨ ∃ v, v < n ∧ labelOf vs v = l ∧ x = (dist.getD v infinity, v)) ∧
    ((∀ l, (mapGet m l).Pairwise ltWN) →
      ∀ l, (mapGet (fillN_l vs dist n m) l).Pairwise ltWN) := by
  haveI := ltWN_sto
  induction n with
  | zero =>
    refine ⟨fun l x => ?_, fun h => h⟩
    simp [fillN_l]
  | succ n ih =>
    rw [fillN_l_succ]
    refine ⟨fun l x => ?_, fun h l => ?_⟩
    · rw [mapGet_mapModify]
      by_cases hl : l = labelOf vs n
      · subst hl
        simp only [if_true, mem_setInsert, ih.1]
        constructor
        · rintro (h | h | ⟨v, hv, hv2, hv3⟩)
          · exact Or.inr ⟨n, Nat.lt_succ_self n, rfl, h⟩
          · exact Or.inl h
          · exact Or.inr ⟨v, Nat.lt_succ_of_lt hv, hv2, hv3⟩
        · rintro (h | ⟨v, hv, hv2, hv3⟩)
          · exact Or.inr (Or.inl h)
          · rcases Nat.lt_succ_iff_lt_or_eq.mp hv with h4 | h4
            · exact Or.inr (Or.inr ⟨v, h4, hv2, hv3⟩)
            · subst h4
              exact Or.inl hv3
      · simp only [hl, if_false, ih.1]
        constructor
        · rintro (h | ⟨v, hv, hv2, hv3⟩)
          · exact Or.inl h
          · exact Or.inr ⟨v, Nat.lt_succ_of_lt hv, hv2, hv3⟩
        · rintro (h | ⟨v, hv, hv2, hv3⟩)
          · exact Or.inl h
          · rcases Nat.lt_succ_iff_lt_or_eq.mp hv with h4 | h4
            · exact Or.inr ⟨v, h4, hv2, hv3⟩
            · subst h4
              exact absurd hv2.symm hl
    · rw [mapGet_mapModify]
      split_ifs
      · exact sorted_setInsert ltWN _ _ (ih.2 h _)
      · exact ih.2 h l

theorem initializePortals_some {o b : Oracle} {i : Nat} (h : initializePortals o i = some b) :
    ∃ p portal dist, o.portalNumbers[i]? = some p ∧ o.portals[i]? = some portal ∧
      portalLoop o.g (searchFuel o.g) (searchInit o.g p) = some dist ∧
      b = { o with
        portals := o.portals.set i ⟨dist, fillN_l o.vertices dist o.g.n portal.N_l⟩ } := by
  unfold initializePortals at h
  cases hp : o.portalNumbers[i]? with
  | none => simp [hp] at h
  | some p =>
    cases hP : o.portals[i]? with
    | none => simp [hp, hP] at h
    | some portal =>
      cases hd : portalLoop o.g (searchFuel o.g) (searchInit o.g p) with
      | none => simp [hp, hP, hd] at h
      | some dist =>
        simp only [hp, hP, hd, Option.some.injEq] at h
        exact ⟨p, portal, dist, rfl, rfl, hd, h.symm⟩

/-- The state of the construction while the portals are initialised: the first `i` portals are
built, the others are still empty. -/
theorem portals_phase {g : Graph} {pn : List Nat} {pidx : List Int} {vs : List Vertex}
    {k : Nat} {b : Oracle}
    (h : forRange pn.length initializePortals
      { g := g, portalNumbers := pn, portalIndices := pidx,
        portals := List.replicate k { D_v := [], N_l := [] }, labels := [], vertices := vs }
      = some b) :
    b.g = g ∧ b.portalNumbers = pn ∧ b.portalIndices = pidx ∧ b.labels = [] ∧
      b.vertices = vs ∧ b.portals.length = k ∧
      ∀ (i : Nat) (P : Portal), i < pn.length → b.portals[i]? = some P →
        PortalBuilt g pn (labelOf vs) i P := by
  have key := forRange_inv
    (fun (i : Nat) (a : Oracle) =>
      a.g = g ∧ a.portalNumbers = pn ∧ a.portalIndices = pidx ∧ a.labels = [] ∧
      a.vertices = vs ∧ a.portals.length = k ∧
      (∀ (j : Nat) (P : Portal), i ≤ j → a.portals[j]? = some P → P.N_l = []) ∧
      ∀ (j : Nat) (P : Portal), j < i → a.portals[j]? = some P →
        PortalBuilt g pn (labelOf vs) j P)
    ?_ ?_ h
  · obtain ⟨h1, h2, h3, h4, h5, h6, _, h8⟩ := key
    exact ⟨h1, h2, h3, h4, h5, h6, h8⟩
  · refine ⟨rfl, rfl, rfl, rfl, rfl, by simp, ?_, ?_⟩
    · intro j P _ hP
      simp only [List.getElem?_replicate] at hP
      split_ifs at hP
      simp only [Option.some.injEq] at hP
      rw [← hP]
    · intro j P hj
      exact absurd hj (Nat.not_lt_zero _)
  · rintro i a c hi ⟨h1, h2, h3, h4, h5, h6, h7, h8⟩ hc
    obtain ⟨p, portal, dist, hp, hP, hd, rfl⟩ := initializePortals_some hc
    refine ⟨h1, h2, h3, h4, h5, by simp [h6], ?_, ?_⟩
    · intro j P hij hPj
      simp only at hPj
      rw [List.getElem?_set_ne (by omega)] at hPj
      exact h7 j P (by omega) hPj
    · intro j P hj hPj
      simp only at hPj
      by_cases hji : j = i
      · subst hji
        have hlen : j < a.portals.length := (List.getElem?_eq_some.mp hP).1
        rw [List.getElem?_set_self hlen] at hPj
        simp only [Option.some.injEq] at hPj
        subst hPj
        have hnil : portal.N_l = [] := h7 j portal (le_refl _) hP
        have hspec := fillN_l_spec a.vertices dist a.g.n portal.N_l
        rw [h1, h5, hnil] at hspec
        rw [h2] at hp
        rw [h1] at hd
        refine ⟨p, hp, ?_, ?_, ?_⟩
        · exact hd
        · intro l x
          simp only [h1, h5, hnil]
          rw [hspec.1]
          simp [mapGet]
        · simp only [h1, h5, hnil]
          exact hspec.2 (fun l => by simp [mapGet])
      · rw [List.getElem?_set_ne (fun e => hji e.symm)] at hPj
        exact h8 j P (by omega) hPj

/-! ## Membership in a map of sets -/

theorem inMap_nil {κ β : Type} (k : κ) (x : β) : ¬ InMap ([] : List (κ × List β)) k x := by
  rintro ⟨S, hS, _⟩
  exact absurd hS (List.not_mem_nil _)

theorem inMap_cons {κ β : Type} (k1 k2 : κ) (b : List β) (m : List (κ × List β)) (x : β) :
    InMap ((k1, b) :: m) k2 x ↔ (k2 = k1 ∧ x ∈ b) ∨ InMap m k2 x := by
  constructor
  · rintro ⟨S, hS, hx⟩
    rcases List.mem_cons.mp hS with h | h
    · simp only [Prod.mk.injEq] at h
      exact Or.inl ⟨h.1, h.2 ▸ hx⟩
    · exact Or.inr ⟨S, h, hx⟩
  · rintro (⟨rfl, hx⟩ | ⟨S, hS, hx⟩)
    · exact ⟨b, List.mem_cons_self _ _, hx⟩
    · exact ⟨S, List.mem_cons_of_mem _ hS, hx⟩

theorem inMap_mapModify_insert {κ β : Type} [DecidableEq κ] (lt : β → β → Prop)
    [DecidableRel lt] [IsStrictTotalOrder β lt] (y : β) (k k2 : κ) (x : β)
    (m : List (κ × List β)) :
    InMap (mapModify (setInsert lt y) k m) k2 x ↔ InMap m k2 x ∨ (k2 = k ∧ x = y) := by
  induction m with
  | nil =>
    simp only [mapModify, setInsert, inMap_cons, List.mem_singleton]
    constructor
    · rintro (h | h)
      · exact Or.inr h
      · exact absurd h (inMap_nil _ _)
    · rintro (h | h)
      · exact absurd h (inMap_nil _ _)
      · exact Or.inl h
  | cons e m ih =>
    obtain ⟨k1, b⟩ := e
    simp only [mapModify]
    by_cases h1 : k1 = k
    · subst h1
      simp only [if_true, inMap_cons, mem_setInsert]
      tauto
    · simp only [h1, if_false, inMap_cons, ih]
      tauto

theorem setInsert_ne_nil {β : Type} (lt : β → β → Prop) [DecidableRel lt] (y : β)
    (s : List β) : setInsert lt y s ≠ [] := by
  cases s with
  | nil => simp [setInsert]
  | cons z zs =>
    unfold setInsert
    split_ifs <;> simp

/-! ## `initializeDistances` -/

theorem modifyInt_some {α : Type} {xs ys : List α} {i : Int} {f : α → α}
    (h : modifyInt xs i f = some ys) :
    0 ≤ i ∧ ∃ x, xs[i.toNat]? = some x ∧ ys = xs.set i.toNat (f x) := by
  unfold modifyInt indexInt at h
  by_cases hi : i < 0
  · simp [hi] at h
  · simp only [hi, if_false] at h
    cases hx : xs[i.toNat]? with
    | none => simp [hx] at h
    | some x =>
      simp only [hx, Option.some.injEq] at h
      exact ⟨Int.not_lt.mp hi, x, rfl, h.symm⟩

theorem fillS_v_none (l : Int) (v : Nat) (lst : List (W × Nat)) :
    lst.foldl (fillS_vStep l v) none = none := by
  induction lst with
  | nil => rfl
  | cons c lst ih => simpa [fillS_vStep] using ih

theorem fillS_v_cons (l : Int) (v : Nat) (c : W × Nat) (lst : List (W × Nat))
    (labels : List Label) :
    fillS_v l v (c :: lst) labels =
      (modifyInt labels l
        (fun lab => { lab with S_v := mapModify (setInsert ltWN (c.1, v)) c.2 lab.S_v })).bind
        (fillS_v l v lst) := by
  simp only [fillS_v, List.foldl_cons, fillS_vStep]
  cases modifyInt labels l
      (fun lab => { lab with S_v := mapModify (setInsert ltWN (c.1, v)) c.2 lab.S_v }) with
  | none => exact fillS_v_none l v lst
  | some labels1 => rfl

theorem fillS_v_spec (l : Int) (v : Nat) (lst : List (W × Nat)) :
    ∀ (labels labels2 : List Label), fillS_v l v lst labels = some labels2 →
      labels2.length = labels.length ∧
      ∀ (j : Nat) (lab2 : Label), labels2[j]? = some lab2 →
        ∃ lab, labels[j]? = some lab ∧ lab2.P_l = lab.P_l ∧
          ∀ u x, InMap lab2.S_v u x ↔
            InMap lab.S_v u x ∨ ((j : Int) = l ∧ x.2 = v ∧ (x.1, u) ∈ lst) := by
  haveI := ltWN_sto
  induction lst with
  | nil =>
    intro labels labels2 h
    simp only [fillS_v, List.foldl_nil, Option.some.injEq] at h
    subst h
    refine ⟨rfl, fun j lab2 hj => ⟨lab2, hj, rfl, fun u x => ?_⟩⟩
    simp
  | cons c lst ih =>
    intro labels labels2 h
    rw [fillS_v_cons] at h
    cases hm : modifyInt labels l
        (fun lab => { lab with S_v := mapModify (setInsert ltWN (c.1, v)) c.2 lab.S_v }) with
    | none => rw [hm] at h; exact absurd h (by simp)
    | some labels1 =>
      rw [hm] at h
      simp only [Option.some_bind] at h
      obtain ⟨hl0, lab0, hlab0, rfl⟩ := modifyInt_some hm
      obtain ⟨hlen, hall⟩ := ih _ labels2 h
      refine ⟨by rw [hlen]; simp, ?_⟩
      intro j lab2 hj
      obtain ⟨lab1, hlab1, hP, hS⟩ := hall j lab2 hj
      have hlt : l.toNat < labels.length := (List.getElem?_eq_some.mp hlab0).1
      by_cases hjl : j = l.toNat
      · subst hjl
        rw [List.getElem?_set_self hlt] at hlab1
        simp only [Option.some.injEq] at hlab1
        subst hlab1
        refine ⟨lab0, hlab0, hP, fun u x => ?_⟩
        have hcast : ((l.toNat : Nat) : Int) = l := Int.toNat_of_nonneg hl0
        rw [hS]
        simp only [inMap_mapModify_insert, hcast, true_and, List.mem_cons]
        constructor
        · rintro ((h1 | ⟨h1, h2⟩) | ⟨h1, h2⟩)
          · exact Or.inl h1
          · refine Or.inr ⟨by rw [h2], Or.inl ?_⟩
            rw [h2, h1]
          · exact Or.inr ⟨h1, Or.inr h2⟩
        · rintro (h1 | ⟨h1, h2 | h2⟩)
          · exact Or.inl (Or.inl h1)
          · refine Or.inl (Or.inr ⟨?_, ?_⟩)
            · rw [← h2]
            · rw [← h2, ← h1]
          · exact Or.inr ⟨h1, h2⟩
      · rw [List.getElem?_set_ne (fun e => hjl e.symm)] at hlab1
        refine ⟨lab1, hlab1, hP, fun u x => ?_⟩
        have hne : ¬ ((j : Int) = l) := by
          intro e
          apply hjl
          rw [← e]
          simp
        rw [hS]
        simp only [hne, false_and, or_false]

theorem fillS_v_some (l : Int) (v : Nat) (lst : List (W × Nat)) :
    ∀ (labels : List Label), (lst = [] ∨ (0 ≤ l ∧ l.toNat < labels.length)) →
      ∃ labels2, fillS_v l v lst labels = some labels2 := by
  induction lst with
  | nil => intro labels _; exact ⟨labels, rfl⟩
  | cons c lst ih =>
    intro labels h
    rcases h with h | ⟨h1, h2⟩
    · exact absurd h (by simp)
    · rw [fillS_v_cons]
      have hm : modifyInt labels l
          (fun lab => { lab with S_v := mapModify (setInsert ltWN (c.1, v)) c.2 lab.S_v }) =
          some (labels.set l.toNat
            ((fun lab => { lab with S_v := mapModify (setInsert ltWN (c.1, v)) c.2 lab.S_v })
              labels[l.toNat])) := by
        unfold modifyInt indexInt
        simp [Int.not_lt.mpr h1, List.getElem?_eq_getElem h2]
      rw [hm]
      simp only [Option.some_bind]
      exact ih _ (Or.inr ⟨h1, by simpa using h2⟩)

theorem initializeDistances_some {o b : Oracle} {v : Nat}
    (h : initializeDistances o v = some b) :
    ∃ vx r labels2, o.vertices[v]? = some vx ∧
      localLoop o.g o.portalIndices (searchFuel o.g) (searchInit o.g v) vx.dist = some r ∧
      fillS_v vx.label v r.2 o.labels = some labels2 ∧
      b = { o with
        vertices := o.vertices.set v ⟨vx.label, r.1.getD vx.p, r.2⟩, labels := labels2 } := by
  unfold initializeDistances at h
  cases hv : o.vertices[v]? with
  | none => simp [hv] at h
  | some vx =>
    cases hr : localLoop o.g o.portalIndices (searchFuel o.g) (searchInit o.g v) vx.dist with
    | none => simp [hv, hr] at h
    | some r =>
      obtain ⟨p, lst⟩ := r
      cases hf : fillS_v vx.label v lst o.labels with
      | none => simp [hv, hr, hf] at h
      | some labels2 =>
        simp only [hv, hr, hf, Option.some.injEq] at h
        exact ⟨vx, (p, lst), labels2, rfl, hr, hf, h.symm⟩

theorem labelOf_set (vs : List Vertex) (i : Nat) (vx vy : Vertex) (h : vs[i]? = some vx)
    (hl : vy.label = vx.label) (v : Nat) : labelOf (vs.set i vy) v = labelOf vs v := by
  unfold labelOf
  by_cases hv : i = v
  · subst hv
    have hlen : i < vs.length := (List.getElem?_eq_some.mp h).1
    rw [List.getElem?_set_self hlen, h]
    exact hl
  · rw [List.getElem?_set_ne hv]

/-- The state of the construction after `initializeDistances` has run for every vertex. -/
theorem distances_phase {g : Graph} {pn : List Nat} {pidx : List Int} {ps : List Portal}
    {vs0 : List Vertex} {ll : List Int} {b : Oracle}
    (hvs : initVertices g.n ll = some vs0)
    (h : forRange g.n initializeDistances
      { g := g, portalNumbers := pn, portalIndices := pidx, portals := ps,
        labels := List.replicate g.n { S_v := [], P_l := [] }, vertices := vs0 } = some b) :
    b.g = g ∧ b.portalNumbers = pn ∧ b.portalIndices = pidx ∧ b.portals = ps ∧
      b.vertices.length = g.n ∧ (∀ v, labelOf b.vertices v = labelOf vs0 v) ∧
      (∀ (v : Nat) (vx : Vertex), b.vertices[v]? = some vx → VertexBuilt g pidx ll v vx) ∧
      b.labels.length = g.n ∧
      ∀ (j : Nat) (lab : Label), b.labels[j]? = some lab →
        lab.P_l = [] ∧
        ∀ u x, InMap lab.S_v u x ↔
          ∃ vx, b.vertices[x.2]? = some vx ∧ vx.label = (j : Int) ∧ (x.1, u) ∈ vx.dist := by
  obtain ⟨hlen0, hall0⟩ := initVertices_spec hvs
  have key := forRange_inv
    (fun (i : Nat) (a : Oracle) =>
      a.g = g ∧ a.portalNumbers = pn ∧ a.portalIndices = pidx ∧ a.portals = ps ∧
      a.vertices.length = g.n ∧ (∀ v, labelOf a.vertices v = labelOf vs0 v) ∧
      (∀ (v : Nat), i ≤ v → a.vertices[v]? = vs0[v]?) ∧
      (∀ (v : Nat) (vx : Vertex), v < i → a.vertices[v]? = some vx →
        VertexBuilt g pidx ll v vx) ∧
      a.labels.length = g.n ∧
      ∀ (j : Nat) (lab : Label), a.labels[j]? = some lab →
        lab.P_l = [] ∧
        ∀ u x, InMap lab.S_v u x ↔
          x.2 < i ∧
            ∃ vx, a.vertices[x.2]? = some vx ∧ vx.label = (j : Int) ∧ (x.1, u) ∈ vx.dist)
    ?_ ?_ h
  · obtain ⟨h1, h2, h3, h4, h5, h6, _, h8, h9, h10⟩ := key
    refine ⟨h1, h2, h3, h4, h5, h6, ?_, h9, ?_⟩
    · intro v vx hv
      have hvn : v < g.n := by
        rw [← h5]
        exact (List.getElem?_eq_some.mp hv).1
      exact h8 v vx hvn hv
    · intro j lab hj
      obtain ⟨hP, hS⟩ := h10 j lab hj
      refine ⟨hP, fun u x => ?_⟩
      rw [hS]
      constructor
      · exact fun hx => hx.2
      · rintro ⟨vx, hvx, hr⟩
        refine ⟨?_, vx, hvx, hr⟩
        rw [← h5]
        exact (List.getElem?_eq_some.mp hvx).1
  · refine ⟨rfl, rfl, rfl, rfl, hlen0, fun v => rfl, fun v _ => rfl, ?_, by simp, ?_⟩
    · intro v vx hv
      exact absurd hv (Nat.not_lt_zero _)
    · intro j lab hj
      simp only [List.getElem?_replicate] at hj
      split_ifs at hj
      simp only [Option.some.injEq] at hj
      subst hj
      refine ⟨rfl, fun u x => ?_⟩
      constructor
      · intro hx
        exact absurd hx (inMap_nil _ _)
      · rintro ⟨hx, _⟩
        exact absurd hx (Nat.not_lt_zero _)
  · rintro i a c hi ⟨h1, h2, h3, h4, h5, h6, h7, h8, h9, h10⟩ hc
    obtain ⟨vx, r, labels2, hvx, hr, hf, rfl⟩ := initializeDistances_some hc
    have hvx0 : vs0[i]? = some vx := by rw [← h7 i (le_refl _)]; exact hvx
    obtain ⟨hlab, hp0, hd0⟩ := hall0 i vx hvx0
    rw [h1, h3, hd0] at hr
    have hilen : i < a.vertices.length := (List.getElem?_eq_some.mp hvx).1
    obtain ⟨hflen, hfall⟩ := fillS_v_spec vx.label i r.2 a.labels labels2 hf
    have hget : ∀ (v : Nat), v ≠ i →
        (a.vertices.set i ⟨vx.label, r.1.getD vx.p, r.2⟩)[v]? = a.vertices[v]? :=
      fun v hv => List.getElem?_set_ne (fun e => hv e.symm)
    have hgeti : (a.vertices.set i ⟨vx.label, r.1.getD vx.p, r.2⟩)[i]? =
        some ⟨vx.label, r.1.getD vx.p, r.2⟩ := List.getElem?_set_self hilen
    refine ⟨h1, h2, h3, h4, by simp [h5], ?_, ?_, ?_, by rw [hflen]; exact h9, ?_⟩
    · intro v
      rw [← h6 v]
      exact labelOf_set a.vertices i vx ⟨vx.label, r.1.getD vx.p, r.2⟩ hvx rfl v
    · intro v hv
      simp only
      rw [hget v (by omega)]
      exact h7 v (by omega)
    · intro v vy hv hvy
      simp only at hvy
      by_cases hvi : v = i
      · subst hvi
        rw [hgeti] at hvy
        simp only [Option.some.injEq] at hvy
        subst hvy
        exact ⟨hlab, r, hr, by simp only [hp0], rfl⟩
      · rw [hget v hvi] at hvy
        exact h8 v vy (by omega) hvy
    · intro j lab2 hj
      obtain ⟨lab, hlabj, hP, hS⟩ := hfall j lab2 hj
      obtain ⟨hP0, hS0⟩ := h10 j lab hlabj
      refine ⟨by rw [hP, hP0], fun u x => ?_⟩
      rw [hS, hS0]
      simp only
      constructor
      · rintro (⟨hx, vy, hvy, hr2⟩ | ⟨hj2, hx2, hmem⟩)
        · refine ⟨Nat.lt_succ_of_lt hx, vy, ?_, hr2⟩
          rw [hget x.2 (by omega)]
          exact hvy
        · refine ⟨by omega, ⟨vx.label, r.1.getD vx.p, r.2⟩, ?_, hj2.symm, hmem⟩
          rw [hx2]
          exact hgeti
      · rintro ⟨hx, vy, hvy, hr2, hr3⟩
        by_cases hxi : x.2 = i
        · rw [hxi, hgeti] at hvy
          simp only [Option.some.injEq] at hvy
          subst hvy
          exact Or.inr ⟨hr2.symm, hxi, hr3⟩
        · rw [hget x.2 hxi] at hvy
          exact Or.inl ⟨by omega, vy, hvy, hr2, hr3⟩

/-! ## `initializeLabels` -/

/-- The sets of a `P_l` map are sorted and none is empty. -/
theorem insertRecord_good (l2 : Int) (v : Nat) (lab : Label) (u : W × Nat)
    (h : (∀ l, (mapGet lab.P_l l).Pairwise ltWNN) ∧ ∀ l, mapFind lab.P_l l ≠ some []) :
    (∀ l, (mapGet (insertRecord l2 v lab u).P_l l).Pairwise ltWNN) ∧
      ∀ l, mapFind (insertRecord l2 v lab u).P_l l ≠ some [] := by
  haveI := ltWNN_sto
  refine ⟨fun l => ?_, fun l => ?_⟩
  · simp only [insertRecord, mapGet_mapModify]
    split_ifs
    · exact sorted_setInsert ltWNN _ _ (h.1 _)
    · exact h.1 l
  · simp only [insertRecord, mapFind_mapModify]
    split_ifs
    · intro hc
      exact setInsert_ne_nil ltWNN _ _ (Option.some.inj hc)
    · exact h.2 l

theorem insertRecord_mem (l2 : Int) (v : Nat) (lab : Label) (u : W × Nat) (l : Int)
    (x : W × (Nat × Nat)) :
    x ∈ mapGet (insertRecord l2 v lab u).P_l l ↔
      x ∈ mapGet lab.P_l l ∨ (l = l2 ∧ x = (u.1, (v, u.2))) := by
  haveI := ltWNN_sto
  simp only [insertRecord, mapGet_mapModify]
  split_ifs with hl
  · subst hl
    rw [mem_setInsert]
    tauto
  · tauto

theorem insertRecords_inner (l2 : Int) (v : Nat) (S : List (W × Nat)) :
    ∀ (lab : Label),
      (S.foldl (insertRecord l2 v) lab).S_v = lab.S_v ∧
      (∀ l x, x ∈ mapGet (S.foldl (insertRecord l2 v) lab).P_l l ↔
        x ∈ mapGet lab.P_l l ∨ (l = l2 ∧ ∃ y ∈ S, x = (y.1, (v, y.2)))) ∧
      (((∀ l, (mapGet lab.P_l l).Pairwise ltWNN) ∧ ∀ l, mapFind lab.P_l l ≠ some []) →
        (∀ l, (mapGet (S.foldl (insertRecord l2 v) lab).P_l l).Pairwise ltWNN) ∧
          ∀ l, mapFind (S.foldl (insertRecord l2 v) lab).P_l l ≠ some []) := by
  induction S with
  | nil =>
    intro lab
    refine ⟨rfl, fun l x => ?_, fun h => h⟩
    simp
  | cons u S ih =>
    intro lab
    obtain ⟨h1, h2, h3⟩ := ih (insertRecord l2 v lab u)
    refine ⟨by rw [List.foldl_cons, h1]; rfl, fun l x => ?_,
      fun h => h3 (insertRecord_good l2 v lab u h)⟩
    rw [List.foldl_cons, h2, insertRecord_mem]
    simp only [List.mem_cons, exists_eq_or_imp]
    tauto

theorem insertRecords_outer (vs : List Vertex) (E : List (Nat × List (W × Nat))) :
    ∀ (lab : Label),
      (E.foldl (insertRecords vs) lab).S_v = lab.S_v ∧
      (∀ l x, x ∈ mapGet (E.foldl (insertRecords vs) lab).P_l l ↔
        x ∈ mapGet lab.P_l l ∨
          ∃ e ∈ E, l = labelOf vs e.1 ∧ ∃ y ∈ e.2, x = (y.1, (e.1, y.2))) ∧
      (((∀ l, (mapGet lab.P_l l).Pairwise ltWNN) ∧ ∀ l, mapFind lab.P_l l ≠ some []) →
        (∀ l, (mapGet (E.foldl (insertRecords vs) lab).P_l l).Pairwise ltWNN) ∧
          ∀ l, mapFind (E.foldl (insertRecords vs) lab).P_l l ≠ some []) := by
  induction E with
  | nil =>
    intro lab
    refine ⟨rfl, fun l x => ?_, fun h => h⟩
    simp
  | cons e E ih =>
    intro lab
    obtain ⟨h1, h2, h3⟩ := ih (insertRecords vs lab e)
    obtain ⟨k1, k2, k3⟩ := insertRecords_inner (labelOf vs e.1) e.1 e.2 lab
    refine ⟨by rw [List.foldl_cons, h1]; exact k1, fun l x => ?_, fun h => h3 (k3 h)⟩
    rw [List.foldl_cons, h2]
    simp only [insertRecords, k2, List.mem_cons, exists_eq_or_imp]
    exact or_assoc

theorem initializeLabel_spec (vs : List Vertex) (lab : Label) (hP : lab.P_l = []) :
    (∀ l x, x ∈ mapGet (initializeLabel vs lab).P_l l ↔
      InMap lab.S_v x.2.1 (x.1, x.2.2) ∧ labelOf vs x.2.1 = l) ∧
    (∀ l, (mapGet (initializeLabel vs lab).P_l l).Pairwise ltWNN) ∧
    ∀ l, mapFind (initializeLabel vs lab).P_l l ≠ some [] := by
  obtain ⟨_, h2, h3⟩ := insertRecords_outer vs lab.S_v lab
  have hgood : (∀ l, (mapGet lab.P_l l).Pairwise ltWNN) ∧ ∀ l, mapFind lab.P_l l ≠ some [] := by
    rw [hP]
    exact ⟨fun l => by simp [mapGet], fun l => by simp [mapFind]⟩
  refine ⟨fun l x => ?_, (h3 hgood).1, (h3 hgood).2⟩
  unfold initializeLabel
  rw [h2, hP]
  simp only [mapGet, List.not_mem_nil, false_or]
  constructor
  · rintro ⟨e, he, hl, y, hy, rfl⟩
    exact ⟨⟨e.2, he, hy⟩, hl.symm⟩
  · rintro ⟨⟨S, hS, hx⟩, hl⟩
    exact ⟨(x.2.1, S), hS, hl.symm, (x.1, x.2.2), hx, rfl⟩

/-! ## The constructed oracle -/

/-- The oracle returned by `initializeWithLabels` is built as `Built` describes. -/
theorem initializeWithLabels_built {g : Graph} {perm : List Nat} {ll : List Int} {ro : Int}
    {o : Oracle} (h : initializeWithLabels g perm ll ro = some o) :
    ∃ k pn pidx, portalCount g.n ro = some k ∧ selectPortals g perm k = some (pn, pidx) ∧
      Built g pn pidx ll o := by
  unfold initializeWithLabels at h
  cases hvs : initVertices g.n ll with
  | none => simp [hvs] at h
  | some vs0 =>
    cases hk : portalCount g.n ro with
    | none => simp [hvs, hk] at h
    | some k =>
      cases hsel : selectPortals g perm k with
      | none => simp [hvs, hk, hsel] at h
      | some pp =>
        obtain ⟨pn, pidx⟩ := pp
        simp only [hvs, hk, hsel] at h
        cases h1 : forRange pn.length initializePortals
            { g := g, portalNumbers := pn, portalIndices := pidx,
              portals := List.replicate k { D_v := [], N_l := [] }, labels := [],
              vertices := vs0 } with
        | none => simp [h1] at h
        | some o1 =>
          simp only [h1] at h
          obtain ⟨a1, a2, a3, _, a5, a6, a7⟩ := portals_phase h1
          rw [a1, a2, a3, a5] at h
          cases h2 : forRange g.n initializeDistances
              { g := g, portalNumbers := pn, portalIndices := pidx, portals := o1.portals,
                labels := List.replicate g.n { S_v := [], P_l := [] }, vertices := vs0 } with
          | none => simp [h2] at h
          | some o3 =>
            simp only [h2, Option.some.injEq] at h
            subst h
            obtain ⟨b1, b2, b3, b4, b5, b6, b7, b8, b9⟩ := distances_phase hvs h2
            have hplen : pn.length = k := (selectPortals_spec hsel).2.1
            refine ⟨k, pn, pidx, rfl, hsel, ?_⟩
            constructor
            · exact b1
            · exact b2
            · exact b3
            · exact b5
            · exact b7
            · show o3.portals.length = pn.length
              rw [b4, a6, hplen]
            · intro i P hP
              have hP2 : o1.portals[i]? = some P := by rw [← b4]; exact hP
              have hi : i < pn.length := by
                rw [hplen, ← a6]
                exact (List.getElem?_eq_some.mp hP2).1
              have hfun : labelOf (initializeLabels o3).vertices = labelOf vs0 := funext b6
              rw [hfun]
              exact a7 i P hi hP2
            · show (o3.labels.map (initializeLabel o3.vertices)).length = g.n
              rw [List.length_map, b8]
            · intro j lab hj
              have hj2 : (o3.labels.map (initializeLabel o3.vertices))[j]? = some lab := hj
              rw [List.getElem?_map] at hj2
              cases hl : o3.labels[j]? with
              | none => rw [hl] at hj2; exact absurd hj2 (by simp)
              | some lab0 =>
                rw [hl] at hj2
                simp only [Option.map_some', Option.some.injEq] at hj2
                subst hj2
                obtain ⟨hP0, hS0⟩ := b9 j lab0 hl
                obtain ⟨c1, c2, c3⟩ := initializeLabel_spec o3.vertices lab0 hP0
                refine ⟨fun l2 x => ?_, c2, c3⟩
                rw [c1, hS0]
                show (∃ vx, o3.vertices[x.2.2]? = some vx ∧ vx.label = (j : Int) ∧
                    (x.1, x.2.1) ∈ vx.dist) ∧ labelOf o3.vertices x.2.1 = l2 ↔
                  ∃ vx, o3.vertices[x.2.2]? = some vx ∧ vx.label = (j : Int) ∧
                    (x.1, x.2.1) ∈ vx.dist ∧ labelOf o3.vertices x.2.1 = l2
                constructor
                · rintro ⟨⟨vx, e1, e2, e3⟩, e4⟩
                  exact ⟨vx, e1, e2, e3, e4⟩
                · rintro ⟨vx, e1, e2, e3, e4⟩
                  exact ⟨⟨vx, e1, e2, e3⟩, e4⟩

/-! ## The construction succeeds on valid input -/

theorem selectPortals_loop_some (n : Nat) (pn : List Nat) (hpn : ∀ p ∈ pn, p < n) (j : Nat)
    (hj : j ≤ pn.length) :
    ∃ idx, (List.range j).foldl (portalIndexStep pn) (some (List.replicate n (-1))) = some idx ∧
      idx.length = n := by
  induction j with
  | zero => exact ⟨_, rfl, by simp⟩
  | succ j ih =>
    obtain ⟨idx, hidx, hlen⟩ := ih (Nat.le_of_succ_le hj)
    have hjl : j < pn.length := hj
    have hp : pn[j]? = some pn[j] := List.getElem?_eq_getElem hjl
    have hlt : pn[j] < idx.length := by
      rw [hlen]
      exact hpn _ (List.getElem_mem _)
    refine ⟨idx.set pn[j] (j : Int), ?_, by simp [hlen]⟩
    simp only [List.range_succ, List.foldl_append, List.foldl_cons, List.foldl_nil, hidx]
    simp only [portalIndexStep, hp, hlt, if_true]

theorem resizeInt_of_le (perm : List Nat) (k : Nat) (h : k ≤ perm.length) :
    resizeInt perm k = perm.take k := by
  simp [resizeInt, Nat.sub_eq_zero_of_le h]

theorem selectPortals_some (g : Graph) (perm : List Nat) (hperm : perm.Perm (List.range g.n))
    (k : Nat) (hk : k ≤ g.n) : ∃ pp, selectPortals g perm k = some pp := by
  have hlen : perm.length = g.n := by rw [hperm.length_eq, List.length_range]
  have hpn : ∀ p ∈ resizeInt perm k, p < g.n := by
    intro p hp
    rw [resizeInt_of_le perm k (by omega)] at hp
    exact List.mem_range.mp (hperm.subset (List.mem_of_mem_take hp))
  have hl2 : k ≤ (resizeInt perm k).length := by
    rw [resizeInt_of_le perm k (by omega), List.length_take]
    omega
  obtain ⟨idx, hidx, _⟩ := selectPortals_loop_some g.n (resizeInt perm k) hpn k hl2
  exact ⟨(resizeInt perm k, idx), by simp only [selectPortals, hidx]⟩

/-- Valid input: a well-formed graph, a shuffle of the vertices, a label in `0..n-1` for every
vertex, and a portal count of at most `n`. On valid input `initializeWithLabels` returns an
oracle. -/
theorem initializeWithLabels_some (g : Graph) (hg : g.WF) (perm : List Nat)
    (hperm : perm.Perm (List.range g.n)) (ll : List Int) (hll : g.n ≤ ll.length)
    (hrange : ∀ (v : Nat) (l : Int), v < g.n → ll[v]? = some l → 0 ≤ l ∧ l < (g.n : Int))
    (ro : Int) (k : Nat) (hk : portalCount g.n ro = some k) (hkn : k ≤ g.n) :
    ∃ o, initializeWithLabels g perm ll ro = some o := by
  obtain ⟨vs0, hvs⟩ := initVertices_some g.n ll hll
  obtain ⟨hlen0, hall0⟩ := initVertices_spec hvs
  obtain ⟨⟨pn, pidx⟩, hsel⟩ := selectPortals_some g perm hperm k hkn
  obtain ⟨_, hplen, _, _, hpn⟩ := selectPortals_spec hsel
  -- the portals
  obtain ⟨o1, h1, _⟩ := forRange_some
    (k := pn.length) (f := initializePortals)
    (o := { g := g, portalNumbers := pn, portalIndices := pidx,
            portals := List.replicate k { D_v := [], N_l := [] }, labels := [],
            vertices := vs0 })
    (fun (_ : Nat) (a : Oracle) => a.g = g ∧ a.portalNumbers = pn ∧ a.portals.length = k)
    ⟨rfl, rfl, by simp⟩
    (by
      rintro i a hi ⟨a1, a2, a3⟩
      have hp : pn[i]? = some pn[i] := List.getElem?_eq_getElem hi
      have hi2 : i < a.portals.length := by omega
      obtain ⟨D, hD, _⟩ := portalLoop_fuel g hg pn[i] (hpn i _ hp).1
      have hstep : initializePortals a i = some { a with
          portals := a.portals.set i
            ⟨D, fillN_l a.vertices D a.g.n a.portals[i].N_l⟩ } := by
        unfold initializePortals
        simp only [a1, a2, hp, List.getElem?_eq_getElem hi2, hD]
      exact ⟨_, hstep, a1, a2, by simp [a3]⟩)
  obtain ⟨a1, a2, a3, _, a5, _, _⟩ := portals_phase h1
  -- the vertices
  obtain ⟨o3, h3, _⟩ := forRange_some
    (k := g.n) (f := initializeDistances)
    (o := { g := g, portalNumbers := pn, portalIndices := pidx, portals := o1.portals,
            labels := List.replicate g.n { S_v := [], P_l := [] }, vertices := vs0 })
    (fun (_ : Nat) (a : Oracle) => a.g = g ∧ a.vertices.length = g.n ∧ a.labels.length = g.n ∧
      ∀ (v : Nat) (vx : Vertex), a.vertices[v]? = some vx → ll[v]? = some vx.label)
    ⟨rfl, hlen0, by simp, fun v vx hv => (hall0 v vx hv).1⟩
    (by
      rintro i a hi ⟨b1, b2, b3, b4⟩
      have hi2 : i < a.vertices.length := by omega
      have hv : a.vertices[i]? = some a.vertices[i] := List.getElem?_eq_getElem hi2
      obtain ⟨r, hr, _⟩ := localLoop_fuel g hg a.portalIndices i hi a.vertices[i].dist
      have hlab := hrange i _ hi (b4 i _ hv)
      obtain ⟨labels2, hf⟩ := fillS_v_some a.vertices[i].label i r.2 a.labels
        (Or.inr ⟨hlab.1, by rw [b3]; omega⟩)
      obtain ⟨hflen, _⟩ := fillS_v_spec _ _ _ _ _ hf
      have hstep : initializeDistances a i = some { a with
          vertices := a.vertices.set i
            ⟨a.vertices[i].label, r.1.getD a.vertices[i].p, r.2⟩,
          labels := labels2 } := by
        unfold initializeDistances
        simp only [b1, hv, hr, hf]
      refine ⟨_, hstep, b1, ?_, ?_, ?_⟩
      · simp [b2]
      · rw [hflen]; exact b3
      · intro v vx hvx
        simp only at hvx
        by_cases hvi : v = i
        · subst hvi
          rw [List.getElem?_set_self hi2] at hvx
          simp only [Option.some.injEq] at hvx
          subst hvx
          exact b4 v a.vertices[v] hv
        · rw [List.getElem?_set_ne (fun e => hvi e.symm)] at hvx
          exact b4 v vx hvx)
  refine ⟨initializeLabels o3, ?_⟩
  unfold initializeWithLabels
  simp only [hvs, hk, hsel, h1, a1, a2, a3, a5, h3]

/-! ## Walks -/

theorem Walk.source_lt {g : Graph} {u x k : Nat} (h : Walk g u x k) : u < g.n := by
  induction h with
  | nil hu => exact hu
  | snoc _ _ ih => exact ih

theorem Walk.target_lt {g : Graph} (hg : g.WF) {u x k : Nat} (h : Walk g u x k) : x < g.n := by
  cases h with
  | nil hu => exact hu
  | snoc _ he => exact hg.2 _ _ he

theorem Walk.append {g : Graph} {u x y k k2 : Nat} (h1 : Walk g u x k) (h2 : Walk g x y k2) :
    Walk g u y (k + k2) := by
  induction h2 with
  | nil _ => exact h1
  | snoc _ he ih =>
    rw [← Nat.add_assoc]
    exact Walk.snoc ih he

theorem Walk.reverse {g : Graph} (hg : g.WF) (hs : g.Symmetric) {u x k : Nat}
    (h : Walk g u x k) : Walk g x u k := by
  induction h with
  | nil hu => exact Walk.nil hu
  | snoc hw he ih =>
    have hback := hs _ _ (Walk.target_lt hg hw) he
    rw [Nat.add_comm]
    exact Walk.append hback ih

/-- When every edge has a positive weight, a walk of weight 0 has no edge. -/
theorem Walk.eq_of_zero {g : Graph} (hpos : ∀ x e, e ∈ g.edges.getD x [] → 0 < e.w)
    {u x k : Nat} (h : Walk g u x k) (hk : k = 0) : x = u := by
  cases h with
  | nil _ => rfl
  | snoc _ he =>
    have := hpos _ _ he
    omega

/-! ## `std::min` on pairs -/

theorem stdMin_eq_or {α : Type} (lt : α → α → Prop) [DecidableRel lt] (a b : α) :
    stdMin lt a b = a ∨ stdMin lt a b = b := by
  unfold stdMin
  split_ifs
  · exact Or.inr rfl
  · exact Or.inl rfl

theorem stdMin_fst_le {β : Type} (r : β → β → Prop) [DecidableRel r] (a b : W × β) :
    (stdMin (pairLt r) a b).1 ≤ a.1 ∧ (stdMin (pairLt r) a b).1 ≤ b.1 := by
  unfold stdMin
  split_ifs with h
  · refine ⟨?_, le_refl _⟩
    rcases h with h | ⟨h, _⟩
    · exact le_of_lt h
    · exact le_of_eq h
  · refine ⟨le_refl _, ?_⟩
    by_contra hc
    exact h (Or.inl (lt_of_not_le hc))

/-! ## The loop over the portals in `distanceBetweenLabels` -/

theorem portalStep_fold (l1 l2 : Int) (ps : List Portal) :
    ∀ (r : W × (Int × Int)),
      (ps.foldl (portalStep l1 l2) r).1 ≤ r.1 ∧
      (∀ P ∈ ps, ∀ v u tv tu, mapGet P.N_l l1 = v :: tv → mapGet P.N_l l2 = u :: tu →
        (ps.foldl (portalStep l1 l2) r).1 ≤ v.1 + u.1) ∧
      (ps.foldl (portalStep l1 l2) r = r ∨
        ∃ P ∈ ps, ∃ v u tv tu, mapGet P.N_l l1 = v :: tv ∧ mapGet P.N_l l2 = u :: tu ∧
          ps.foldl (portalStep l1 l2) r = (v.1 + u.1, ((v.2 : Int), (u.2 : Int)))) := by
  induction ps with
  | nil =>
    intro r
    refine ⟨le_refl _, ?_, Or.inl rfl⟩
    intro P hP
    exact absurd hP (List.not_mem_nil _)
  | cons Q ps ih =>
    intro r
    obtain ⟨h1, h2, h3⟩ := ih (portalStep l1 l2 r Q)
    have hstep : (portalStep l1 l2 r Q).1 ≤ r.1 ∧
        (∀ v u tv tu, mapGet Q.N_l l1 = v :: tv → mapGet Q.N_l l2 = u :: tu →
          (portalStep l1 l2 r Q).1 ≤ v.1 + u.1) ∧
        (portalStep l1 l2 r Q = r ∨
          ∃ v u tv tu, mapGet Q.N_l l1 = v :: tv ∧ mapGet Q.N_l l2 = u :: tu ∧
            portalStep l1 l2 r Q = (v.1 + u.1, ((v.2 : Int), (u.2 : Int)))) := by
      unfold portalStep
      cases hv : mapGet Q.N_l l1 with
      | nil => exact ⟨le_refl _, fun v u tv tu hc => by simp at hc, Or.inl rfl⟩
      | cons v tv =>
        cases hu : mapGet Q.N_l l2 with
        | nil => exact ⟨le_refl _, fun v u tv tu _ hc => by simp at hc, Or.inl rfl⟩
        | cons u tu =>
          simp only
          refine ⟨(stdMin_fst_le _ _ _).1, ?_, ?_⟩
          · intro v2 u2 tv2 tu2 e1 e2
            simp only [List.cons.injEq] at e1 e2
            rw [← e1.1, ← e2.1]
            exact (stdMin_fst_le _ _ _).2
          · rcases stdMin_eq_or ltWII r (v.1 + u.1, ((v.2 : Int), (u.2 : Int))) with h | h
            · exact Or.inl h
            · exact Or.inr ⟨v, u, tv, tu, rfl, rfl, h⟩
    simp only [List.foldl_cons]
    refine ⟨le_trans h1 hstep.1, ?_, ?_⟩
    · intro P hP v u tv tu hv hu
      rcases List.mem_cons.mp hP with rfl | hP
      · exact le_trans h1 (hstep.2.1 v u tv tu hv hu)
      · exact h2 P hP v u tv tu hv hu
    · rcases h3 with h3 | ⟨P, hP, v, u, tv, tu, hv, hu, hr⟩
      · rcases hstep.2.2 with h4 | ⟨v, u, tv, tu, hv, hu, hr⟩
        · exact Or.inl (h3.trans h4)
        · exact Or.inr ⟨Q, List.mem_cons_self _ _, v, u, tv, tu, hv, hu, h3.trans hr⟩
      · exact Or.inr ⟨P, List.mem_cons_of_mem _ hP, v, u, tv, tu, hv, hu, hr⟩

/-! ## Reading the constructed oracle -/

theorem Built.vertex {g : Graph} {pn : List Nat} {pidx : List Int} {ll : List Int} {o : Oracle}
    (hb : Built g pn pidx ll o) {v : Nat} (hv : v < g.n) :
    ∃ vx, o.vertices[v]? = some vx ∧ VertexBuilt g pidx ll v vx ∧
      labelOf o.vertices v = vx.label := by
  have hlt : v < o.vertices.length := by rw [hb.vlen]; exact hv
  refine ⟨o.vertices[v], List.getElem?_eq_getElem hlt,
    hb.vert v _ (List.getElem?_eq_getElem hlt), ?_⟩
  simp [labelOf, List.getElem?_eq_getElem hlt]

theorem Built.label_iff {g : Graph} {pn : List Nat} {pidx : List Int} {ll : List Int}
    {o : Oracle} (hb : Built g pn pidx ll o) {v : Nat} (hv : v < g.n) (l : Int) :
    labelOf o.vertices v = l ↔ ll[v]? = some l := by
  obtain ⟨vx, _, hvb, hl⟩ := hb.vertex hv
  rw [hl, hvb.1]
  simp

/-- The record of a vertex that is a portal: `p` is the portal itself at distance 0 and `dist`
is empty. -/
theorem Built.vertex_portal {g : Graph} {pn : List Nat} {pidx : List Int} {ll : List Int}
    {o : Oracle} (hb : Built g pn pidx ll o) {v : Nat} (hv : v < g.n)
    (hp : pidx.getD v (-1) ≠ -1) {vx : Vertex} (hvx : o.vertices[v]? = some vx) :
    vx.p = (0, (pidx.getD v (-1)).toNat) ∧ vx.dist = [] := by
  obtain ⟨_, r, hr, h1, h2⟩ := hb.vert v vx hvx
  rw [localLoop_portal g pidx v hv [] hp] at hr
  simp only [Option.some.injEq] at hr
  subst hr
  exact ⟨h1, h2⟩

/-- The record of a vertex that is not a portal: `dist` starts with the vertex itself at
distance 0, and the search has the properties of `LocalPost`. -/
theorem Built.vertex_local {g : Graph} (hg : g.WF) {pn : List Nat} {pidx : List Int}
    {ll : List Int} {o : Oracle} (hb : Built g pn pidx ll o) {v : Nat} (hv : v < g.n)
    (hp : pidx.getD v (-1) = -1) {vx : Vertex} (hvx : o.vertices[v]? = some vx) :
    ∃ r, LocalPost g pidx v [] r ∧ vx.p = r.1.getD (0, 0) ∧ vx.dist = r.2 ∧
      ∃ rest, vx.dist = ((0 : W), v) :: rest := by
  obtain ⟨_, r, hr, h1, h2⟩ := hb.vert v vx hvx
  obtain ⟨r2, hr2, hpost, rest, hrest⟩ := localLoop_first g hg pidx v hv hp
  rw [hr] at hr2
  simp only [Option.some.injEq] at hr2
  subst hr2
  exact ⟨r, hpost, h1, h2, rest, by rw [h2, hrest]⟩

/-- The properties of the search behind any vertex record. -/
theorem Built.vertex_post {g : Graph} (hg : g.WF) {pn : List Nat} {pidx : List Int}
    {ll : List Int} {o : Oracle} (hb : Built g pn pidx ll o) {v : Nat} (hv : v < g.n)
    {vx : Vertex} (hvx : o.vertices[v]? = some vx) :
    ∃ r, LocalPost g pidx v [] r ∧ vx.p = r.1.getD (0, 0) ∧ vx.dist = r.2 := by
  obtain ⟨_, r, hr, h1, h2⟩ := hb.vert v vx hvx
  obtain ⟨r2, hr2, hpost⟩ := localLoop_fuel g hg pidx v hv []
  rw [hr] at hr2
  simp only [Option.some.injEq] at hr2
  subst hr2
  exact ⟨r, hpost, h1, h2⟩

/-- The portal record at a valid index: its distance vector is exact. -/
theorem Built.portal_post {g : Graph} (hg : g.WF) {perm : List Nat} {k : Nat} {pn : List Nat}
    {pidx : List Int} {ll : List Int} {o : Oracle}
    (hsel : selectPortals g perm k = some (pn, pidx)) (hb : Built g pn pidx ll o)
    {i : Nat} {P : Portal} (hP : o.portals[i]? = some P) :
    ∃ p, pn[i]? = some p ∧ p < g.n ∧ PortalPost g p P.D_v ∧
      (∀ l x, x ∈ mapGet P.N_l l ↔
        ∃ v, v < g.n ∧ labelOf o.vertices v = l ∧ x = (P.D_v.getD v infinity, v)) ∧
      ∀ l, (mapGet P.N_l l).Pairwise ltWN := by
  obtain ⟨p, hp, hloop, hmem, hsorted⟩ := hb.port i P hP
  have hpn := ((selectPortals_spec hsel).2.2.2.2 i p hp).1
  obtain ⟨D, hD, hpost⟩ := portalLoop_fuel g hg p hpn
  rw [hloop] at hD
  simp only [Option.some.injEq] at hD
  subst hD
  exact ⟨p, hp, hpn, hpost, hmem, hsorted⟩

/-- The portal record of a portal vertex, found through `portalIndices`. -/
theorem Built.portal_of_index {g : Graph} (hg : g.WF) {perm : List Nat} {k : Nat}
    {pn : List Nat} {pidx : List Int} {ll : List Int} {o : Oracle}
    (hsel : selectPortals g perm k = some (pn, pidx)) (hb : Built g pn pidx ll o)
    {v : Nat} (hp : pidx.getD v (-1) ≠ -1) :
    ∃ P, o.portals[(pidx.getD v (-1)).toNat]? = some P ∧ v < g.n ∧ PortalPost g v P.D_v ∧
      (∀ l x, x ∈ mapGet P.N_l l ↔
        ∃ u, u < g.n ∧ labelOf o.vertices u = l ∧ x = (P.D_v.getD u infinity, u)) ∧
      ∀ l, (mapGet P.N_l l).Pairwise ltWN := by
  obtain ⟨_, hpn⟩ := (selectPortals_spec hsel).2.2.2.1 v hp
  have hlt : (pidx.getD v (-1)).toNat < o.portals.length := by
    rw [hb.plen]
    exact (List.getElem?_eq_some.mp hpn).1
  obtain ⟨p, hp2, hpn2, hpost, hmem, hsorted⟩ :=
    hb.portal_post hg hsel (List.getElem?_eq_getElem hlt)
  rw [hpn] at hp2
  simp only [Option.some.injEq] at hp2
  subst hp2
  exact ⟨_, List.getElem?_eq_getElem hlt, hpn2, hpost, hmem, hsorted⟩

/-! ## Checking the hypotheses on a concrete input -/

theorem wf_of_check (g : Graph) (h1 : g.edges.length = g.n)
    (h2 : ∀ l ∈ g.edges, ∀ e ∈ l, e.v < g.n) : g.WF := by
  refine ⟨h1, fun x e he => ?_⟩
  by_cases hx : x < g.edges.length
  · have hget : g.edges.getD x [] = g.edges[x] := by
      simp [List.getD_eq_getElem?_getD, List.getElem?_eq_getElem hx]
    rw [hget] at he
    exact h2 _ (List.getElem_mem _) e he
  · have hget : g.edges.getD x [] = [] := by
      simp [List.getD_eq_getElem?_getD, List.getElem?_eq_none (Nat.le_of_not_lt hx)]
    rw [hget] at he
    exact absurd he (List.not_mem_nil _)

theorem symmetric_of_check (g : Graph)
    (h : ∀ x, x < g.n → ∀ e ∈ g.edges.getD x [], e.v < g.n ∧
      ∃ e2 ∈ g.edges.getD e.v [], e2.v = x ∧ e2.w = e.w) : g.Symmetric := by
  intro x e hx he
  obtain ⟨hv, e2, he2, h1, h2⟩ := h x hx e he
  have hw := Walk.snoc (Walk.nil hv) he2
  rw [h1, h2, Nat.zero_add] at hw
  exact hw

theorem range_of_check (n : Nat) (ll : List Int) (h : ∀ l ∈ ll, 0 ≤ l ∧ l < (n : Int)) :
    ∀ (v : Nat) (l : Int), v < n → ll[v]? = some l → 0 ≤ l ∧ l < (n : Int) :=
  fun _ l _ hl => h l (List.getElem?_mem hl)

theorem pathGraph_wf : pathGraph.WF :=
  wf_of_check pathGraph rfl (by decide)

theorem pathGraph_symmetric : pathGraph.Symmetric :=
  symmetric_of_check pathGraph (by decide)

theorem shortPath_wf : shortPath.WF :=
  wf_of_check shortPath rfl (by decide)

theorem shortPath_symmetric : shortPath.Symmetric :=
  symmetric_of_check shortPath (by decide)

theorem pathLabels_range :
    ∀ (v : Nat) (l : Int), v < pathGraph.n → pathLabels[v]? = some l →
      0 ≤ l ∧ l < (pathGraph.n : Int) :=
  range_of_check pathGraph.n pathLabels (by decide)

theorem pathGraph_walk_0_3 : Walk pathGraph 0 3 3 :=
  Walk.snoc (e := ⟨3, 1⟩)
    (Walk.snoc (e := ⟨2, 1⟩)
      (Walk.snoc (e := ⟨1, 1⟩) (Walk.nil (by decide)) (by decide)) (by decide)) (by decide)

theorem shortPath_walk_0_2 : Walk shortPath 0 2 2 :=
  Walk.snoc (e := ⟨2, 1⟩)
    (Walk.snoc (e := ⟨1, 1⟩) (Walk.nil (by decide)) (by decide)) (by decide)

/-! ## Equal labels in `distanceBetweenLabels` -/

theorem indexInt_some {α : Type} (xs : List α) (i : Int) (h0 : 0 ≤ i)
    (h1 : i < (xs.length : Int)) :
    ∃ x, indexInt xs i = some x ∧ xs[i.toNat]? = some x := by
  have hlt : i.toNat < xs.length := by omega
  refine ⟨xs[i.toNat], ?_, List.getElem?_eq_getElem hlt⟩
  unfold indexInt
  simp [Int.not_lt.mpr h0, List.getElem?_eq_getElem hlt]

/-- A vertex that is not a portal and is labelled `L` contributes the record `(0, (a, a))` to
the set of the label pair `(L, L)`. -/
theorem Built.self_record {g : Graph} (hg : g.WF) {pn : List Nat} {pidx : List Int}
    {ll : List Int} {o : Oracle} (hb : Built g pn pidx ll o) {a : Nat} (ha : a < g.n)
    (hp : pidx.getD a (-1) = -1) {L : Int} (hL : labelOf o.vertices a = L)
    {lab : Label} (hlab : o.labels[L.toNat]? = some lab) (hL0 : 0 ≤ L) :
    ((0 : W), (a, a)) ∈ mapGet lab.P_l L := by
  obtain ⟨vx, hvx, _, hl⟩ := hb.vertex ha
  obtain ⟨_, _, _, _, rest, hrest⟩ := hb.vertex_local hg ha hp hvx
  rw [(hb.lab _ lab hlab).1]
  refine ⟨vx, hvx, ?_, ?_, hL⟩
  · rw [← hl, hL]
    exact (Int.toNat_of_nonneg hL0).symm
  · rw [hrest]
    exact List.mem_cons_self _ _

/-- Claim C8: on valid input (well-formed graph with non-negative weights, labels in
`0..n-1`, any portal selection with at most `n` portals) the construction succeeds, and for
every label `L` carried by at least one vertex `distanceBetweenLabels(L, L)` returns distance 0
with a witness pair `(a, a)`. -/
theorem distanceBetweenLabels_same (g : Graph) (hg : g.WF) (perm : List Nat)
    (hperm : perm.Perm (List.range g.n)) (ll : List Int) (hll : g.n ≤ ll.length)
    (hrange : ∀ (v : Nat) (l : Int), v < g.n → ll[v]? = some l → 0 ≤ l ∧ l < (g.n : Int))
    (ro : Int) (k : Nat) (hk : portalCount g.n ro = some k) (hkn : k ≤ g.n)
    (L : Int) (hL : ∃ v, v < g.n ∧ ll[v]? = some L) :
    ∃ o, initializeWithLabels g perm ll ro = some o ∧
      ∃ a, distanceBetweenLabels o L L = some (0, (a, a)) := by
  haveI := ltWN_sto
  haveI := ltWNN_sto
  obtain ⟨o, ho⟩ := initializeWithLabels_some g hg perm hperm ll hll hrange ro k hk hkn
  refine ⟨o, ho, ?_⟩
  obtain ⟨k2, pn, pidx, _, hsel, hb⟩ := initializeWithLabels_built ho
  obtain ⟨v0, hv0, hv0L⟩ := hL
  obtain ⟨hL0, hLn⟩ := hrange v0 L hv0 hv0L
  obtain ⟨lab, hidx, hlab⟩ := indexInt_some o.labels L hL0 (by rw [hb.llen]; exact hLn)
  obtain ⟨hmem, hsorted, hne⟩ := hb.lab _ lab hlab
  obtain ⟨f1, f2, f3⟩ := portalStep_fold L L o.portals (infinity, (-1, -1))
  -- the portal candidate has equal witnesses
  have hshape : (o.portals.foldl (portalStep L L) (infinity, (-1, -1))).2.1 =
      (o.portals.foldl (portalStep L L) (infinity, (-1, -1))).2.2 := by
    rcases f3 with h | ⟨P, _, v, u, tv, tu, hv, hu, h⟩
    · rw [h]
    · rw [h]
      rw [hv] at hu
      simp only [List.cons.injEq] at hu
      rw [hu.1]
  -- a labelled vertex that is a portal makes the portal candidate 0
  have hportal : ∀ a, a < g.n → labelOf o.vertices a = L → pidx.getD a (-1) ≠ -1 →
      (o.portals.foldl (portalStep L L) (infinity, (-1, -1))).1 = 0 := by
    intro a ha haL hp
    obtain ⟨P, hP, _, hpost, hPmem, hPsorted⟩ := hb.portal_of_index hg hsel hp
    have hD : P.D_v.getD a infinity = 0 := by
      have := hpost.least a 0 (Walk.nil ha)
      exact le_antisymm this (zero_le _)
    have hin : ((0 : W), a) ∈ mapGet P.N_l L := by
      rw [hPmem]
      exact ⟨a, ha, haL, by rw [hD]⟩
    cases hlist : mapGet P.N_l L with
    | nil => rw [hlist] at hin; exact absurd hin (List.not_mem_nil _)
    | cons h t =>
      have hh : h.1 = 0 := by
        rcases head_le_of_sorted ltWN (hPsorted L) hlist hin with e | e
        · rw [← e]
        · rcases e with e | ⟨e, _⟩
          · exact absurd e (not_lt.mpr (zero_le _))
          · exact e
      have := f2 P (List.getElem?_mem hP) h h t t hlist hlist
      rw [hh] at this
      exact le_antisymm (by simpa using this) (zero_le _)
  unfold distanceBetweenLabels
  simp only [hidx]
  cases hfind : mapFind lab.P_l L with
  | none =>
    have hnil := mapGet_of_mapFind_none hfind
    have hv0p : pidx.getD v0 (-1) ≠ -1 := by
      intro hp
      have := hb.self_record hg hv0 hp ((hb.label_iff hv0 L).mpr hv0L) hlab hL0
      rw [hnil] at this
      exact absurd this (List.not_mem_nil _)
    have h0 := hportal v0 hv0 ((hb.label_iff hv0 L).mpr hv0L) hv0p
    refine ⟨(o.portals.foldl (portalStep L L) (infinity, (-1, -1))).2.1, ?_⟩
    simp only [Option.some.injEq]
    apply Prod.ext
    · exact h0
    · apply Prod.ext
      · rfl
      · exact hshape.symm
  | some s =>
    have hget := mapGet_of_mapFind hfind
    cases s with
    | nil => exact absurd hfind (hne L)
    | cons x t =>
      simp only
      have hx : x ∈ mapGet lab.P_l L := by rw [hget]; exact List.mem_cons_self _ _
      obtain ⟨vx, hvx, hvlab, hxd, hxl⟩ := (hmem L x).mp hx
      have hcast : ((L.toNat : Nat) : Int) = L := Int.toNat_of_nonneg hL0
      have hvn : x.2.2 < g.n := by
        rw [← hb.vlen]
        exact (List.getElem?_eq_some.mp hvx).1
      -- the owner of the list is not a portal and carries `L`
      have hvp : pidx.getD x.2.2 (-1) = -1 := by
        by_contra hp
        rw [(hb.vertex_portal hvn hp hvx).2] at hxd
        exact absurd hxd (List.not_mem_nil _)
      have hvl : labelOf o.vertices x.2.2 = L := by
        obtain ⟨vy, hvy, _, hl⟩ := hb.vertex hvn
        rw [hvx] at hvy
        simp only [Option.some.injEq] at hvy
        subst hvy
        rw [hl, hvlab, hcast]
      -- the discovered vertex is not a portal either
      obtain ⟨r, hpost, _, hdist⟩ := hb.vertex_post hg hvn hvx
      obtain ⟨rest, hrest, hall⟩ := hpost.ext
      have hxd2 : (x.1, x.2.1) ∈ rest := by
        rw [hdist, hrest] at hxd
        simpa using hxd
      obtain ⟨hup, ku, _, hwalk⟩ := hall _ hxd2
      have hun : x.2.1 < g.n := Walk.target_lt hg hwalk
      have hrec1 := hb.self_record hg hvn hvp hvl hlab hL0
      have hrec2 := hb.self_record hg hun hup hxl hlab hL0
      have hle1 := head_le_of_sorted ltWNN (hsorted L) hget hrec1
      have hle2 := head_le_of_sorted ltWNN (hsorted L) hget hrec2
      -- so the least record is `(0, (u, u))`
      have hx1 : x.1 = 0 := by
        rcases hle1 with e | e
        · rw [← e]
        · rcases e with e | ⟨e, _⟩
          · exact absurd e (not_lt.mpr (zero_le _))
          · exact e
      have hx2 : x.2.1 = x.2.2 := by
        have hA : x.2.1 ≤ x.2.2 := by
          rcases hle1 with e | e
          · rw [← e]
          · rcases e with e | ⟨_, e | ⟨e, _⟩⟩
            · exact absurd e (not_lt.mpr (zero_le _))
            · exact le_of_lt e
            · exact le_of_eq e
        have hB : x.2.2 ≤ x.2.1 := by
          rcases hle2 with e | e
          · rw [← e]
          · rcases e with e | ⟨_, e | ⟨_, e⟩⟩
            · exact absurd e (not_lt.mpr (zero_le _))
            · exact absurd e (lt_irrefl _)
            · exact le_of_lt e
        exact le_antisymm hA hB
      rcases stdMin_eq_or ltWII (o.portals.foldl (portalStep L L) (infinity, (-1, -1)))
        (x.1, ((x.2.1 : Int), (x.2.2 : Int))) with h | h
      · have hle := (stdMin_fst_le ltII
          (o.portals.foldl (portalStep L L) (infinity, (-1, -1)))
          (x.1, ((x.2.1 : Int), (x.2.2 : Int)))).2
        have hle2 : (stdMin ltWII (o.portals.foldl (portalStep L L) (infinity, (-1, -1)))
          (x.1, ((x.2.1 : Int), (x.2.2 : Int)))).1 ≤ x.1 := hle
        rw [h, hx1] at hle2
        refine ⟨(o.portals.foldl (portalStep L L) (infinity, (-1, -1))).2.1, ?_⟩
        rw [h]
        simp only [Option.some.injEq]
        apply Prod.ext
        · exact le_antisymm hle2 (zero_le _)
        · apply Prod.ext
          · rfl
          · exact hshape.symm
      · refine ⟨(x.2.2 : Int), ?_⟩
        rw [h, hx1, hx2]

theorem distanceBetweenLabels_same_witness :
    pathGraph.WF ∧ [3, 0, 4, 1, 2].Perm (List.range pathGraph.n) ∧
    ∃ o, initializeWithLabels pathGraph [3, 0, 4, 1, 2] pathLabels 1 = some o ∧
      ∃ a, distanceBetweenLabels o 0 0 = some (0, (a, a)) :=
  ⟨pathGraph_wf, by decide,
    distanceBetweenLabels_same pathGraph pathGraph_wf [3, 0, 4, 1, 2] (by decide) pathLabels
      (by decide) pathLabels_range 1 1 (by decide) (by decide) 0 ⟨0, by decide, by decide⟩⟩

/-! ## Every vertex a portal -/

theorem stdMin_infinity_fst (w w2 : Int) (d : W) :
    (stdMin ltWI (infinity, w) (d, w2)).1 = d := by
  unfold stdMin
  split_ifs with h
  · rfl
  · by_contra hc
    apply h
    refine Or.inl ?_
    show d < ⊤
    exact lt_top_iff_ne_top.mpr (fun e => hc (by rw [e]))

theorem head_fst_le {s t : List (W × Nat)} {h x : W × Nat} (hs : s.Pairwise ltWN)
    (hh : s = h :: t) (hx : x ∈ s) : h.1 ≤ x.1 := by
  rcases head_le_of_sorted ltWN hs hh hx with e | e
  · rw [e]
  · rcases e with e | ⟨e, _⟩
    · exact le_of_lt e
    · exact le_of_eq e

theorem portalCount_all (n : Nat) : portalCount n (n : Int) = some n := by
  unfold portalCount
  have h1 : ¬ ((n : Int) = -1) := by omega
  have h2 : ¬ ((n : Int) < 0) := by omega
  simp [h1, h2]

/-- Claim C3: when the oracle is constructed with `ro = n` over a well-formed symmetric graph
with non-negative weights and labels in `0..n-1`, the construction succeeds and the queries
are exact: `distanceToLabel(v, L)` returns the true shortest distance from `v` to the vertices
labelled `L` and `distanceBetweenLabels(L1, L2)` returns the true shortest distance between the
vertices labelled `L1` and the vertices labelled `L2` (`infinity` when there is none). -/
theorem exact_when_all_portals (g : Graph) (hg : g.WF) (hs : g.Symmetric) (perm : List Nat)
    (hperm : perm.Perm (List.range g.n)) (ll : List Int) (hll : g.n ≤ ll.length)
    (hrange : ∀ (v : Nat) (l : Int), v < g.n → ll[v]? = some l → 0 ≤ l ∧ l < (g.n : Int)) :
    ∃ o, initializeWithLabels g perm ll (g.n : Int) = some o ∧
      (∀ (v : Nat) (L : Int), v < g.n →
        ∃ r, distanceToLabel o v L = some r ∧
          IsDistTo g v (fun u => ll[u]? = some L) r.1) ∧
      (∀ (L1 L2 : Int), 0 ≤ L1 → L1 < (g.n : Int) →
        ∃ r, distanceBetweenLabels o L1 L2 = some r ∧
          IsDistBetween g (fun a => ll[a]? = some L1) (fun b => ll[b]? = some L2) r.1) := by
  haveI := ltWN_sto
  obtain ⟨o, ho⟩ := initializeWithLabels_some g hg perm hperm ll hll hrange (g.n : Int) g.n
    (portalCount_all g.n) (le_refl _)
  refine ⟨o, ho, ?_, ?_⟩ <;>
  obtain ⟨k2, pn, pidx, hk2, hsel, hb⟩ := initializeWithLabels_built ho <;>
  rw [portalCount_all] at hk2 <;>
  simp only [Option.some.injEq] at hk2 <;>
  subst hk2 <;>
  have hlenp : perm.length = g.n := (by rw [hperm.length_eq, List.length_range]) <;>
  have hall : ∀ v, v < g.n → pidx.getD v (-1) ≠ -1 := (by
    intro v hv
    have hpn : pn = perm := by
      rw [(selectPortals_spec hsel).1, resizeInt_of_le perm g.n (by omega), ← hlenp,
        List.take_length]
    have hmem : v ∈ pn := by
      rw [hpn]
      exact hperm.symm.subset (List.mem_range.mpr hv)
    obtain ⟨i, hi⟩ := List.mem_iff_getElem?.mp hmem
    exact ((selectPortals_spec hsel).2.2.2.2 i v hi).2)
  · -- distanceToLabel
    intro v L hv
    obtain ⟨vx, hvx, _, _⟩ := hb.vertex hv
    obtain ⟨hp1, hp2⟩ := hb.vertex_portal hv (hall v hv) hvx
    obtain ⟨P, hP, _, hpost, hPmem, hPsorted⟩ := hb.portal_of_index hg hsel (hall v hv)
    unfold distanceToLabel
    simp only [hvx, hp1, hp2, hP, localScan]
    cases hlist : mapGet P.N_l L with
    | nil =>
      refine ⟨_, rfl, Or.inl rfl, ?_⟩
      rintro x (rfl | ⟨u, k, hu, hw, rfl⟩)
      · exact le_refl _
      · exfalso
        have hun := Walk.target_lt hg hw
        have hin : (P.D_v.getD u infinity, u) ∈ mapGet P.N_l L :=
          (hPmem L _).mpr ⟨u, hun, (hb.label_iff hun L).mpr hu, rfl⟩
        rw [hlist] at hin
        exact absurd hin (List.not_mem_nil _)
    | cons it t =>
      refine ⟨_, rfl, ?_⟩
      simp only [zero_add]
      rw [stdMin_infinity_fst]
      have hit : it ∈ mapGet P.N_l L := by rw [hlist]; exact List.mem_cons_self _ _
      obtain ⟨u0, hu0, hu0L, hitv⟩ := (hPmem L it).mp hit
      constructor
      · by_cases htop : it.1 = infinity
        · exact Or.inl htop
        · refine Or.inr ⟨u0, it.1.toNat, (hb.label_iff hu0 L).mp hu0L, ?_,
            (ENat.coe_toNat htop).symm⟩
          apply hpost.walk
          rw [ENat.coe_toNat htop, hitv]
      · rintro x (rfl | ⟨u, k, hu, hw, rfl⟩)
        · exact le_top
        · have hun := Walk.target_lt hg hw
          have hin : (P.D_v.getD u infinity, u) ∈ mapGet P.N_l L :=
            (hPmem L _).mpr ⟨u, hun, (hb.label_iff hun L).mpr hu, rfl⟩
          exact le_trans (head_fst_le (hPsorted L) hlist hin) (hpost.least u k hw)
  · -- distanceBetweenLabels
    intro L1 L2 hL0 hLn
    obtain ⟨lab, hidx, hlab⟩ := indexInt_some o.labels L1 hL0 (by rw [hb.llen]; exact hLn)
    obtain ⟨hmem, _, hne⟩ := hb.lab _ lab hlab
    have hfind : mapFind lab.P_l L2 = none := by
      cases hf : mapFind lab.P_l L2 with
      | none => rfl
      | some s =>
        exfalso
        cases s with
        | nil => exact hne L2 hf
        | cons x t =>
          have hx : x ∈ mapGet lab.P_l L2 := by
            rw [mapGet_of_mapFind hf]; exact List.mem_cons_self _ _
          obtain ⟨vx, hvx, _, hxd, _⟩ := (hmem L2 x).mp hx
          have hvn : x.2.2 < g.n := by
            rw [← hb.vlen]
            exact (List.getElem?_eq_some.mp hvx).1
          rw [(hb.vertex_portal hvn (hall _ hvn) hvx).2] at hxd
          exact absurd hxd (List.not_mem_nil _)
    obtain ⟨_, f2, f3⟩ := portalStep_fold L1 L2 o.portals (infinity, (-1, -1))
    unfold distanceBetweenLabels
    simp only [hidx, hfind]
    refine ⟨_, rfl, ?_, ?_⟩
    · rcases f3 with h | ⟨P, hPin, v, u, tv, tu, hv, hu, h⟩
      · rw [h]
        exact Or.inl rfl
      · rw [h]
        obtain ⟨i, hi⟩ := List.mem_iff_getElem?.mp hPin
        obtain ⟨p, _, _, hpost, hPmem, _⟩ := hb.portal_post hg hsel hi
        obtain ⟨a, ha, haL, hva⟩ := (hPmem L1 v).mp (by rw [hv]; exact List.mem_cons_self _ _)
        obtain ⟨b, hbn, hbL, hub⟩ := (hPmem L2 u).mp (by rw [hu]; exact List.mem_cons_self _ _)
        by_cases htop : v.1 + u.1 = infinity
        · exact Or.inl htop
        · have hv1 : v.1 ≠ ⊤ := fun e => htop (by rw [e]; exact top_add _)
          have hu1 : u.1 ≠ ⊤ := fun e => htop (by rw [e]; exact add_top _)
          have hwa : Walk g p a v.1.toNat := by
            apply hpost.walk
            rw [ENat.coe_toNat hv1, hva]
          have hwb : Walk g p b u.1.toNat := by
            apply hpost.walk
            rw [ENat.coe_toNat hu1, hub]
          refine Or.inr ⟨a, b, v.1.toNat + u.1.toNat, (hb.label_iff ha L1).mp haL,
            (hb.label_iff hbn L2).mp hbL, Walk.append (Walk.reverse hg hs hwa) hwb, ?_⟩
          show v.1 + u.1 = ((v.1.toNat + u.1.toNat : Nat) : W)
          rw [Nat.cast_add, ENat.coe_toNat hv1, ENat.coe_toNat hu1]
    · rintro x (rfl | ⟨a, b, k, haL, hbL, hw, rfl⟩)
      · exact le_top
      · have ha := Walk.source_lt hw
        have hbn := Walk.target_lt hg hw
        obtain ⟨P, hP, _, hpost, hPmem, hPsorted⟩ := hb.portal_of_index hg hsel (hall a ha)
        have hD : P.D_v.getD a infinity = 0 :=
          le_antisymm (hpost.least a 0 (Walk.nil ha)) (zero_le _)
        have hina : ((0 : W), a) ∈ mapGet P.N_l L1 :=
          (hPmem L1 _).mpr ⟨a, ha, (hb.label_iff ha L1).mpr haL, by rw [hD]⟩
        have hinb : (P.D_v.getD b infinity, b) ∈ mapGet P.N_l L2 :=
          (hPmem L2 _).mpr ⟨b, hbn, (hb.label_iff hbn L2).mpr hbL, rfl⟩
        cases hl1 : mapGet P.N_l L1 with
        | nil => rw [hl1] at hina; exact absurd hina (List.not_mem_nil _)
        | cons v tv =>
          cases hl2 : mapGet P.N_l L2 with
          | nil => rw [hl2] at hinb; exact absurd hinb (List.not_mem_nil _)
          | cons u tu =>
            have h1 : v.1 ≤ 0 := head_fst_le (hPsorted L1) hl1 hina
            have h2 : u.1 ≤ (k : W) :=
              le_trans (head_fst_le (hPsorted L2) hl2 hinb) (hpost.least b k hw)
            calc (o.portals.foldl (portalStep L1 L2) (infinity, (-1, -1))).1
                ≤ v.1 + u.1 := f2 P (List.getElem?_mem hP) v u tv tu hl1 hl2
              _ ≤ 0 + (k : W) := add_le_add h1 h2
              _ = (k : W) := zero_add _

theorem exact_when_all_portals_witness :
    pathGraph.WF ∧ pathGraph.Symmetric ∧ [3, 0, 4, 1, 2].Perm (List.range pathGraph.n) ∧
    ∃ o, initializeWithLabels pathGraph [3, 0, 4, 1, 2] pathLabels (pathGraph.n : Int) = some o ∧
      (∀ (v : Nat) (L : Int), v < pathGraph.n →
        ∃ r, distanceToLabel o v L = some r ∧
          IsDistTo pathGraph v (fun u => pathLabels[u]? = some L) r.1) ∧
      (∀ (L1 L2 : Int), 0 ≤ L1 → L1 < (pathGraph.n : Int) →
        ∃ r, distanceBetweenLabels o L1 L2 = some r ∧
          IsDistBetween pathGraph (fun a => pathLabels[a]? = some L1)
            (fun b => pathLabels[b]? = some L2) r.1) :=
  ⟨pathGraph_wf, pathGraph_symmetric, by decide,
    exact_when_all_portals pathGraph pathGraph_wf pathGraph_symmetric [3, 0, 4, 1, 2]
      (by decide) pathLabels (by decide) pathLabels_range⟩

/-! ## `distanceToLabel` on the label of the vertex itself -/

theorem localScan_spec (vs : List Vertex) (l : Int) (lst : List (W × Nat)) :
    localScan vs l lst = (infinity, -1) ∨
      ∃ c ∈ lst, labelOf vs c.2 = l ∧ localScan vs l lst = (c.1, (c.2 : Int)) := by
  induction lst with
  | nil => exact Or.inl rfl
  | cons c lst ih =>
    unfold localScan
    split_ifs with h
    · exact Or.inr ⟨c, List.mem_cons_self _ _, h, rfl⟩
    · rcases ih with h2 | ⟨c2, hc2, hl, h2⟩
      · exact Or.inl h2
      · exact Or.inr ⟨c2, List.mem_cons_of_mem _ hc2, hl, h2⟩

/-- When a portal can be reached from `v`, the search from `v` assigns `p`: the weight of a
walk to a portal vertex and the index of a portal record built from that vertex. -/
theorem Built.nearest {g : Graph} (hg : g.WF) {perm : List Nat} {k : Nat} {pn : List Nat}
    {pidx : List Int} {ll : List Int} {o : Oracle}
    (hsel : selectPortals g perm k = some (pn, pidx)) (hb : Built g pn pidx ll o)
    {v : Nat} (hv : v < g.n) {vx : Vertex} (hvx : o.vertices[v]? = some vx)
    (hreach : ∃ u j, Walk g v u j ∧ u ∈ pn) :
    ∃ (u j : Nat) (P : Portal), vx.p.1 = (j : W) ∧ Walk g v u j ∧
      o.portals[vx.p.2]? = some P ∧ PortalPost g u P.D_v ∧
      (∀ l x, x ∈ mapGet P.N_l l ↔
        ∃ w, w < g.n ∧ labelOf o.vertices w = l ∧ x = (P.D_v.getD w infinity, w)) ∧
      ∀ l, (mapGet P.N_l l).Pairwise ltWN := by
  obtain ⟨r, hpost, hp, _⟩ := hb.vertex_post hg hv hvx
  cases hr1 : r.1 with
  | none =>
    exfalso
    obtain ⟨u, j, hw, hu⟩ := hreach
    obtain ⟨i, hi⟩ := List.mem_iff_getElem?.mp hu
    exact ((selectPortals_spec hsel).2.2.2.2 i u hi).2 (hpost.unassigned hr1 u j hw)
  | some q =>
    obtain ⟨u, j, hpu, hq2, hq1, hw⟩ := hpost.portal q hr1
    obtain ⟨P, hP, _, hPpost, hPmem, hPsorted⟩ := hb.portal_of_index hg hsel hpu
    rw [hr1] at hp
    simp only [Option.getD_some] at hp
    refine ⟨u, j, P, by rw [hp, hq1], hw, by rw [hp, hq2]; exact hP, hPpost, hPmem, hPsorted⟩

/-- Claim C7, amended: on valid input, for every vertex `v` from which some portal can be
reached, `distanceToLabel(v, label(v))` returns `(0, w)` for a vertex `w` that carries the
label of `v` and is joined to `v` by a walk of weight 0; when every edge weight is positive,
`w` is `v` itself. -/
theorem distanceToLabel_self (g : Graph) (hg : g.WF) (perm : List Nat)
    (hperm : perm.Perm (List.range g.n)) (ll : List Int) (hll : g.n ≤ ll.length)
    (hrange : ∀ (v : Nat) (l : Int), v < g.n → ll[v]? = some l → 0 ≤ l ∧ l < (g.n : Int))
    (ro : Int) (k : Nat) (hk : portalCount g.n ro = some k) (hkn : k ≤ g.n)
    (v : Nat) (L : Int) (hvL : ll[v]? = some L)
    (hreach : ∃ u j, Walk g v u j ∧ u ∈ resizeInt perm k) :
    ∃ o, initializeWithLabels g perm ll ro = some o ∧
      ∃ w : Nat, distanceToLabel o v L = some (0, (w : Int)) ∧ ll[w]? = some L ∧
        Walk g v w 0 ∧ ((∀ x e, e ∈ g.edges.getD x [] → 0 < e.w) → w = v) := by
  haveI := ltWN_sto
  obtain ⟨o, ho⟩ := initializeWithLabels_some g hg perm hperm ll hll hrange ro k hk hkn
  refine ⟨o, ho, ?_⟩
  obtain ⟨k2, pn, pidx, hk2, hsel, hb⟩ := initializeWithLabels_built ho
  rw [hk] at hk2
  simp only [Option.some.injEq] at hk2
  subst hk2
  have hpn : pn = resizeInt perm k := (selectPortals_spec hsel).1
  rw [← hpn] at hreach
  have hv : v < g.n := by
    obtain ⟨u, j, hw, _⟩ := hreach
    exact Walk.source_lt hw
  obtain ⟨vx, hvx, _, hlab⟩ := hb.vertex hv
  have hvlab : labelOf o.vertices v = L := (hb.label_iff hv L).mpr hvL
  obtain ⟨u, j, P, hp1, hwu, hP, hPpost, hPmem, hPsorted⟩ :=
    hb.nearest hg hsel hv hvx hreach
  -- every answer of the shape below satisfies the claim
  suffices hmain : ∃ w : Nat, distanceToLabel o v L = some (0, (w : Int)) ∧
      labelOf o.vertices w = L ∧ w < g.n ∧ Walk g v w 0 by
    obtain ⟨w, h1, h2, h3, h4⟩ := hmain
    exact ⟨w, h1, (hb.label_iff h3 L).mp h2, h4, fun hpos => Walk.eq_of_zero hpos h4 rfl⟩
  unfold distanceToLabel
  simp only [hvx, hP]
  by_cases hport : pidx.getD v (-1) = -1
  · -- `v` is not a portal: the scan answers `(0, v)`
    obtain ⟨_, _, _, _, rest, hrest⟩ := hb.vertex_local hg hv hport hvx
    have hscan : localScan o.vertices L vx.dist = (0, (v : Int)) := by
      rw [hrest]
      unfold localScan
      simp [hvlab]
    rw [hscan]
    cases hlist : mapGet P.N_l L with
    | nil => exact ⟨v, rfl, hvlab, hv, Walk.nil hv⟩
    | cons it t =>
      simp only
      obtain ⟨w, hw, hwL, hitw⟩ :=
        (hPmem L it).mp (by rw [hlist]; exact List.mem_cons_self _ _)
      unfold stdMin
      split_ifs with hlt
      · have hzero : vx.p.1 + it.1 = 0 := by
          rcases hlt with h | ⟨h, _⟩
          · exact absurd h (not_lt.mpr (zero_le _))
          · exact h
        have hp0 : vx.p.1 = 0 := (add_eq_zero.mp hzero).1
        have hit0 : it.1 = 0 := (add_eq_zero.mp hzero).2
        have hj : j = 0 := by
          rw [hp0] at hp1
          exact_mod_cast hp1.symm
        subst hj
        have hDw : P.D_v.getD w infinity = 0 := by
          rw [hitw] at hit0
          exact hit0
        have hww : Walk g u w 0 := by
          apply hPpost.walk
          rw [hDw]
          rfl
        refine ⟨w, ?_, hwL, hw, Walk.append hwu hww⟩
        rw [hzero, hitw]
      · exact ⟨v, rfl, hvlab, hv, Walk.nil hv⟩
  · -- `v` is a portal: the record of `v` itself is consulted
    obtain ⟨hp, hd⟩ := hb.vertex_portal hv hport hvx
    obtain ⟨P2, hP2, _, hP2post, hP2mem, hP2sorted⟩ := hb.portal_of_index hg hsel hport
    have hPP : P = P2 := by
      rw [hp] at hP
      rw [hP] at hP2
      exact Option.some.inj hP2
    subst hPP
    have hD : P.D_v.getD v infinity = 0 :=
      le_antisymm (hP2post.least v 0 (Walk.nil hv)) (zero_le _)
    have hin : ((0 : W), v) ∈ mapGet P.N_l L :=
      (hPmem L _).mpr ⟨v, hv, hvlab, by rw [hD]⟩
    rw [hd, hp]
    simp only [localScan, zero_add]
    cases hlist : mapGet P.N_l L with
    | nil => rw [hlist] at hin; exact absurd hin (List.not_mem_nil _)
    | cons it t =>
      simp only
      obtain ⟨w, hw, hwL, hitw⟩ :=
        (hPmem L it).mp (by rw [hlist]; exact List.mem_cons_self _ _)
      have hit0 : it.1 = 0 := le_antisymm (head_fst_le (hPsorted L) hlist hin) (zero_le _)
      have hDw : P.D_v.getD w infinity = 0 := by
        rw [hitw] at hit0
        exact hit0
      have hww : Walk g v w 0 := by
        apply hP2post.walk
        rw [hDw]
        rfl
      refine ⟨w, ?_, hwL, hw, hww⟩
      have hlt : ltWI (it.1, (it.2 : Int)) (infinity, -1) := by
        refine Or.inl ?_
        show it.1 < ⊤
        rw [hit0]
        exact ENat.top_pos
      unfold stdMin
      rw [if_pos hlt, hit0, hitw]

theorem distanceToLabel_self_witness :
    pathGraph.WF ∧ (∃ u j, Walk pathGraph 0 u j ∧ u ∈ resizeInt [3, 0, 4, 1, 2] 1) ∧
    ∃ o, initializeWithLabels pathGraph [3, 0, 4, 1, 2] pathLabels 1 = some o ∧
      ∃ w : Nat, distanceToLabel o 0 0 = some (0, (w : Int)) ∧ pathLabels[w]? = some 0 ∧
        Walk pathGraph 0 w 0 ∧
        ((∀ x e, e ∈ pathGraph.edges.getD x [] → 0 < e.w) → w = 0) :=
  ⟨pathGraph_wf, ⟨3, 3, pathGraph_walk_0_3, by decide⟩,
    distanceToLabel_self pathGraph pathGraph_wf [3, 0, 4, 1, 2] (by decide) pathLabels
      (by decide) pathLabels_range 1 1 (by decide) (by decide) 0 0 (by decide)
      ⟨3, 3, pathGraph_walk_0_3, by decide⟩⟩

/-! ## `setLabel` -/

theorem setLabelStep_none (v : Nat) (l lp : Int) (ps : List Portal) :
    ps.foldl (setLabelStep v l lp) none = none := by
  induction ps with
  | nil => rfl
  | cons P ps ih => simpa [setLabelStep] using ih

theorem setLabel_fold (v : Nat) (l lp : Int) (ps : List Portal) :
    ∀ (acc res : List Portal), ps.foldl (setLabelStep v l lp) (some acc) = some res →
      res.length = acc.length + ps.length ∧
      (∀ (i : Nat), i < acc.length → res[i]? = acc[i]?) ∧
      ∀ (i : Nat) (Q : Portal), acc.length ≤ i → res[i]? = some Q →
        ∃ P d, ps[i - acc.length]? = some P ∧ P.D_v[v]? = some d ∧
          Q = ⟨P.D_v, mapModify (setInsert ltWN (d, v)) l
            (mapModify (setErase ltWN (d, v)) lp P.N_l)⟩ := by
  induction ps with
  | nil =>
    intro acc res h
    simp only [List.foldl_nil, Option.some.injEq] at h
    subst h
    refine ⟨by simp, fun i _ => rfl, ?_⟩
    intro i Q hi hQ
    rw [List.getElem?_eq_none hi] at hQ
    exact absurd hQ (by simp)
  | cons P ps ih =>
    intro acc res h
    simp only [List.foldl_cons] at h
    cases hd : P.D_v[v]? with
    | none =>
      simp only [setLabelStep, hd] at h
      rw [setLabelStep_none] at h
      exact absurd h (by simp)
    | some d =>
      simp only [setLabelStep, hd] at h
      obtain ⟨h1, h2, h3⟩ := ih _ res h
      refine ⟨by rw [h1]; simp; omega, ?_, ?_⟩
      · intro i hi
        rw [h2 i (by simp; omega), List.getElem?_append_left hi]
      · intro i Q hi hQ
        by_cases hi2 : i = acc.length
        · subst hi2
          rw [h2 acc.length (by simp), List.getElem?_append_right (le_refl _)] at hQ
          simp only [Nat.sub_self, List.getElem?_cons_zero, Option.some.injEq] at hQ
          exact ⟨P, d, by simp, hd, hQ.symm⟩
        · obtain ⟨P2, d2, hP2, hd2, hQ2⟩ := h3 i Q (by simp; omega) hQ
          refine ⟨P2, d2, ?_, hd2, hQ2⟩
          simp only [List.length_append, List.length_singleton] at hP2
          have hidx : i - acc.length = (i - (acc.length + 1)) + 1 := by omega
          rw [hidx, List.getElem?_cons_succ]
          exact hP2

theorem setLabel_spec {o o2 : Oracle} {v : Nat} {l : Int} (h : setLabel o v l = some o2) :
    v < o.vertices.length ∧ o2.vertices = o.vertices ∧ o2.labels = o.labels ∧
      o2.portals.length = o.portals.length ∧
      ∀ (i : Nat) (Q : Portal), o2.portals[i]? = some Q →
        ∃ P d, o.portals[i]? = some P ∧ P.D_v[v]? = some d ∧ Q.D_v = P.D_v ∧
          Q.N_l = mapModify (setInsert ltWN (d, v)) l
            (mapModify (setErase ltWN (d, v)) (labelOf o.vertices v) P.N_l) := by
  unfold setLabel at h
  cases hvx : o.vertices[v]? with
  | none => simp [hvx] at h
  | some vx =>
    simp only [hvx] at h
    cases hf : o.portals.foldl (setLabelStep v l vx.label) (some []) with
    | none => simp [hf] at h
    | some ps =>
      simp only [hf, Option.some.injEq] at h
      subst h
      obtain ⟨h1, _, h3⟩ := setLabel_fold v l vx.label o.portals [] ps hf
      have hlab : labelOf o.vertices v = vx.label := by simp [labelOf, hvx]
      refine ⟨(List.getElem?_eq_some.mp hvx).1, rfl, rfl, by simpa using h1, ?_⟩
      intro i Q hQ
      obtain ⟨P, d, hP, hd, hQ2⟩ := h3 i Q (Nat.zero_le _) hQ
      refine ⟨P, d, by simpa using hP, hd, by rw [hQ2], ?_⟩
      rw [hQ2, hlab]

theorem setLabels_append (o : Oracle) (calls : List (Nat × Int)) (c : Nat × Int) :
    setLabels o (calls ++ [c]) = (setLabels o calls).bind (fun a => setLabel a c.1 c.2) := by
  simp only [setLabels, List.foldl_append, List.foldl_cons, List.foldl_nil]
  generalize List.foldl _ (some o) calls = X
  cases X <;> rfl

theorem currentLabels_append (ll : List Int) (calls : List (Nat × Int)) (c : Nat × Int) :
    currentLabels ll (calls ++ [c]) = (currentLabels ll calls).set c.1 c.2 := by
  simp only [currentLabels, List.foldl_append, List.foldl_cons, List.foldl_nil]

theorem currentLabels_length (ll : List Int) (calls : List (Nat × Int)) :
    (currentLabels ll calls).length = ll.length := by
  induction calls using List.reverseRecOn with
  | nil => rfl
  | append_singleton calls c ih => rw [currentLabels_append, List.length_set, ih]

theorem currentLabels_not_mem (ll : List Int) (calls : List (Nat × Int)) (v : Nat)
    (hv : v ∉ calls.map Prod.fst) : (currentLabels ll calls)[v]? = ll[v]? := by
  induction calls using List.reverseRecOn with
  | nil => rfl
  | append_singleton calls c ih =>
    rw [List.map_append, List.mem_append, not_or] at hv
    have hcv : c.1 ≠ v := by
      intro e
      apply hv.2
      simp [e]
    rw [currentLabels_append, List.getElem?_set_ne hcv]
    exact ih hv.1

/-- After `setLabel` calls that relabel no vertex twice, the buckets of every portal follow
the current labels. -/
theorem setLabels_updated {g : Graph} {pn : List Nat} {pidx : List Int} {ll : List Int}
    {o : Oracle} (hb : Built g pn pidx ll o) (hll : g.n ≤ ll.length)
    (calls : List (Nat × Int)) :
    ∀ (o2 : Oracle), (calls.map Prod.fst).Nodup → setLabels o calls = some o2 →
      Updated g (currentLabels ll calls) o o2 := by
  haveI := ltWN_sto
  induction calls using List.reverseRecOn with
  | nil =>
    intro o2 _ h
    simp only [setLabels, List.foldl_nil, Option.some.injEq] at h
    subst h
    refine ⟨rfl, rfl, rfl, ?_⟩
    intro i P hP
    obtain ⟨p, _, _, hmem, _⟩ := hb.port i P hP
    refine ⟨P, hP, rfl, fun l x => ?_⟩
    rw [hmem]
    constructor
    · rintro ⟨u, hu, hl, hx⟩
      exact ⟨u, hu, (hb.label_iff hu l).mp hl, hx⟩
    · rintro ⟨u, hu, hl, hx⟩
      exact ⟨u, hu, (hb.label_iff hu l).mpr hl, hx⟩
  | append_singleton calls c ih =>
    intro o2 hnd h
    rw [List.map_append, List.nodup_append] at hnd
    obtain ⟨hnd1, _, hdis⟩ := hnd
    have hcn : c.1 ∉ calls.map Prod.fst := by
      intro hc
      exact hdis hc (by simp)
    rw [setLabels_append] at h
    cases h1 : setLabels o calls with
    | none => rw [h1] at h; exact absurd h (by simp)
    | some o1 =>
      rw [h1] at h
      simp only [Option.some_bind] at h
      have hu1 := ih o1 hnd1 h1
      obtain ⟨hvlt, e1, e2, e3, e4⟩ := setLabel_spec h
      rw [hu1.vertices_eq] at hvlt e1 e4
      have hvn : c.1 < g.n := by rw [← hb.vlen]; exact hvlt
      -- the label recorded for the vertex is its current label
      have hcur : (currentLabels ll calls)[c.1]? = some (labelOf o.vertices c.1) := by
        rw [currentLabels_not_mem ll calls c.1 hcn]
        exact (hb.label_iff hvn _).mp rfl
      have hclen : c.1 < (currentLabels ll calls).length := by
        rw [currentLabels_length]
        omega
      refine ⟨e1, by rw [e2, hu1.labels_eq], by rw [e3, hu1.plen], ?_⟩
      intro i Q hQ
      obtain ⟨P1, d, hP1, hd, hQD, hQN⟩ := e4 i Q hQ
      obtain ⟨P, hP, hPD, hPmem⟩ := hu1.port i P1 hP1
      have hdv : P.D_v.getD c.1 infinity = d := by
        rw [← hPD, List.getD_eq_getElem?_getD, hd]
        rfl
      refine ⟨P, hP, by rw [hQD, hPD], fun l x => ?_⟩
      rw [hQN, mapGet_mapModify, currentLabels_append]
      have hget : ∀ (u : Nat) (l2 : Int), u ≠ c.1 →
          (((currentLabels ll calls).set c.1 c.2)[u]? = some l2 ↔
            (currentLabels ll calls)[u]? = some l2) := by
        intro u l2 hu
        rw [List.getElem?_set_ne (fun e => hu e.symm)]
      have hgetc : ((currentLabels ll calls).set c.1 c.2)[c.1]? = some c.2 :=
        List.getElem?_set_self hclen
      have herase : ∀ (l2 : Int) (y : W × Nat),
          y ∈ mapGet (mapModify (setErase ltWN (d, c.1)) (labelOf o.vertices c.1) P1.N_l) l2 ↔
            ∃ u, u < g.n ∧ u ≠ c.1 ∧ (currentLabels ll calls)[u]? = some l2 ∧
              y = (P.D_v.getD u infinity, u) := by
        intro l2 y
        rw [mapGet_mapModify]
        split_ifs with hl2
        · rw [mem_setErase, hPmem]
          constructor
          · rintro ⟨⟨u, hu, hul, rfl⟩, hne⟩
            refine ⟨u, hu, ?_, by rw [hl2]; exact hul, rfl⟩
            intro e
            apply hne
            rw [e, hdv]
          · rintro ⟨u, hu, hne, hul, rfl⟩
            refine ⟨⟨u, hu, by rw [← hl2]; exact hul, rfl⟩, ?_⟩
            intro e
            exact hne (congrArg Prod.snd e)
        · rw [hPmem]
          constructor
          · rintro ⟨u, hu, hul, rfl⟩
            refine ⟨u, hu, ?_, hul, rfl⟩
            intro e
            rw [e, hcur] at hul
            exact hl2 (Option.some.inj hul).symm
          · rintro ⟨u, hu, _, hul, rfl⟩
            exact ⟨u, hu, hul, rfl⟩
      split_ifs with hl
      · rw [mem_setInsert, herase]
        constructor
        · rintro (rfl | ⟨u, hu, hne, hul, rfl⟩)
          · exact ⟨c.1, hvn, by rw [hgetc, hl], by rw [hdv]⟩
          · exact ⟨u, hu, (hget u _ hne).mpr (by rw [hl]; exact hul), rfl⟩
        · rintro ⟨u, hu, hul, rfl⟩
          by_cases hne : u = c.1
          · left
            rw [hne, hdv]
          · right
            exact ⟨u, hu, hne, by rw [← hl]; exact (hget u _ hne).mp hul, rfl⟩
      · rw [herase]
        constructor
        · rintro ⟨u, hu, hne, hul, rfl⟩
          exact ⟨u, hu, (hget u _ hne).mpr hul, rfl⟩
        · rintro ⟨u, hu, hul, rfl⟩
          have hne : u ≠ c.1 := by
            intro e
            rw [e, hgetc] at hul
            exact hl (Option.some.inj hul).symm
          exact ⟨u, hu, hne, (hget u _ hne).mp hul, rfl⟩

/-! ## Soundness of the queries -/

theorem IsDistTo.le_walk {g : Graph} {v : Nat} {T : Nat → Prop} {d : W} (h : IsDistTo g v T d)
    {u k : Nat} (hT : T u) (hw : Walk g v u k) : d ≤ (k : W) :=
  h.2 (Or.inr ⟨u, k, hT, hw, rfl⟩)

theorem IsDistBetween.le_pair {g : Graph} {S T : Nat → Prop} {d : W} (h : IsDistBetween g S T d)
    {a b k : Nat} (hS : S a) (hT : T b) (hw : Walk g a b k) : d ≤ (k : W) :=
  h.2 (Or.inr ⟨a, b, k, hS, hT, hw, rfl⟩)

theorem Built.labels_length {g : Graph} {pn : List Nat} {pidx : List Int} {ll : List Int}
    {o : Oracle} (hb : Built g pn pidx ll o) : g.n ≤ ll.length := by
  by_contra hc
  have hlt : ll.length < g.n := Nat.lt_of_not_le hc
  obtain ⟨vx, _, hvb, _⟩ := hb.vertex hlt
  have := (List.getElem?_eq_some.mp hvb.1).1
  omega

/-- Soundness of both queries after `setLabel` calls that relabel no vertex twice: the returned
distance is at least the smaller of the true distances under the labels of the construction
and under the current labels. -/
theorem soundness_core (g : Graph) (hg : g.WF) (hs : g.Symmetric) (perm : List Nat)
    (ll : List Int) (ro : Int) (o : Oracle)
    (ho : initializeWithLabels g perm ll ro = some o)
    (calls : List (Nat × Int)) (hnd : (calls.map Prod.fst).Nodup) (o2 : Oracle)
    (h2 : setLabels o calls = some o2) :
    (∀ (v : Nat) (L : Int), (∃ u j, Walk g v u j ∧ u ∈ o.portalNumbers) →
      ∃ r, distanceToLabel o2 v L = some r ∧
        ∀ d1 d2, IsDistTo g v (fun u => ll[u]? = some L) d1 →
          IsDistTo g v (fun u => (currentLabels ll calls)[u]? = some L) d2 →
          min d1 d2 ≤ r.1) ∧
    (∀ (L1 L2 : Int), 0 ≤ L1 → L1 < (g.n : Int) →
      ∃ r, distanceBetweenLabels o2 L1 L2 = some r ∧
        ∀ d1 d2,
          IsDistBetween g (fun a => ll[a]? = some L1) (fun b => ll[b]? = some L2) d1 →
          IsDistBetween g (fun a => (currentLabels ll calls)[a]? = some L1)
            (fun b => (currentLabels ll calls)[b]? = some L2) d2 →
          min d1 d2 ≤ r.1) := by
  obtain ⟨k, pn, pidx, _, hsel, hb⟩ := initializeWithLabels_built ho
  have hu := setLabels_updated hb hb.labels_length calls o2 hnd h2
  constructor
  · -- distanceToLabel
    intro v L hreach
    rw [hb.pn_eq] at hreach
    have hv : v < g.n := by
      obtain ⟨u, j, hw, _⟩ := hreach
      exact Walk.source_lt hw
    obtain ⟨vx, hvx, _, _⟩ := hb.vertex hv
    obtain ⟨u, j, P, hp1, hwu, hP, hPpost, _, _⟩ := hb.nearest hg hsel hv hvx hreach
    have hlt : vx.p.2 < o2.portals.length := by
      rw [hu.plen]
      exact (List.getElem?_eq_some.mp hP).1
    obtain ⟨P0, hP0, hD, hmem⟩ := hu.port _ _ (List.getElem?_eq_getElem hlt)
    rw [hP] at hP0
    simp only [Option.some.injEq] at hP0
    subst hP0
    obtain ⟨r, hpost, _, hdist⟩ := hb.vertex_post hg hv hvx
    obtain ⟨rest, hrest, hall⟩ := hpost.ext
    -- the two candidates are sound
    have hscan : ∀ d1 d2, IsDistTo g v (fun u => ll[u]? = some L) d1 →
        IsDistTo g v (fun u => (currentLabels ll calls)[u]? = some L) d2 →
        min d1 d2 ≤ (localScan o.vertices L vx.dist).1 := by
      intro d1 d2 h1 _
      rcases localScan_spec o.vertices L vx.dist with e | ⟨c, hc, hcl, e⟩
      · rw [e]
        exact le_top
      · rw [e]
        have hc2 : c ∈ rest := by
          rw [hdist, hrest] at hc
          simpa using hc
        obtain ⟨_, kc, hkc, hwc⟩ := hall c hc2
        have hcn := Walk.target_lt hg hwc
        show min d1 d2 ≤ c.1
        rw [hkc]
        exact le_trans (min_le_left _ _) (h1.le_walk ((hb.label_iff hcn L).mp hcl) hwc)
    unfold distanceToLabel
    simp only [hu.vertices_eq, hvx, List.getElem?_eq_getElem hlt]
    cases hlist : mapGet (o2.portals[vx.p.2]).N_l L with
    | nil => exact ⟨_, rfl, hscan⟩
    | cons it t =>
      refine ⟨_, rfl, ?_⟩
      intro d1 d2 h1 h2
      rcases stdMin_eq_or ltWI (localScan o.vertices L vx.dist)
        (vx.p.1 + it.1, (it.2 : Int)) with e | e
      · rw [e]
        exact hscan d1 d2 h1 h2
      · rw [e]
        show min d1 d2 ≤ vx.p.1 + it.1
        obtain ⟨w, hw, hwL, hitw⟩ :=
          (hmem L it).mp (by rw [hlist]; exact List.mem_cons_self _ _)
        by_cases htop : it.1 = ⊤
        · rw [htop, add_top]
          exact le_top
        · have hww : Walk g u w it.1.toNat := by
            apply hPpost.walk
            rw [ENat.coe_toNat htop, hitw]
          have hle := h2.le_walk hwL (Walk.append hwu hww)
          rw [Nat.cast_add, ENat.coe_toNat htop, ← hp1] at hle
          exact le_trans (min_le_right _ _) hle
  · -- distanceBetweenLabels
    intro L1 L2 hL0 hLn
    obtain ⟨lab, hidx, hlab⟩ := indexInt_some o.labels L1 hL0 (by rw [hb.llen]; exact hLn)
    obtain ⟨hmem, _, hne⟩ := hb.lab _ lab hlab
    obtain ⟨_, _, f3⟩ := portalStep_fold L1 L2 o2.portals (infinity, (-1, -1))
    have hportal : ∀ d1 d2,
        IsDistBetween g (fun a => ll[a]? = some L1) (fun b => ll[b]? = some L2) d1 →
        IsDistBetween g (fun a => (currentLabels ll calls)[a]? = some L1)
          (fun b => (currentLabels ll calls)[b]? = some L2) d2 →
        min d1 d2 ≤ (o2.portals.foldl (portalStep L1 L2) (infinity, (-1, -1))).1 := by
      intro d1 d2 _ h2
      rcases f3 with e | ⟨P2, hP2in, v, u, tv, tu, hv, hu2, e⟩
      · rw [e]
        exact le_top
      · rw [e]
        show min d1 d2 ≤ v.1 + u.1
        obtain ⟨i, hi⟩ := List.mem_iff_getElem?.mp hP2in
        obtain ⟨P, hP, hD, hPmem⟩ := hu.port i P2 hi
        obtain ⟨p, _, _, hpost, _, _⟩ := hb.portal_post hg hsel hP
        obtain ⟨a, _, haL, hva⟩ := (hPmem L1 v).mp (by rw [hv]; exact List.mem_cons_self _ _)
        obtain ⟨b, _, hbL, hub⟩ := (hPmem L2 u).mp (by rw [hu2]; exact List.mem_cons_self _ _)
        by_cases htop : v.1 + u.1 = ⊤
        · rw [htop]
          exact le_top
        · have hv1 : v.1 ≠ ⊤ := fun e => htop (by rw [e]; exact top_add _)
          have hu1 : u.1 ≠ ⊤ := fun e => htop (by rw [e]; exact add_top _)
          have hwa : Walk g p a v.1.toNat := by
            apply hpost.walk
            rw [ENat.coe_toNat hv1, hva]
          have hwb : Walk g p b u.1.toNat := by
            apply hpost.walk
            rw [ENat.coe_toNat hu1, hub]
          have hle := h2.le_pair haL hbL (Walk.append (Walk.reverse hg hs hwa) hwb)
          rw [Nat.cast_add, ENat.coe_toNat hv1, ENat.coe_toNat hu1] at hle
          exact le_trans (min_le_right _ _) hle
    unfold distanceBetweenLabels
    simp only [hu.labels_eq, hidx]
    cases hfind : mapFind lab.P_l L2 with
    | none => exact ⟨_, rfl, hportal⟩
    | some s =>
      cases s with
      | nil => exact absurd hfind (hne L2)
      | cons x t =>
        refine ⟨_, rfl, ?_⟩
        intro d1 d2 h1 h2
        rcases stdMin_eq_or ltWII (o2.portals.foldl (portalStep L1 L2) (infinity, (-1, -1)))
          (x.1, ((x.2.1 : Int), (x.2.2 : Int))) with e | e
        · rw [e]
          exact hportal d1 d2 h1 h2
        · rw [e]
          show min d1 d2 ≤ x.1
          have hx : x ∈ mapGet lab.P_l L2 := by
            rw [mapGet_of_mapFind hfind]; exact List.mem_cons_self _ _
          obtain ⟨vx, hvx, hvlab, hxd, hxl⟩ := (hmem L2 x).mp hx
          have hvn : x.2.2 < g.n := by
            rw [← hb.vlen]
            exact (List.getElem?_eq_some.mp hvx).1
          obtain ⟨r, hpost, _, hdist⟩ := hb.vertex_post hg hvn hvx
          obtain ⟨rest, hrest, hall⟩ := hpost.ext
          have hxd2 : (x.1, x.2.1) ∈ rest := by
            rw [hdist, hrest] at hxd
            simpa using hxd
          obtain ⟨_, kx, hkx, hwx⟩ := hall _ hxd2
          have hun := Walk.target_lt hg hwx
          have hvl : ll[x.2.2]? = some L1 := by
            rw [(hb.vert _ vx hvx).1, hvlab, Int.toNat_of_nonneg hL0]
          have hle := h1.le_pair hvl ((hb.label_iff hun L2).mp hxl) hwx
          simp only at hkx
          rw [hkx]
          exact le_trans (min_le_left _ _) hle

/-- Soundness of `distanceToLabel` against the current labels, after `setLabel` calls that
relabel no vertex twice: when every vertex of the local list of `v` that carried `L` at
construction still carries `L`, the returned distance is at least the true distance from `v`
to the vertices that currently carry `L`. -/
theorem toLabel_sound_current (g : Graph) (hg : g.WF) (perm : List Nat)
    (ll : List Int) (ro : Int) (o : Oracle)
    (ho : initializeWithLabels g perm ll ro = some o)
    (calls : List (Nat × Int)) (hnd : (calls.map Prod.fst).Nodup) (o2 : Oracle)
    (h2 : setLabels o calls = some o2) (v : Nat) (L : Int) (vx : Vertex)
    (hreach : ∃ u j, Walk g v u j ∧ u ∈ o.portalNumbers)
    (hvx : o.vertices[v]? = some vx)
    (hkeep : ∀ c ∈ vx.dist, ll[c.2]? = some L → (currentLabels ll calls)[c.2]? = some L) :
    ∃ r, distanceToLabel o2 v L = some r ∧
      ∀ d, IsDistTo g v (fun u => (currentLabels ll calls)[u]? = some L) d → d ≤ r.1 := by
  obtain ⟨k, pn, pidx, _, hsel, hb⟩ := initializeWithLabels_built ho
  have hu := setLabels_updated hb hb.labels_length calls o2 hnd h2
  rw [hb.pn_eq] at hreach
  have hv : v < g.n := by
    obtain ⟨u, j, hw, _⟩ := hreach
    exact Walk.source_lt hw
  obtain ⟨u, j, P, hp1, hwu, hP, hPpost, _, _⟩ := hb.nearest hg hsel hv hvx hreach
  have hlt : vx.p.2 < o2.portals.length := by
    rw [hu.plen]
    exact (List.getElem?_eq_some.mp hP).1
  obtain ⟨P0, hP0, hD, hmem⟩ := hu.port _ _ (List.getElem?_eq_getElem hlt)
  rw [hP] at hP0
  simp only [Option.some.injEq] at hP0
  subst hP0
  obtain ⟨r, hpost, _, hdist⟩ := hb.vertex_post hg hv hvx
  obtain ⟨rest, hrest, hall⟩ := hpost.ext
  -- the two candidates are sound
  have hscan : ∀ d, IsDistTo g v (fun u => (currentLabels ll calls)[u]? = some L) d →
      d ≤ (localScan o.vertices L vx.dist).1 := by
    intro d h1
    rcases localScan_spec o.vertices L vx.dist with e | ⟨c, hc, hcl, e⟩
    · rw [e]
      exact le_top
    · rw [e]
      have hc2 : c ∈ rest := by
        rw [hdist, hrest] at hc
        simpa using hc
      obtain ⟨_, kc, hkc, hwc⟩ := hall c hc2
      have hcn := Walk.target_lt hg hwc
      show d ≤ c.1
      rw [hkc]
      exact h1.le_walk (hkeep c hc ((hb.label_iff hcn L).mp hcl)) hwc
  unfold distanceToLabel
  simp only [hu.vertices_eq, hvx, List.getElem?_eq_getElem hlt]
  cases hlist : mapGet (o2.portals[vx.p.2]).N_l L with
  | nil => exact ⟨_, rfl, hscan⟩
  | cons it t =>
    refine ⟨_, rfl, ?_⟩
    intro d h1
    rcases stdMin_eq_or ltWI (localScan o.vertices L vx.dist)
      (vx.p.1 + it.1, (it.2 : Int)) with e | e
    · rw [e]
      exact hscan d h1
    · rw [e]
      show d ≤ vx.p.1 + it.1
      obtain ⟨w, hw, hwL, hitw⟩ :=
        (hmem L it).mp (by rw [hlist]; exact List.mem_cons_self _ _)
      by_cases htop : it.1 = ⊤
      · rw [htop, add_top]
        exact le_top
      · have hww : Walk g u w it.1.toNat := by
          apply hPpost.walk
          rw [ENat.coe_toNat htop, hitw]
        have hle := h1.le_walk hwL (Walk.append hwu hww)
        rw [Nat.cast_add, ENat.coe_toNat htop, ← hp1] at hle
        exact hle

/-- Claim C2, amended: in every state reached from a freshly constructed oracle (well-formed
symmetric graph, non-negative weights) by a sequence of `setLabel` calls that relabels no
vertex twice: for every vertex `v` from which some portal can be reached and every label `L`
such that every vertex of the local list of `v` that carried `L` at construction still carries
`L`, `distanceToLabel(v, L)` returns a distance that is at least the true distance from `v` to
the vertices whose current label is `L`; and for all labels `L1` in `0..n-1` and `L2`,
`distanceBetweenLabels(L1, L2)` returns a distance that is at least the smaller of the true
distances between the vertices labelled `L1` and `L2` at construction and between the vertices
currently labelled `L1` and `L2`. -/
theorem sound_after_updates (g : Graph) (hg : g.WF) (hs : g.Symmetric) (perm : List Nat)
    (ll : List Int) (ro : Int) (o : Oracle)
    (ho : initializeWithLabels g perm ll ro = some o)
    (calls : List (Nat × Int)) (hnd : (calls.map Prod.fst).Nodup) (o2 : Oracle)
    (h2 : setLabels o calls = some o2) :
    (∀ (v : Nat) (L : Int) (vx : Vertex), (∃ u j, Walk g v u j ∧ u ∈ o.portalNumbers) →
      o.vertices[v]? = some vx →
      (∀ c ∈ vx.dist, ll[c.2]? = some L → (currentLabels ll calls)[c.2]? = some L) →
      ∃ r, distanceToLabel o2 v L = some r ∧
        ∀ d, IsDistTo g v (fun u => (currentLabels ll calls)[u]? = some L) d → d ≤ r.1) ∧
    (∀ (L1 L2 : Int), 0 ≤ L1 → L1 < (g.n : Int) →
      ∃ r, distanceBetweenLabels o2 L1 L2 = some r ∧
        ∀ d1 d2,
          IsDistBetween g (fun a => ll[a]? = some L1) (fun b => ll[b]? = some L2) d1 →
          IsDistBetween g (fun a => (currentLabels ll calls)[a]? = some L1)
            (fun b => (currentLabels ll calls)[b]? = some L2) d2 →
          min d1 d2 ≤ r.1) :=
  ⟨fun v L vx hreach hvx hkeep =>
      toLabel_sound_current g hg perm ll ro o ho calls hnd o2 h2 v L vx hreach hvx hkeep,
    (soundness_core g hg hs perm ll ro o ho calls hnd o2 h2).2⟩

theorem sound_after_updates_witness :
    shortPath.WF ∧ shortPath.Symmetric ∧ ([(1, 5)] : List (Nat × Int)).map Prod.fst = [1] ∧
    ∃ o o2, initializeWithLabels shortPath [2, 0, 1] [0, 1, 2] 1 = some o ∧
      setLabels o [(1, 5)] = some o2 ∧
      (∃ vx, o.vertices[0]? = some vx ∧ vx.dist = [(0, 0), (1, 1)] ∧
        ∀ c ∈ vx.dist, ([0, 1, 2] : List Int)[c.2]? = some 5 →
          (currentLabels [0, 1, 2] [(1, 5)])[c.2]? = some 5) ∧
      (∀ (v : Nat) (L : Int) (vx : Vertex),
        (∃ u j, Walk shortPath v u j ∧ u ∈ o.portalNumbers) →
        o.vertices[v]? = some vx →
        (∀ c ∈ vx.dist, ([0, 1, 2] : List Int)[c.2]? = some L →
          (currentLabels [0, 1, 2] [(1, 5)])[c.2]? = some L) →
        ∃ r, distanceToLabel o2 v L = some r ∧
          ∀ d, IsDistTo shortPath v
              (fun u => (currentLabels [0, 1, 2] [(1, 5)])[u]? = some L) d →
            d ≤ r.1) ∧
      (∀ (L1 L2 : Int), 0 ≤ L1 → L1 < (shortPath.n : Int) →
        ∃ r, distanceBetweenLabels o2 L1 L2 = some r ∧
          ∀ d1 d2,
            IsDistBetween shortPath (fun a => ([0, 1, 2] : List Int)[a]? = some L1)
              (fun b => ([0, 1, 2] : List Int)[b]? = some L2) d1 →
            IsDistBetween shortPath (fun a => (currentLabels [0, 1, 2] [(1, 5)])[a]? = some L1)
              (fun b => (currentLabels [0, 1, 2] [(1, 5)])[b]? = some L2) d2 →
            min d1 d2 ≤ r.1) :=
  ⟨shortPath_wf, shortPath_symmetric, rfl, _, _, rfl, rfl, ⟨_, rfl, by decide, by decide⟩,
    sound_after_updates shortPath shortPath_wf shortPath_symmetric [2, 0, 1] [0, 1, 2] 1 _ rfl
      [(1, 5)] (by decide) _ rfl⟩
/-! ## The end-to-end scenario -/

/-- Claim C10: on the unit-weight path `0-1-2-3-4` with labels `0,0,1,1,2` and `ro = 1`, for
every outcome of the shuffle (so for each of the five possible portals), the construction
succeeds, `distanceToLabel(0, 2)` returns `(4, 4)`, and after `setLabel(4, 0)` the query
`distanceToLabel(0, 0)` returns `(0, 0)` and `distanceBetweenLabels(0, 2)` returns
`(infinity, (-1, -1))`. -/
theorem scenario_rest (perm : List Nat) (h : perm.Perm (List.range 5)) :
    ∃ o, initializeWithLabels pathGraph perm pathLabels 1 = some o ∧
      distanceToLabel o 0 2 = some (4, 4) ∧
      ∃ o2, setLabel o 4 0 = some o2 ∧ distanceToLabel o2 0 0 = some (0, 0) ∧
        distanceBetweenLabels o2 0 2 = some (infinity, (-1, -1)) := by
  obtain ⟨p, rest, rfl, hp⟩ := perm_range_five perm h
  rw [initializeWithLabels_one]
  interval_cases p
  · exact ⟨_, rfl, by decide, _, rfl, by decide, by decide⟩
  · exact ⟨_, rfl, by decide, _, rfl, by decide, by decide⟩
  · exact ⟨_, rfl, by decide, _, rfl, by decide, by decide⟩
  · exact ⟨_, rfl, by decide, _, rfl, by decide, by decide⟩
  · exact ⟨_, rfl, by decide, _, rfl, by decide, by decide⟩

theorem scenario_rest_witness :
    [3, 0, 4, 1, 2].Perm (List.range 5) ∧
    ∃ o, initializeWithLabels pathGraph [3, 0, 4, 1, 2] pathLabels 1 = some o ∧
      distanceToLabel o 0 2 = some (4, 4) ∧
      ∃ o2, setLabel o 4 0 = some o2 ∧ distanceToLabel o2 0 0 = some (0, 0) ∧
        distanceBetweenLabels o2 0 2 = some (infinity, (-1, -1)) :=
  ⟨by decide, scenario_rest [3, 0, 4, 1, 2] (by decide)⟩

/-- Claim C9, counterexample: when the single portal is vertex 0, `distanceBetweenLabels(0, 1)`
returns distance 2 with the witness pair `(0, 2)`, not distance 1 with `(1, 2)`. -/
theorem scenario_pair_portal_zero :
    ∃ o, initializeWithLabels pathGraph [0, 1, 2, 3, 4] pathLabels 1 = some o ∧
      distanceBetweenLabels o 0 1 = some (2, (0, 2)) ∧
      distanceBetweenLabels o 0 1 ≠ some (1, (1, 2)) :=
  ⟨_, rfl, by decide, by decide⟩

/-- Claim C9, amended: on the unit-weight path `0-1-2-3-4` with labels `0,0,1,1,2` and `ro = 1`
the construction succeeds for every outcome of the shuffle, and `distanceBetweenLabels(0, 1)`
returns `(1, (1, 2))` when the portal is vertex 1 or 2, `(2, (0, 2))` when the portal is vertex
0, and distance 1 when the portal is vertex 3 or 4. -/
theorem scenario_pair (perm : List Nat) (h : perm.Perm (List.range 5)) :
    ∃ o, initializeWithLabels pathGraph perm pathLabels 1 = some o ∧
      (perm.head? = some 1 ∨ perm.head? = some 2 →
        distanceBetweenLabels o 0 1 = some (1, (1, 2))) ∧
      (perm.head? = some 0 → distanceBetweenLabels o 0 1 = some (2, (0, 2))) ∧
      (perm.head? = some 3 ∨ perm.head? = some 4 →
        ∃ w, distanceBetweenLabels o 0 1 = some (1, w)) := by
  obtain ⟨p, rest, rfl, hp⟩ := perm_range_five perm h
  rw [initializeWithLabels_one]
  simp only [List.head?_cons, Option.some.injEq]
  interval_cases p
  · exact ⟨_, rfl, fun h => absurd h (by decide), fun _ => by decide,
      fun h => absurd h (by decide)⟩
  · exact ⟨_, rfl, fun _ => by decide, fun h => absurd h (by decide),
      fun h => absurd h (by decide)⟩
  · exact ⟨_, rfl, fun _ => by decide, fun h => absurd h (by decide),
      fun h => absurd h (by decide)⟩
  · exact ⟨_, rfl, fun h => absurd h (by decide), fun h => absurd h (by decide),
      fun _ => ⟨(2, 1), by decide⟩⟩
  · exact ⟨_, rfl, fun h => absurd h (by decide), fun h => absurd h (by decide),
      fun _ => ⟨(2, 1), by decide⟩⟩

theorem scenario_pair_witness :
    [2, 0, 4, 1, 3].Perm (List.range 5) ∧
    ∃ o, initializeWithLabels pathGraph [2, 0, 4, 1, 3] pathLabels 1 = some o ∧
      (([2, 0, 4, 1, 3] : List Nat).head? = some 1 ∨ ([2, 0, 4, 1, 3] : List Nat).head? = some 2 →
        distanceBetweenLabels o 0 1 = some (1, (1, 2))) ∧
      (([2, 0, 4, 1, 3] : List Nat).head? = some 0 →
        distanceBetweenLabels o 0 1 = some (2, (0, 2))) ∧
      (([2, 0, 4, 1, 3] : List Nat).head? = some 3 ∨ ([2, 0, 4, 1, 3] : List Nat).head? = some 4 →
        ∃ w, distanceBetweenLabels o 0 1 = some (1, w)) :=
  ⟨by decide, scenario_pair [2, 0, 4, 1, 3] (by decide)⟩

/-- Claim C6, failing input: in the scenario with vertex 3 as the portal,
`distanceBetweenLabels(0, 1)` returns the witness pair `(2, 1)`, whose first witness carries
label 1 and whose second witness carries label 0. -/
theorem pair_witness_swapped :
    ∃ o, initializeWithLabels pathGraph [3, 0, 1, 2, 4] pathLabels 1 = some o ∧
      distanceBetweenLabels o 0 1 = some (1, (2, 1)) ∧
      labelOf o.vertices 2 = 1 ∧ labelOf o.vertices 1 = 0 :=
  ⟨_, rfl, by decide, by decide, by decide⟩

theorem no_walk_twoIsolated (k : Nat) : ¬ Walk twoIsolated 1 0 k := by
  intro h
  generalize hz : (0 : Nat) = z at h
  cases h with
  | nil _ => exact absurd hz (by decide)
  | snoc hw he =>
    rename_i x k1 e
    have hnil : twoIsolated.edges.getD x [] = [] := by
      match x with
      | 0 => rfl
      | 1 => rfl
      | _ + 2 => rfl
    rw [hnil] at he
    exact absurd he (List.not_mem_nil _)

/-- Claim C1, failing input: on the graph with two vertices and no edge, labels `0, 1` and
vertex 0 as the only portal, `distanceToLabel(1, 0)` returns `(0, 0)` although no walk leads
from vertex 1 to vertex 0. -/
theorem distanceToLabel_unreachable_portal :
    ∃ o, initializeWithLabels twoIsolated [0, 1] [0, 1] 1 = some o ∧
      distanceToLabel o 1 0 = some (0, 0) ∧ ∀ k, ¬ Walk twoIsolated 1 0 k :=
  ⟨_, rfl, by decide, no_walk_twoIsolated⟩

/-- Claim C4, failing input: in the scenario, after `setLabel(4, 0)` the label recorded for
vertex 4 is still 2. -/
theorem setLabel_label_unchanged :
    ∃ o o2, initializeWithLabels pathGraph [0, 1, 2, 3, 4] pathLabels 1 = some o ∧
      setLabel o 4 0 = some o2 ∧ labelOf o2.vertices 4 = 2 :=
  ⟨_, _, rfl, rfl, by decide⟩

/-- Claim C5, failing input: on the graph with one vertex, after `setLabel(0, 1)` and
`setLabel(0, 2)` the pair `(D[0], 0) = (0, 0)` is in the bucket of label 1 and in the bucket of
label 2 of the portal. -/
theorem setLabel_twice_two_buckets :
    ∃ o o2 P, initializeWithLabels oneVertex [0] [0] 1 = some o ∧
      setLabels o [(0, 1), (0, 2)] = some o2 ∧ o2.portals[0]? = some P ∧
      P.D_v[0]? = some 0 ∧ ((0 : W), 0) ∈ mapGet P.N_l 1 ∧ ((0 : W), 0) ∈ mapGet P.N_l 2 :=
  ⟨_, _, _, rfl, rfl, rfl, by decide, by decide, by decide⟩

/-- Claim C7, counterexample: on two vertices joined by an edge of weight 0, both labelled 0,
with vertex 0 as the portal, `distanceToLabel(1, label(1))` returns `(0, 0)`, not `(0, 1)`. -/
theorem distanceToLabel_self_zero_edge :
    ∃ o, initializeWithLabels zeroEdge [0, 1] [0, 0] 1 = some o ∧
      distanceToLabel o 1 (labelOf o.vertices 1) = some (0, 0) ∧
      distanceToLabel o 1 (labelOf o.vertices 1) ≠ some (0, 1) :=
  ⟨_, rfl, by decide, by decide⟩

/-- Claim C2, counterexample: on the unit-weight path `0-1-2` with labels `0,1,2` and vertex 2
as the portal, after `setLabel(1, 5)` no vertex holds label 1, so the true distance between the
labels 0 and 1 is `infinity`, and `distanceBetweenLabels(0, 1)` returns distance 1. -/
theorem stale_pair_index :
    ∃ o o2, initializeWithLabels shortPath [2, 0, 1] [0, 1, 2] 1 = some o ∧
      setLabels o [(1, 5)] = some o2 ∧
      distanceBetweenLabels o2 0 1 = some (1, (1, 0)) ∧
      IsDistBetween shortPath (fun a => (currentLabels [0, 1, 2] [(1, 5)])[a]? = some 0)
        (fun b => (currentLabels [0, 1, 2] [(1, 5)])[b]? = some 1) infinity ∧
      ¬ (infinity ≤ (1 : W)) := by
  refine ⟨_, _, rfl, rfl, by decide, ⟨Or.inl rfl, ?_⟩, by decide⟩
  intro x hx
  rcases hx with rfl | ⟨a, b, k, _, hb, _, _⟩
  · exact le_refl _
  · exfalso
    have hcur : currentLabels [0, 1, 2] [(1, 5)] = [0, 5, 2] := by decide
    rw [hcur] at hb
    match b, hb with
    | 0, hb => simp at hb
    | 1, hb => simp at hb
    | 2, hb => simp at hb
    | _ + 3, hb => simp at hb


/-- The scan of `distanceToLabel` reads the label recorded at construction, which `setLabel`
never writes: on the same input, after `setLabel(1, 5)`, `distanceToLabel(0, 1)` returns
`(1, 1)` although vertex 1 now holds the label 5 and no vertex holds the label 1. -/
theorem stale_scan_label :
    ∃ o o2, initializeWithLabels shortPath [2, 0, 1] [0, 1, 2] 1 = some o ∧
      setLabels o [(1, 5)] = some o2 ∧
      distanceToLabel o2 0 1 = some (1, 1) ∧
      currentLabels [0, 1, 2] [(1, 5)] = [0, 5, 2] :=
  ⟨_, _, rfl, rfl, by decide, by decide⟩

/-! ## Exactness of the vertices a search has closed -/

/-- Every walk from the source ends at a vertex whose tentative distance is at most the weight
of the walk, or passes the weight of an entry of the queue that is current. -/
theorem frontier {g : Graph} {src : Nat} {s : Search} (h : SearchInv g src s) {x k : Nat}
    (hw : Walk g src x k) :
    s.dist.getD x infinity ≤ (k : W) ∨
      ∃ y, (s.dist.getD y infinity, y) ∈ s.queue ∧ s.dist.getD y infinity ≤ (k : W) := by
  induction hw with
  | nil _ =>
    left
    rw [h.src0]
    simp
  | snoc hw he ih =>
    rename_i x1 k1 e
    have hmono : (k1 : W) ≤ ((k1 + e.w : Nat) : W) := by
      exact_mod_cast Nat.le_add_right k1 e.w
    rcases ih with h1 | ⟨y, hy, hle⟩
    · by_cases hc : Closed s x1
      · left
        calc s.dist.getD e.v infinity
            ≤ s.dist.getD x1 infinity + (e.w : W) := h.relaxed x1 hc e he
          _ ≤ (k1 : W) + (e.w : W) := add_le_add_right h1 _
          _ = ((k1 + e.w : Nat) : W) := by push_cast; rfl
      · right
        have hfin : s.dist.getD x1 infinity ≠ infinity :=
          ne_top_of_le_ne_top (ENat.coe_ne_top k1) h1
        have hin : (s.dist.getD x1 infinity, x1) ∈ s.queue := by
          by_contra hn
          exact hc ⟨hfin, hn⟩
        exact ⟨x1, hin, le_trans h1 hmono⟩
    · exact Or.inr ⟨y, hy, le_trans hle hmono⟩

/-- The tentative distance of a closed vertex is at most the weight of every walk to it. -/
theorem closed_exact {g : Graph} {src : Nat} {s : Search} (h : SearchInv g src s) {x k : Nat}
    (hx : Closed s x) (hw : Walk g src x k) : s.dist.getD x infinity ≤ (k : W) := by
  rcases frontier h hw with h1 | ⟨y, hy, hle⟩
  · exact h1
  · exact le_trans (h.mono x hx _ y hy) hle

theorem dist_of_relaxEdge {g : Graph} {src u : Nat} {m : W} {done : List Edge} {s : Search}
    (h : RelaxInv g src u m done s) (e : Edge) (x : Nat) (hx : Closed s x) :
    (relaxEdge m s e).dist.getD x infinity = s.dist.getD x infinity := by
  unfold relaxEdge
  simp only
  split_ifs with hlt
  · have hmle : m ≤ m + (e.w : W) := le_self_add
    have hne : e.v ≠ x := by
      intro heq
      rw [heq] at hlt
      exact absurd (lt_of_lt_of_le hlt (h.closedLe x hx)) (not_lt.mpr hmle)
    simp only [getD_set_ne hne]
  · rfl

theorem dist_of_relaxEdges {g : Graph} (hg : g.WF) {src u : Nat} {m : W} (es : List Edge) :
    ∀ {done : List Edge} {s : Search}, (∀ e ∈ es, e ∈ g.edges.getD u []) →
      RelaxInv g src u m done s → ∀ x, Closed s x →
        (relaxEdges es m s).dist.getD x infinity = s.dist.getD x infinity := by
  induction es with
  | nil => intro done s _ _ x _; rfl
  | cons e es ih =>
    intro done s hes h x hx
    have he : e ∈ g.edges.getD u [] := hes e (List.mem_cons_self _ _)
    obtain ⟨h1, h2, _⟩ := relaxEdge_inv e he (hg.2 u e he) h
    have hstep := ih (fun e2 he2 => hes e2 (List.mem_cons_of_mem _ he2)) h1 x (h2 x hx)
    simp only [relaxEdges, List.foldl_cons] at hstep ⊢
    rw [hstep]
    exact dist_of_relaxEdge h e x hx

/-- Relaxing the edges of the popped vertex leaves the distances of the closed vertices, and
of the popped vertex itself, unchanged. -/
theorem dist_of_step {g : Graph} (hg : g.WF) {src : Nat} {s : Search} {c : W × Nat}
    (h : SearchInv g src s) (htop : pqTop s.queue = some c)
    (hst : c.1 = s.dist.getD c.2 infinity) :
    (∀ x, Closed s x →
      (relaxEdges (g.edges.getD c.2 []) c.1
        { s with queue := s.queue.erase c }).dist.getD x infinity = s.dist.getD x infinity) ∧
    (relaxEdges (g.edges.getD c.2 []) c.1
      { s with queue := s.queue.erase c }).dist.getD c.2 infinity = c.1 := by
  obtain ⟨h1, h2, _, h4, _⟩ := searchInv_pop h htop hst
  have key := dist_of_relaxEdges hg (g.edges.getD c.2 []) (fun e he => he) h1
  refine ⟨fun x hx => key x (h2 x hx), ?_⟩
  rw [key c.2 h4]
  exact hst.symm

/-! ## The search of `initializeDistances`, in full -/

/-- The list built so far consists of the closed vertices with their distances. -/
theorem localExact_list {g : Graph} {src : Nat} {s : Search} (pidx : List Int)
    (h : SearchInv g src s) (hcl : ∀ x, Closed s x → pidx.getD x (-1) = -1)
    {acc : List (W × Nat)}
    (a1 : ∀ c ∈ acc, Closed s c.2 ∧ c.1 = s.dist.getD c.2 infinity) :
    ∀ c ∈ acc, pidx.getD c.2 (-1) = -1 ∧
      ∃ k : Nat, c.1 = (k : W) ∧ Walk g src c.2 k ∧ ∀ k2, Walk g src c.2 k2 → k ≤ k2 := by
  intro c hc
  obtain ⟨hclosed, hd⟩ := a1 c hc
  have hfin : c.1 ≠ ⊤ := by rw [hd]; exact hclosed.1
  have hk : c.1 = ((c.1.toNat : Nat) : W) := (ENat.coe_toNat hfin).symm
  refine ⟨hcl _ hclosed, c.1.toNat, hk, h.walk _ _ (by rw [← hd, ← hk]), ?_⟩
  intro k2 hw2
  have hle := closed_exact h hclosed hw2
  rw [← hd, hk] at hle
  exact_mod_cast hle

theorem localLoop_exact (g : Graph) (hg : g.WF) (pidx : List Int) (src : Nat) :
    ∀ fuel s acc, SearchInv g src s → potential g s < fuel →
      (∀ x, Closed s x → pidx.getD x (-1) = -1) →
      (∀ c ∈ acc, Closed s c.2 ∧ c.1 = s.dist.getD c.2 infinity) →
      (∀ x, Closed s x → (s.dist.getD x infinity, x) ∈ acc) →
      acc.Pairwise (fun a b => a.1 ≤ b.1) → (acc.map Prod.snd).Nodup →
      ∃ r, localLoop g pidx fuel s acc = some r ∧ LocalExact g pidx src r := by
  intro fuel
  induction fuel with
  | zero => intro s _ _ hp; exact absurd hp (Nat.not_lt_zero _)
  | succ fuel ih =>
    intro s acc h hp hcl a1 a2 a3 a4
    have hlist := localExact_list pidx h hcl a1
    unfold localLoop
    cases htop : pqTop s.queue with
    | none =>
      have hq := pqTop_none htop
      refine ⟨(none, acc), rfl, a3, a4, hlist, by simp, ?_⟩
      intro _ u k hw
      have hle := (portalPost_of_empty h hq).least u k hw
      have hc : Closed s u := ⟨ne_top_of_le_ne_top (ENat.coe_ne_top k) hle,
        by rw [hq]; exact List.not_mem_nil _⟩
      exact ⟨hcl u hc, _, a2 u hc, rfl⟩
    | some c =>
      simp only
      obtain ⟨hmem, hmin⟩ := pqTop_some htop
      by_cases hst : c.1 = s.dist.getD c.2 infinity
      · obtain ⟨k, hk⟩ : ∃ k : Nat, c.1 = (k : W) :=
          ⟨c.1.toNat, (ENat.coe_toNat (h.qlt c.1 c.2 hmem).2.1).symm⟩
        have hwalk : Walk g src c.2 k := h.walk c.2 k (by rw [← hst, hk])
        have hbound : ∀ c0 ∈ acc, c0.1 ≤ c.1 := by
          intro c0 hc0
          obtain ⟨hc1, hc2⟩ := a1 c0 hc0
          rw [hc2]
          exact h.mono _ hc1 c.1 c.2 hmem
        simp only [ne_eq, hst, not_true_eq_false, if_false]
        by_cases hp2 : pidx.getD c.2 (-1) = -1
        · have hstep := searchInv_step hg h htop hst
          have hpot := potential_step hg h htop hst
          obtain ⟨hd1, hd2⟩ := dist_of_step hg h htop hst
          obtain ⟨_, _, hnc, _, _⟩ := searchInv_pop h htop hst
          have hcl2 : ∀ x, Closed (relaxEdges (g.edges.getD c.2 []) c.1
              { s with queue := s.queue.erase c }) x → pidx.getD x (-1) = -1 := by
            intro x hx
            rcases closed_of_step hg h htop hst x hx with h3 | h3
            · exact hcl x h3
            · rw [h3]; exact hp2
          simp only [hp2, not_true_eq_false, if_false]
          rw [← hst]
          refine ih _ (acc ++ [c]) hstep.1 (by omega) hcl2 ?_ ?_ ?_ ?_
          · intro c0 hc0
            rcases List.mem_append.mp hc0 with hc0 | hc0
            · obtain ⟨hc1, hc2⟩ := a1 c0 hc0
              exact ⟨hstep.2.1 _ hc1, by rw [hc2, hd1 _ hc1]⟩
            · rw [List.mem_singleton.mp hc0]
              exact ⟨hstep.2.2.1, hd2.symm⟩
          · intro x hx
            rcases closed_of_step hg h htop hst x hx with h3 | h3
            · rw [hd1 x h3]
              exact List.mem_append_left _ (a2 x h3)
            · rw [h3, hd2]
              exact List.mem_append_right _ (List.mem_singleton.mpr rfl)
          · rw [List.pairwise_append]
            refine ⟨a3, List.pairwise_singleton _ _, ?_⟩
            intro c0 hc0 c1 hc1
            rw [List.mem_singleton.mp hc1]
            exact hbound c0 hc0
          · rw [List.map_append, List.nodup_append]
            refine ⟨a4, by simp, ?_⟩
            intro x hx1 hx2
            simp only [List.map_cons, List.map_nil, List.mem_singleton] at hx2
            obtain ⟨c0, hc0, hc0x⟩ := List.mem_map.mp hx1
            apply hnc
            rw [← hx2, ← hc0x]
            exact (a1 c0 hc0).1
        · simp only [hp2, not_false_eq_true, if_true]
          refine ⟨_, rfl, a3, a4, hlist, ?_, by simp⟩
          intro q hq
          simp only [Option.some.injEq] at hq
          subst hq
          refine ⟨c.2, k, hp2, rfl, hst ▸ hk, hwalk, ?_,
            fun c0 hc0 => hst ▸ hbound c0 hc0, ?_⟩
          · intro w k2 hpw hw2
            have hkey : c.1 ≤ (k2 : W) := by
              rcases frontier h hw2 with h1 | ⟨y, hy, hle⟩
              · have hfin : s.dist.getD w infinity ≠ infinity :=
                  ne_top_of_le_ne_top (ENat.coe_ne_top k2) h1
                have hin : (s.dist.getD w infinity, w) ∈ s.queue := by
                  by_contra hn
                  exact hpw (hcl w ⟨hfin, hn⟩)
                exact le_trans (hmin _ hin) h1
              · exact le_trans (hmin _ hy) hle
            rw [hk] at hkey
            exact_mod_cast hkey
          · intro x k2 hw2 hlt
            have hlt2 : (k2 : W) < c.1 := by rw [hk]; exact_mod_cast hlt
            rcases frontier h hw2 with h1 | ⟨y, hy, hle⟩
            · have hfin : s.dist.getD x infinity ≠ infinity :=
                ne_top_of_le_ne_top (ENat.coe_ne_top k2) h1
              have hc : Closed s x := by
                refine ⟨hfin, fun hin => ?_⟩
                exact absurd (lt_of_le_of_lt (le_trans (hmin _ hin) h1) hlt2) (lt_irrefl _)
              exact ⟨_, a2 x hc, rfl⟩
            · exact absurd (lt_of_le_of_lt (le_trans (hmin _ hy) hle) hlt2) (lt_irrefl _)
      · have hstale := searchInv_stale h hst
        have hpot := potential_stale h hmem hst
        simp only [ne_eq, hst, not_false_eq_true, if_true]
        refine ih _ acc hstale.1 (by omega)
          (fun x hx => hcl x (closed_of_erase_stale hst x hx)) ?_ ?_ a3 a4
        · intro c0 hc0
          exact ⟨hstale.2 _ (a1 c0 hc0).1, (a1 c0 hc0).2⟩
        · intro x hx
          exact a2 x (closed_of_erase_stale hst x hx)

/-- The search of `initializeDistances` from a vertex, started with an empty list, ends within
its fuel with the properties of `LocalExact`. -/
theorem localLoop_exact_fuel (g : Graph) (hg : g.WF) (pidx : List Int) (src : Nat)
    (hsrc : src < g.n) :
    ∃ r, localLoop g pidx (searchFuel g) (searchInit g src) [] = some r ∧
      LocalExact g pidx src r :=
  localLoop_exact g hg pidx src _ _ [] (searchInv_init g src hsrc) (potential_init g hg src)
    (fun x hx => absurd hx (not_closed_init g src hsrc x))
    (fun c hc => absurd hc (List.not_mem_nil _))
    (fun x hx => absurd hx (not_closed_init g src hsrc x))
    List.Pairwise.nil (by simp)

/-- The properties of the search behind any vertex record, in full. -/
theorem Built.vertex_exact {g : Graph} (hg : g.WF) {pn : List Nat} {pidx : List Int}
    {ll : List Int} {o : Oracle} (hb : Built g pn pidx ll o) {v : Nat} (hv : v < g.n)
    {vx : Vertex} (hvx : o.vertices[v]? = some vx) :
    ∃ r, LocalExact g pidx v r ∧ vx.p = r.1.getD (0, 0) ∧ vx.dist = r.2 := by
  obtain ⟨_, r, hr, h1, h2⟩ := hb.vert v vx hvx
  obtain ⟨r2, hr2, hpost⟩ := localLoop_exact_fuel g hg pidx v hv
  rw [hr] at hr2
  simp only [Option.some.injEq] at hr2
  subst hr2
  exact ⟨r, hpost, h1, h2⟩

/-! ## The constructed oracle on valid input -/

/-- On valid input the construction returns an oracle built as `Built` describes. -/
theorem valid_built (g : Graph) (hg : g.WF) (perm : List Nat)
    (hperm : perm.Perm (List.range g.n)) (ll : List Int) (hll : g.n ≤ ll.length)
    (hrange : ∀ (v : Nat) (l : Int), v < g.n → ll[v]? = some l → 0 ≤ l ∧ l < (g.n : Int))
    (ro : Int) (k : Nat) (hk : portalCount g.n ro = some k) (hkn : k ≤ g.n) :
    ∃ o pn pidx, initializeWithLabels g perm ll ro = some o ∧
      selectPortals g perm k = some (pn, pidx) ∧ Built g pn pidx ll o ∧
      pn = resizeInt perm k ∧ pn.length = k := by
  obtain ⟨o, ho⟩ := initializeWithLabels_some g hg perm hperm ll hll hrange ro k hk hkn
  obtain ⟨k2, pn, pidx, hk2, hsel, hb⟩ := initializeWithLabels_built ho
  rw [hk] at hk2
  simp only [Option.some.injEq] at hk2
  subst hk2
  exact ⟨o, pn, pidx, ho, hsel, hb, (selectPortals_spec hsel).1, (selectPortals_spec hsel).2.1⟩

theorem not_mem_portals {g : Graph} {perm : List Nat} {k : Nat} {pn : List Nat}
    {pidx : List Int} (hsel : selectPortals g perm k = some (pn, pidx)) {x : Nat}
    (hx : pidx.getD x (-1) = -1) : x ∉ pn := by
  intro hmem
  obtain ⟨i, hi⟩ := List.mem_iff_getElem?.mp hmem
  exact ((selectPortals_spec hsel).2.2.2.2 i x hi).2 hx

/-! ## Portal distance vectors -/

/-- Claim C14: on valid input the construction succeeds and every portal record holds the
exact distances from its portal vertex `p`: `D_v` has one entry per vertex, `D_v[v]` is the
least weight of a walk from `p` to `v`, and it is `infinity` exactly when there is no walk
from `p` to `v`. -/
theorem portal_distances_exact (g : Graph) (hg : g.WF) (perm : List Nat)
    (hperm : perm.Perm (List.range g.n)) (ll : List Int) (hll : g.n ≤ ll.length)
    (hrange : ∀ (v : Nat) (l : Int), v < g.n → ll[v]? = some l → 0 ≤ l ∧ l < (g.n : Int))
    (ro : Int) (k : Nat) (hk : portalCount g.n ro = some k) (hkn : k ≤ g.n) :
    ∃ o, initializeWithLabels g perm ll ro = some o ∧ o.portals.length = k ∧
      ∀ (i : Nat) (P : Portal), o.portals[i]? = some P →
        ∃ p, o.portalNumbers[i]? = some p ∧ P.D_v.length = g.n ∧
          ∀ v, v < g.n →
            IsDistTo g p (fun u => u = v) (P.D_v.getD v infinity) ∧
            (P.D_v.getD v infinity = infinity ↔ ¬ ∃ j, Walk g p v j) := by
  obtain ⟨o, pn, pidx, ho, hsel, hb, _, hlen⟩ :=
    valid_built g hg perm hperm ll hll hrange ro k hk hkn
  refine ⟨o, ho, by rw [hb.plen, hlen], ?_⟩
  intro i P hP
  obtain ⟨p, hp, _, hpost, _, _⟩ := hb.portal_post hg hsel hP
  refine ⟨p, by rw [hb.pn_eq]; exact hp, hpost.len, ?_⟩
  intro v _
  have hiff : P.D_v.getD v infinity = infinity ↔ ¬ ∃ j, Walk g p v j := by
    constructor
    · rintro htop ⟨j, hw⟩
      have := hpost.least v j hw
      rw [htop] at this
      exact absurd this (not_le.mpr (ENat.coe_lt_top j))
    · intro hno
      by_contra hfin
      exact hno ⟨_, hpost.walk v (P.D_v.getD v infinity).toNat (ENat.coe_toNat hfin).symm⟩
  refine ⟨⟨?_, ?_⟩, hiff⟩
  · by_cases htop : P.D_v.getD v infinity = infinity
    · exact Or.inl htop
    · exact Or.inr ⟨v, _, rfl, hpost.walk v (P.D_v.getD v infinity).toNat
        (ENat.coe_toNat htop).symm, (ENat.coe_toNat htop).symm⟩
  · rintro x (rfl | ⟨u, j, rfl, hw, rfl⟩)
    · exact le_top
    · exact hpost.least u j hw

theorem portal_distances_exact_witness :
    pathGraph.WF ∧ [3, 0, 4, 1, 2].Perm (List.range pathGraph.n) ∧
    ∃ o, initializeWithLabels pathGraph [3, 0, 4, 1, 2] pathLabels 2 = some o ∧
      o.portals.length = 2 ∧
      ∀ (i : Nat) (P : Portal), o.portals[i]? = some P →
        ∃ p, o.portalNumbers[i]? = some p ∧ P.D_v.length = pathGraph.n ∧
          ∀ v, v < pathGraph.n →
            IsDistTo pathGraph p (fun u => u = v) (P.D_v.getD v infinity) ∧
            (P.D_v.getD v infinity = infinity ↔ ¬ ∃ j, Walk pathGraph p v j) :=
  ⟨pathGraph_wf, by decide,
    portal_distances_exact pathGraph pathGraph_wf [3, 0, 4, 1, 2] (by decide) pathLabels
      (by decide) pathLabels_range 2 2 (by decide) (by decide)⟩

/-! ## The local lists -/

/-- Claim C17: on valid input the construction succeeds and the `dist` list of every vertex
is sorted in non-decreasing order of distance (an entry is never larger than a later entry)
and holds each vertex at most once. -/
theorem localList_sorted (g : Graph) (hg : g.WF) (perm : List Nat)
    (hperm : perm.Perm (List.range g.n)) (ll : List Int) (hll : g.n ≤ ll.length)
    (hrange : ∀ (v : Nat) (l : Int), v < g.n → ll[v]? = some l → 0 ≤ l ∧ l < (g.n : Int))
    (ro : Int) (k : Nat) (hk : portalCount g.n ro = some k) (hkn : k ≤ g.n) :
    ∃ o, initializeWithLabels g perm ll ro = some o ∧ o.vertices.length = g.n ∧
      ∀ (v : Nat) (vx : Vertex), o.vertices[v]? = some vx →
        vx.dist.Pairwise (fun a b => a.1 ≤ b.1) ∧ (vx.dist.map Prod.snd).Nodup := by
  obtain ⟨o, pn, pidx, ho, hsel, hb, _, _⟩ :=
    valid_built g hg perm hperm ll hll hrange ro k hk hkn
  refine ⟨o, ho, hb.vlen, ?_⟩
  intro v vx hvx
  have hv : v < g.n := by
    rw [← hb.vlen]
    exact (List.getElem?_eq_some.mp hvx).1
  obtain ⟨r, hex, _, hd⟩ := hb.vertex_exact hg hv hvx
  rw [hd]
  exact ⟨hex.sorted, hex.nodup⟩

theorem localList_sorted_witness :
    pathGraph.WF ∧ [3, 0, 4, 1, 2].Perm (List.range pathGraph.n) ∧
    ∃ o, initializeWithLabels pathGraph [3, 0, 4, 1, 2] pathLabels 1 = some o ∧
      o.vertices.length = pathGraph.n ∧
      ∀ (v : Nat) (vx : Vertex), o.vertices[v]? = some vx →
        vx.dist.Pairwise (fun a b => a.1 ≤ b.1) ∧ (vx.dist.map Prod.snd).Nodup :=
  ⟨pathGraph_wf, by decide,
    localList_sorted pathGraph pathGraph_wf [3, 0, 4, 1, 2] (by decide) pathLabels
      (by decide) pathLabels_range 1 1 (by decide) (by decide)⟩

/-- The true distance to a single vertex, from a least walk. -/
theorem isDistTo_single {g : Graph} {v x k : Nat} (hw : Walk g v x k)
    (hleast : ∀ k2, Walk g v x k2 → k ≤ k2) : IsDistTo g v (fun u => u = x) (k : W) := by
  refine ⟨Or.inr ⟨x, k, rfl, hw, rfl⟩, ?_⟩
  rintro y (rfl | ⟨u, j, rfl, hw2, rfl⟩)
  · exact le_top
  · exact_mod_cast hleast j hw2

/-- Claim C16, counterexample: in the scenario with vertex 2 as the portal, the list of vertex
1 is `[(0, 1), (1, 0)]` and its nearest portal is at distance 1: the entry `(1, 0)` is not
strictly nearer than the portal. -/
theorem localList_tie :
    ∃ o, initializeWithLabels pathGraph [2, 0, 1, 3, 4] pathLabels 1 = some o ∧
      (o.vertices[1]?).map (fun vx => (vx.p.1, vx.dist)) = some (1, [(0, 1), (1, 0)]) ∧
      ¬ ((1 : W) < 1) :=
  ⟨_, rfl, by decide, by decide⟩

/-- Claim C16, amended: on valid input, for every vertex `v` from which some portal can be
reached: every entry `(d, u)` of the list of `v` is a vertex `u` that is not a portal, with
`d` the true distance from `v` to `u` and `d` at most the distance recorded in the nearest
portal of `v`; and every vertex whose true distance from `v` is strictly less than that
distance is in the list. -/
theorem localList_horizon (g : Graph) (hg : g.WF) (perm : List Nat)
    (hperm : perm.Perm (List.range g.n)) (ll : List Int) (hll : g.n ≤ ll.length)
    (hrange : ∀ (v : Nat) (l : Int), v < g.n → ll[v]? = some l → 0 ≤ l ∧ l < (g.n : Int))
    (ro : Int) (k : Nat) (hk : portalCount g.n ro = some k) (hkn : k ≤ g.n)
    (v : Nat) (hreach : ∃ u j, Walk g v u j ∧ u ∈ resizeInt perm k) :
    ∃ o, initializeWithLabels g perm ll ro = some o ∧
      ∃ vx, o.vertices[v]? = some vx ∧
        (∀ c ∈ vx.dist, c.2 ∉ o.portalNumbers ∧ IsDistTo g v (fun u => u = c.2) c.1 ∧
          c.1 ≤ vx.p.1) ∧
        ∀ (x : Nat) (d : W), IsDistTo g v (fun u => u = x) d → d < vx.p.1 →
          ∃ c ∈ vx.dist, c.2 = x := by
  obtain ⟨o, pn, pidx, ho, hsel, hb, hpn, _⟩ :=
    valid_built g hg perm hperm ll hll hrange ro k hk hkn
  refine ⟨o, ho, ?_⟩
  rw [← hpn] at hreach
  have hv : v < g.n := by
    obtain ⟨u, j, hw, _⟩ := hreach
    exact Walk.source_lt hw
  obtain ⟨vx, hvx, _, _⟩ := hb.vertex hv
  obtain ⟨r, hex, hp, hd⟩ := hb.vertex_exact hg hv hvx
  refine ⟨vx, hvx, ?_⟩
  cases hr1 : r.1 with
  | none =>
    exfalso
    obtain ⟨u, j, hw, hu⟩ := hreach
    exact not_mem_portals hsel (hex.unassigned hr1 u j hw).1 hu
  | some q =>
    obtain ⟨u, j, _, _, hq1, _, _, hbound, hcomplete⟩ := hex.nearest q hr1
    have hpq : vx.p = q := by rw [hp, hr1]; rfl
    constructor
    · intro c hc
      rw [hd] at hc
      obtain ⟨hnp, kc, hkc, hwc, hleast⟩ := hex.exact c hc
      refine ⟨?_, ?_, ?_⟩
      · rw [hb.pn_eq]
        exact not_mem_portals hsel hnp
      · rw [hkc]
        exact isDistTo_single hwc hleast
      · rw [hpq]
        exact hbound c hc
    · intro x d hdist hlt
      rw [hpq, hq1] at hlt
      rcases hdist.1 with htop | ⟨u2, k2, rfl, hw2, rfl⟩
      · rw [htop] at hlt
        exact absurd hlt (not_lt.mpr le_top)
      · rw [hd]
        exact hcomplete u2 k2 hw2 (by exact_mod_cast hlt)

theorem localList_horizon_witness :
    pathGraph.WF ∧ (∃ u j, Walk pathGraph 0 u j ∧ u ∈ resizeInt [3, 0, 4, 1, 2] 1) ∧
    ∃ o, initializeWithLabels pathGraph [3, 0, 4, 1, 2] pathLabels 1 = some o ∧
      ∃ vx, o.vertices[0]? = some vx ∧
        (∀ c ∈ vx.dist, c.2 ∉ o.portalNumbers ∧
          IsDistTo pathGraph 0 (fun u => u = c.2) c.1 ∧ c.1 ≤ vx.p.1) ∧
        ∀ (x : Nat) (d : W), IsDistTo pathGraph 0 (fun u => u = x) d → d < vx.p.1 →
          ∃ c ∈ vx.dist, c.2 = x :=
  ⟨pathGraph_wf, ⟨3, 3, pathGraph_walk_0_3, by decide⟩,
    localList_horizon pathGraph pathGraph_wf [3, 0, 4, 1, 2] (by decide) pathLabels
      (by decide) pathLabels_range 1 1 (by decide) (by decide) 0
      ⟨3, 3, pathGraph_walk_0_3, by decide⟩⟩

/-! ## The nearest portal -/

/-- When some portal can be reached from `v`, the nearest portal recorded for `v` is a portal
at the least true distance from `v` among all portals, together with that distance. -/
theorem nearestPortal_exact (g : Graph) (hg : g.WF) (perm : List Nat)
    (hperm : perm.Perm (List.range g.n)) (ll : List Int) (hll : g.n ≤ ll.length)
    (hrange : ∀ (v : Nat) (l : Int), v < g.n → ll[v]? = some l → 0 ≤ l ∧ l < (g.n : Int))
    (ro : Int) (k : Nat) (hk : portalCount g.n ro = some k) (hkn : k ≤ g.n)
    (v : Nat) (hreach : ∃ u j, Walk g v u j ∧ u ∈ resizeInt perm k) :
    ∃ o, initializeWithLabels g perm ll ro = some o ∧
      ∃ vx u, o.vertices[v]? = some vx ∧ o.portalNumbers[vx.p.2]? = some u ∧
        IsDistTo g v (fun x => x ∈ o.portalNumbers) vx.p.1 ∧
        IsDistTo g v (fun x => x = u) vx.p.1 := by
  obtain ⟨o, pn, pidx, ho, hsel, hb, hpn, _⟩ :=
    valid_built g hg perm hperm ll hll hrange ro k hk hkn
  refine ⟨o, ho, ?_⟩
  rw [← hpn] at hreach
  have hv : v < g.n := by
    obtain ⟨u, j, hw, _⟩ := hreach
    exact Walk.source_lt hw
  obtain ⟨vx, hvx, _, _⟩ := hb.vertex hv
  obtain ⟨r, hex, hp, _⟩ := hb.vertex_exact hg hv hvx
  cases hr1 : r.1 with
  | none =>
    exfalso
    obtain ⟨u, j, hw, hu⟩ := hreach
    exact not_mem_portals hsel (hex.unassigned hr1 u j hw).1 hu
  | some q =>
    obtain ⟨u, j, hpu, hq2, hq1, hw, hmin, _, _⟩ := hex.nearest q hr1
    have hpq : vx.p = q := by rw [hp, hr1]; rfl
    have hu : pn[(pidx.getD u (-1)).toNat]? = some u :=
      ((selectPortals_spec hsel).2.2.2.1 u hpu).2
    refine ⟨vx, u, hvx, ?_, ?_, ?_⟩
    · rw [hb.pn_eq, hpq, hq2]
      exact hu
    · rw [hb.pn_eq, hpq, hq1]
      refine ⟨Or.inr ⟨u, j, List.getElem?_mem hu, hw, rfl⟩, ?_⟩
      rintro y (rfl | ⟨x, k2, hx, hwx, rfl⟩)
      · exact le_top
      · have hxp : pidx.getD x (-1) ≠ -1 := fun e => not_mem_portals hsel e hx
        exact_mod_cast hmin x k2 hxp hwx
    · rw [hpq, hq1]
      exact isDistTo_single hw (fun k2 hw2 => hmin u k2 hpu hw2)

/-- Claim C15, failing input: on the graph with two vertices and no edge, with vertex 0 as the
only portal, the nearest portal recorded for vertex 1 is `(0, 0)`, distance 0 to the portal of
index 0, although no walk leads from vertex 1 to vertex 0. -/
theorem nearestPortal_unset :
    ∃ o, initializeWithLabels twoIsolated [0, 1] [0, 1] 1 = some o ∧
      o.portalNumbers = [0] ∧ (o.vertices[1]?).map (fun vx => vx.p) = some (0, 0) ∧
      ∀ k, ¬ Walk twoIsolated 1 0 k :=
  ⟨_, rfl, by decide, by decide, no_walk_twoIsolated⟩

/-! ## Queries inside the local horizon -/

/-- The scan of a list that holds a vertex labelled `l` returns the first such entry; in a
sorted list no entry labelled `l` is nearer. -/
theorem localScan_first (vs : List Vertex) (l : Int) (lst : List (W × Nat)) (c : W × Nat)
    (hc : c ∈ lst) (hl : labelOf vs c.2 = l) :
    ∃ c1 ∈ lst, labelOf vs c1.2 = l ∧ localScan vs l lst = (c1.1, (c1.2 : Int)) ∧
      (lst.Pairwise (fun a b => a.1 ≤ b.1) →
        ∀ c2 ∈ lst, labelOf vs c2.2 = l → c1.1 ≤ c2.1) := by
  induction lst with
  | nil => exact absurd hc (List.not_mem_nil _)
  | cons a lst ih =>
    by_cases ha : labelOf vs a.2 = l
    · refine ⟨a, List.mem_cons_self _ _, ha, ?_, ?_⟩
      · unfold localScan
        rw [if_pos ha]
      · intro hsorted c2 hc2 _
        rcases List.mem_cons.mp hc2 with e | hmem
        · rw [e]
        · exact List.rel_of_pairwise_cons hsorted hmem
    · have hcl : c ∈ lst := by
        rcases List.mem_cons.mp hc with e | hmem
        · rw [e] at hl
          exact absurd hl ha
        · exact hmem
      obtain ⟨c1, hc1, hl1, hscan, hmin⟩ := ih hcl
      refine ⟨c1, List.mem_cons_of_mem _ hc1, hl1, ?_, ?_⟩
      · rw [← hscan]
        conv_lhs => unfold localScan
        rw [if_neg ha]
      · intro hsorted c2 hc2 hl2
        rcases List.mem_cons.mp hc2 with e | hmem
        · rw [e] at hl2
          exact absurd hl2 ha
        · exact hmin (List.Pairwise.of_cons hsorted) c2 hmem hl2

/-- Claim C18: on valid input, for every vertex `v` and label `L`: if some vertex `w` carrying
`L` is joined to `v` by a walk whose weight is strictly less than the distance recorded in the
nearest portal of `v`, then `distanceToLabel(v, L)` returns a pair `(d, u)` where `u` carries
`L`, `d` is the true shortest distance from `v` to the vertices carrying `L`, and `d` is the
true shortest distance from `v` to `u`. -/
theorem exact_in_horizon (g : Graph) (hg : g.WF) (perm : List Nat)
    (hperm : perm.Perm (List.range g.n)) (ll : List Int) (hll : g.n ≤ ll.length)
    (hrange : ∀ (v : Nat) (l : Int), v < g.n → ll[v]? = some l → 0 ≤ l ∧ l < (g.n : Int))
    (ro : Int) (k : Nat) (hk : portalCount g.n ro = some k) (hkn : k ≤ g.n)
    (v : Nat) (L : Int) (w kw : Nat) (hw : Walk g v w kw) (hwl : ll[w]? = some L) :
    ∃ o, initializeWithLabels g perm ll ro = some o ∧
      ∃ vx, o.vertices[v]? = some vx ∧
        ((kw : W) < vx.p.1 →
          ∃ (u : Nat) (d : W), distanceToLabel o v L = some (d, (u : Int)) ∧
            ll[u]? = some L ∧ IsDistTo g v (fun x => ll[x]? = some L) d ∧
            IsDistTo g v (fun x => x = u) d) := by
  obtain ⟨o, pn, pidx, ho, hsel, hb, _, _⟩ :=
    valid_built g hg perm hperm ll hll hrange ro k hk hkn
  refine ⟨o, ho, ?_⟩
  have hv : v < g.n := Walk.source_lt hw
  obtain ⟨vx, hvx, _, _⟩ := hb.vertex hv
  obtain ⟨r, hex, hp, hd⟩ := hb.vertex_exact hg hv hvx
  refine ⟨vx, hvx, ?_⟩
  intro hlt
  cases hr1 : r.1 with
  | none =>
    exfalso
    rw [hp, hr1] at hlt
    exact absurd hlt (not_lt.mpr (zero_le _))
  | some q =>
    obtain ⟨u0, k0, hpu, hq2, hq1, _, _, _, hcomplete⟩ := hex.nearest q hr1
    have hpq : vx.p = q := by rw [hp, hr1]; rfl
    rw [hpq, hq1] at hlt
    have hlt2 : kw < k0 := by exact_mod_cast hlt
    obtain ⟨P, hP, _, hpost, _, _⟩ := hb.portal_of_index hg hsel hpu
    rw [← hq2, ← hpq] at hP
    -- the entry of `w` and the first entry labelled `L`
    obtain ⟨cw, hcw, hcw2⟩ := hcomplete w kw hw hlt2
    have hwn : w < g.n := Walk.target_lt hg hw
    have hcwl : labelOf o.vertices cw.2 = L := by
      rw [hcw2]
      exact (hb.label_iff hwn L).mpr hwl
    obtain ⟨c1, hc1, hl1, hscan, hmin⟩ := localScan_first o.vertices L r.2 cw hcw hcwl
    obtain ⟨_, k1, hk1, hw1, hleast1⟩ := hex.exact c1 hc1
    obtain ⟨_, kc, hkc, _, hleastc⟩ := hex.exact cw hcw
    have hc1n : c1.2 < g.n := Walk.target_lt hg hw1
    have hc1l : ll[c1.2]? = some L := (hb.label_iff hc1n L).mp hl1
    have h1w : k1 ≤ kw := by
      have h1 : c1.1 ≤ cw.1 := hmin hex.sorted cw hcw hcwl
      rw [hk1, hkc] at h1
      have h2 : kc ≤ kw := hleastc kw (hcw2 ▸ hw)
      have h3 : k1 ≤ kc := by exact_mod_cast h1
      omega
    have hres : distanceToLabel o v L = some (c1.1, (c1.2 : Int)) := by
      unfold distanceToLabel
      simp only [hvx, hP, hd, hscan]
      cases hbk : mapGet P.N_l L with
      | nil => rfl
      | cons it rest =>
        simp only [Option.some.injEq]
        unfold stdMin
        rw [if_neg]
        rintro (hlt3 | ⟨heq, _⟩)
        · have hlt4 : vx.p.1 + it.1 < c1.1 := hlt3
          rw [hpq, hq1, hk1] at hlt4
          have hle : (k0 : W) ≤ (k0 : W) + it.1 := le_self_add
          have hlt5 : (k0 : W) < (k1 : W) := lt_of_le_of_lt hle hlt4
          have hlt6 : k0 < k1 := by exact_mod_cast hlt5
          omega
        · have heq2 : vx.p.1 + it.1 = c1.1 := heq
          rw [hpq, hq1, hk1] at heq2
          have hle : (k0 : W) ≤ (k0 : W) + it.1 := le_self_add
          rw [heq2] at hle
          have hle2 : k0 ≤ k1 := by exact_mod_cast hle
          omega
    refine ⟨c1.2, c1.1, hres, hc1l, ?_, ?_⟩
    · refine ⟨Or.inr ⟨c1.2, k1, hc1l, hw1, hk1⟩, ?_⟩
      rintro y (rfl | ⟨x, k2, hxl, hwx, rfl⟩)
      · exact le_top
      · rw [hk1]
        have hgoal : k1 ≤ k2 := by
          by_cases hk2 : k2 < k0
          · obtain ⟨cx, hcx, hcx2⟩ := hcomplete x k2 hwx hk2
            obtain ⟨_, kx, hkx, _, hleastx⟩ := hex.exact cx hcx
            have hxn : x < g.n := Walk.target_lt hg hwx
            have hcxl : labelOf o.vertices cx.2 = L := by
              rw [hcx2]
              exact (hb.label_iff hxn L).mpr hxl
            have h1 : c1.1 ≤ cx.1 := hmin hex.sorted cx hcx hcxl
            rw [hk1, hkx] at h1
            have h2 : kx ≤ k2 := hleastx k2 (hcx2 ▸ hwx)
            have h3 : k1 ≤ kx := by exact_mod_cast h1
            omega
          · omega
        exact_mod_cast hgoal
    · rw [hk1]
      exact isDistTo_single hw1 hleast1

theorem exact_in_horizon_witness :
    pathGraph.WF ∧ Walk pathGraph 1 1 0 ∧
    (initializeWithLabels pathGraph [3, 0, 4, 1, 2] pathLabels 1).bind
      (fun o => (o.vertices[1]?).map (fun vx => vx.p)) = some (2, 0) ∧
    ∃ o, initializeWithLabels pathGraph [3, 0, 4, 1, 2] pathLabels 1 = some o ∧
      ∃ vx, o.vertices[1]? = some vx ∧
        (((0 : Nat) : W) < vx.p.1 →
          ∃ (u : Nat) (d : W), distanceToLabel o 1 0 = some (d, (u : Int)) ∧
            pathLabels[u]? = some 0 ∧ IsDistTo pathGraph 1 (fun x => pathLabels[x]? = some 0) d ∧
            IsDistTo pathGraph 1 (fun x => x = u) d) :=
  ⟨pathGraph_wf, Walk.nil (by decide), by decide,
    exact_in_horizon pathGraph pathGraph_wf [3, 0, 4, 1, 2] (by decide) pathLabels
      (by decide) pathLabels_range 1 1 (by decide) (by decide) 1 0 1 0
      (Walk.nil (by decide)) (by decide)⟩

/-! ## The stretch of `distanceToLabel` -/

/-- Claim C19: on valid input over a symmetric graph, for every vertex `v` from which some
portal can be reached and every label `L`, `distanceToLabel(v, L)` returns a distance `r` with
`d ≤ r ≤ 3 * d`, where `d` is the true shortest distance from `v` to the vertices carrying `L`
(so `r` is `infinity` when `d` is). -/
theorem stretch_three (g : Graph) (hg : g.WF) (hs : g.Symmetric) (perm : List Nat)
    (hperm : perm.Perm (List.range g.n)) (ll : List Int) (hll : g.n ≤ ll.length)
    (hrange : ∀ (v : Nat) (l : Int), v < g.n → ll[v]? = some l → 0 ≤ l ∧ l < (g.n : Int))
    (ro : Int) (k : Nat) (hk : portalCount g.n ro = some k) (hkn : k ≤ g.n)
    (v : Nat) (hreach : ∃ u j, Walk g v u j ∧ u ∈ resizeInt perm k) (L : Int) :
    ∃ o, initializeWithLabels g perm ll ro = some o ∧
      ∃ r, distanceToLabel o v L = some r ∧
        ∀ d, IsDistTo g v (fun x => ll[x]? = some L) d → d ≤ r.1 ∧ r.1 ≤ 3 * d := by
  obtain ⟨o, pn, pidx, ho, hsel, hb, hpn, _⟩ :=
    valid_built g hg perm hperm ll hll hrange ro k hk hkn
  refine ⟨o, ho, ?_⟩
  rw [← hpn] at hreach
  have hreach2 : ∃ u j, Walk g v u j ∧ u ∈ o.portalNumbers := by
    rw [hb.pn_eq]
    exact hreach
  obtain ⟨r, hr, hsound⟩ :=
    (soundness_core g hg hs perm ll ro o ho [] List.nodup_nil o rfl).1 v L hreach2
  refine ⟨r, hr, ?_⟩
  intro d hdist
  refine ⟨by simpa using hsound d d hdist hdist, ?_⟩
  rcases hdist.1 with htop | ⟨w, kd, hwl, hww, hdk⟩
  · rw [htop]
    exact le_of_le_of_eq le_top (by rfl)
  -- the finite case: a nearest vertex `w` labelled `L` at distance `kd`
  have hv : v < g.n := Walk.source_lt hww
  have hwn : w < g.n := Walk.target_lt hg hww
  obtain ⟨vx, hvx, _, _⟩ := hb.vertex hv
  obtain ⟨rr, hex, hp, hd⟩ := hb.vertex_exact hg hv hvx
  cases hr1 : rr.1 with
  | none =>
    exfalso
    obtain ⟨u, j, hwu, hu⟩ := hreach
    exact not_mem_portals hsel (hex.unassigned hr1 u j hwu).1 hu
  | some q =>
    obtain ⟨u0, k0, hpu, hq2, hq1, hw0, _, _, hcomplete⟩ := hex.nearest q hr1
    have hpq : vx.p = q := by rw [hp, hr1]; rfl
    obtain ⟨P, hP, _, hpost, hbucket, hsorted⟩ := hb.portal_of_index hg hsel hpu
    rw [← hq2, ← hpq] at hP
    -- the bucket of `L` in the nearest portal holds `w`
    have hmemw : (P.D_v.getD w infinity, w) ∈ mapGet P.N_l L :=
      (hbucket L _).mpr ⟨w, hwn, (hb.label_iff hwn L).mpr hwl, rfl⟩
    have hDw : P.D_v.getD w infinity ≤ ((k0 + kd : Nat) : W) :=
      hpost.least w (k0 + kd) (Walk.append (Walk.reverse hg hs hw0) hww)
    unfold distanceToLabel at hr
    simp only [hvx, hP] at hr
    cases hbk : mapGet P.N_l L with
    | nil =>
      rw [hbk] at hmemw
      exact absurd hmemw (List.not_mem_nil _)
    | cons it rest =>
      rw [hbk] at hr
      simp only [Option.some.injEq] at hr
      have hit : it.1 ≤ P.D_v.getD w infinity := head_fst_le (hsorted L) hbk hmemw
      have hmin := stdMin_fst_le (fun (x y : Int) => x < y) (localScan o.vertices L vx.dist)
        (vx.p.1 + it.1, (it.2 : Int))
      have hr2 : r.1 ≤ (localScan o.vertices L vx.dist).1 ∧ r.1 ≤ vx.p.1 + it.1 := by
        rw [← hr]
        exact hmin
      rw [hdk]
      by_cases hlt : kd < k0
      · -- `w` is inside the local horizon
        obtain ⟨cw, hcw, hcw2⟩ := hcomplete w kd hww hlt
        have hcwl : labelOf o.vertices cw.2 = L := by
          rw [hcw2]
          exact (hb.label_iff hwn L).mpr hwl
        obtain ⟨c1, _, _, hscan, hfirst⟩ := localScan_first o.vertices L rr.2 cw hcw hcwl
        obtain ⟨_, kc, hkc, _, hleastc⟩ := hex.exact cw hcw
        have h1 : c1.1 ≤ cw.1 := hfirst hex.sorted cw hcw hcwl
        have h2 : kc ≤ kd := hleastc kd (hcw2 ▸ hww)
        have h3 : r.1 ≤ c1.1 := by
          have := hr2.1
          rw [hd, hscan] at this
          exact this
        have h4 : r.1 ≤ (kd : W) := by
          refine le_trans h3 (le_trans h1 ?_)
          rw [hkc]
          exact_mod_cast h2
        refine le_trans h4 ?_
        have : kd ≤ 3 * kd := by omega
        exact_mod_cast this
      · -- the portal candidate
        have h5 : r.1 ≤ ((k0 + (k0 + kd) : Nat) : W) := by
          refine le_trans hr2.2 ?_
          rw [hpq, hq1]
          push_cast
          exact add_le_add_left (le_trans hit (by exact_mod_cast hDw)) _
        refine le_trans h5 ?_
        have : k0 + (k0 + kd) ≤ 3 * kd := by omega
        exact_mod_cast this

theorem stretch_three_witness :
    pathGraph.WF ∧ pathGraph.Symmetric ∧
    (∃ u j, Walk pathGraph 0 u j ∧ u ∈ resizeInt [3, 0, 4, 1, 2] 1) ∧
    ∃ o, initializeWithLabels pathGraph [3, 0, 4, 1, 2] pathLabels 1 = some o ∧
      ∃ r, distanceToLabel o 0 2 = some r ∧
        ∀ d, IsDistTo pathGraph 0 (fun x => pathLabels[x]? = some 2) d →
          d ≤ r.1 ∧ r.1 ≤ 3 * d :=
  ⟨pathGraph_wf, pathGraph_symmetric, ⟨3, 3, pathGraph_walk_0_3, by decide⟩,
    stretch_three pathGraph pathGraph_wf pathGraph_symmetric [3, 0, 4, 1, 2] (by decide)
      pathLabels (by decide) pathLabels_range 1 1 (by decide) (by decide) 0
      ⟨3, 3, pathGraph_walk_0_3, by decide⟩ 2⟩

/-! ## Queries for a label that no vertex carries -/

/-- The loop over the portals leaves the result unchanged when every portal has an empty
bucket for one of the two labels. -/
theorem portalStep_fold_empty (l1 l2 : Int) (ps : List Portal) (r : W × (Int × Int))
    (h : ∀ P ∈ ps, mapGet P.N_l l1 = [] ∨ mapGet P.N_l l2 = []) :
    ps.foldl (portalStep l1 l2) r = r := by
  rcases (portalStep_fold l1 l2 ps r).2.2 with e | ⟨P, hP, v, u, tv, tu, hv, hu, _⟩
  · exact e
  · rcases h P hP with e | e
    · rw [e] at hv
      exact absurd hv (by simp)
    · rw [e] at hu
      exact absurd hu (by simp)

/-- Every portal has an empty bucket for a label that no vertex carries. -/
theorem Built.bucket_empty {g : Graph} (hg : g.WF) {perm : List Nat} {k : Nat} {pn : List Nat}
    {pidx : List Int} {ll : List Int} {o : Oracle}
    (hsel : selectPortals g perm k = some (pn, pidx)) (hb : Built g pn pidx ll o)
    {L : Int} (hL : ∀ v, v < g.n → ll[v]? ≠ some L) {i : Nat} {P : Portal}
    (hP : o.portals[i]? = some P) : mapGet P.N_l L = [] := by
  obtain ⟨_, _, _, _, hbucket, _⟩ := hb.portal_post hg hsel hP
  apply List.eq_nil_iff_forall_not_mem.mpr
  intro x hx
  obtain ⟨w, hw, hwl, _⟩ := (hbucket L x).mp hx
  exact hL w hw ((hb.label_iff hw L).mp hwl)

/-- Claim C11, counterexample: in the scenario no vertex carries the label 7, and
`distanceBetweenLabels(7, 0)` reads `labels[7]` in a table of 5 entries: the access is out of
range. -/
theorem query_miss_out_of_range :
    ∃ o, initializeWithLabels pathGraph [3, 0, 4, 1, 2] pathLabels 1 = some o ∧
      o.labels.length = 5 ∧ (∀ v, v < 5 → pathLabels[v]? ≠ some 7) ∧
      distanceBetweenLabels o 7 0 = none :=
  ⟨_, rfl, by decide, by decide, by decide⟩

/-- Claim C11, amended: on valid input with at least one portal, for every integer label `L`
that no vertex carries: `distanceToLabel(v, L)` returns `(infinity, -1)` for every vertex `v`
(also when `L` lies outside `0..n-1`), `distanceBetweenLabels(L, M)` returns
`(infinity, (-1, -1))` for every integer `M` when `L` lies in `0..n-1`, and
`distanceBetweenLabels(M, L)` returns `(infinity, (-1, -1))` for every `M` in `0..n-1`. -/
theorem query_miss (g : Graph) (hg : g.WF) (perm : List Nat)
    (hperm : perm.Perm (List.range g.n)) (ll : List Int) (hll : g.n ≤ ll.length)
    (hrange : ∀ (v : Nat) (l : Int), v < g.n → ll[v]? = some l → 0 ≤ l ∧ l < (g.n : Int))
    (ro : Int) (k : Nat) (hk : portalCount g.n ro = some k) (hk1 : 1 ≤ k) (hkn : k ≤ g.n)
    (L : Int) (hL : ∀ v, v < g.n → ll[v]? ≠ some L) :
    ∃ o, initializeWithLabels g perm ll ro = some o ∧
      (∀ v, v < g.n → distanceToLabel o v L = some (infinity, -1)) ∧
      (0 ≤ L → L < (g.n : Int) →
        ∀ M : Int, distanceBetweenLabels o L M = some (infinity, (-1, -1))) ∧
      ∀ M : Int, 0 ≤ M → M < (g.n : Int) →
        distanceBetweenLabels o M L = some (infinity, (-1, -1)) := by
  obtain ⟨o, pn, pidx, ho, hsel, hb, _, hlen⟩ :=
    valid_built g hg perm hperm ll hll hrange ro k hk hkn
  refine ⟨o, ho, ?_, ?_, ?_⟩
  · -- distanceToLabel
    intro v hv
    obtain ⟨vx, hvx, _, _⟩ := hb.vertex hv
    obtain ⟨r, hex, hp, hd⟩ := hb.vertex_exact hg hv hvx
    have hPex : ∃ P, o.portals[vx.p.2]? = some P := by
      cases hr1 : r.1 with
      | none =>
        have hp0 : vx.p = (0, 0) := by rw [hp, hr1]; rfl
        have hlt : 0 < o.portals.length := by rw [hb.plen, hlen]; exact hk1
        exact ⟨o.portals[0], by rw [hp0]; exact List.getElem?_eq_getElem hlt⟩
      | some q =>
        obtain ⟨u0, k0, hpu, hq2, _, _, _, _, _⟩ := hex.nearest q hr1
        have hpq : vx.p = q := by rw [hp, hr1]; rfl
        obtain ⟨P, hP, _, _, _, _⟩ := hb.portal_of_index hg hsel hpu
        rw [← hq2, ← hpq] at hP
        exact ⟨P, hP⟩
    obtain ⟨P, hP⟩ := hPex
    have hbk : mapGet P.N_l L = [] := hb.bucket_empty hg hsel hL hP
    have hscan : localScan o.vertices L vx.dist = (infinity, -1) := by
      rcases localScan_spec o.vertices L vx.dist with e | ⟨c, hc, hcl, _⟩
      · exact e
      · exfalso
        rw [hd] at hc
        obtain ⟨_, kc, _, hwc, _⟩ := hex.exact c hc
        have hcn : c.2 < g.n := Walk.target_lt hg hwc
        exact hL c.2 hcn ((hb.label_iff hcn L).mp hcl)
    unfold distanceToLabel
    simp only [hvx, hP, hbk, hscan]
  · -- the missing label as first argument
    intro hL0 hLn M
    obtain ⟨lab, hidx, hlab⟩ := indexInt_some o.labels L hL0 (by rw [hb.llen]; exact hLn)
    obtain ⟨hmem, _, hne⟩ := hb.lab _ lab hlab
    have hfold : o.portals.foldl (portalStep L M) (infinity, (-1, -1)) =
        (infinity, (-1, -1)) := by
      apply portalStep_fold_empty
      intro P hP
      obtain ⟨i, hi⟩ := List.mem_iff_getElem?.mp hP
      exact Or.inl (hb.bucket_empty hg hsel hL hi)
    unfold distanceBetweenLabels
    simp only [hidx, hfold]
    cases hfind : mapFind lab.P_l M with
    | none => rfl
    | some s =>
      exfalso
      have hget := mapGet_of_mapFind hfind
      cases s with
      | nil => exact hne M hfind
      | cons x t =>
        have hx : x ∈ mapGet lab.P_l M := by rw [hget]; exact List.mem_cons_self _ _
        obtain ⟨vx, hvx, hvlab, _, _⟩ := (hmem M x).mp hx
        have hvn : x.2.2 < g.n := by
          rw [← hb.vlen]
          exact (List.getElem?_eq_some.mp hvx).1
        have hll2 := (hb.vert _ vx hvx).1
        rw [hvlab, Int.toNat_of_nonneg hL0] at hll2
        exact hL _ hvn hll2
  · -- the missing label as second argument
    intro M hM0 hMn
    obtain ⟨lab, hidx, hlab⟩ := indexInt_some o.labels M hM0 (by rw [hb.llen]; exact hMn)
    obtain ⟨hmem, _, hne⟩ := hb.lab _ lab hlab
    have hfold : o.portals.foldl (portalStep M L) (infinity, (-1, -1)) =
        (infinity, (-1, -1)) := by
      apply portalStep_fold_empty
      intro P hP
      obtain ⟨i, hi⟩ := List.mem_iff_getElem?.mp hP
      exact Or.inr (hb.bucket_empty hg hsel hL hi)
    unfold distanceBetweenLabels
    simp only [hidx, hfold]
    cases hfind : mapFind lab.P_l L with
    | none => rfl
    | some s =>
      exfalso
      have hget := mapGet_of_mapFind hfind
      cases s with
      | nil => exact hne L hfind
      | cons x t =>
        have hx : x ∈ mapGet lab.P_l L := by rw [hget]; exact List.mem_cons_self _ _
        obtain ⟨vx, hvx, _, hxd, hxl⟩ := (hmem L x).mp hx
        have hvn : x.2.2 < g.n := by
          rw [← hb.vlen]
          exact (List.getElem?_eq_some.mp hvx).1
        obtain ⟨r, hex, _, hd⟩ := hb.vertex_exact hg hvn hvx
        rw [hd] at hxd
        obtain ⟨_, kc, _, hwc, _⟩ := hex.exact _ hxd
        have hun : x.2.1 < g.n := Walk.target_lt hg hwc
        exact hL _ hun ((hb.label_iff hun L).mp hxl)

theorem query_miss_witness :
    pathGraph.WF ∧ (∀ v, v < pathGraph.n → pathLabels[v]? ≠ some 3) ∧
    ∃ o, initializeWithLabels pathGraph [3, 0, 4, 1, 2] pathLabels 2 = some o ∧
      (∀ v, v < pathGraph.n → distanceToLabel o v 3 = some (infinity, -1)) ∧
      ((0 : Int) ≤ 3 → (3 : Int) < (pathGraph.n : Int) →
        ∀ M : Int, distanceBetweenLabels o 3 M = some (infinity, (-1, -1))) ∧
      ∀ M : Int, 0 ≤ M → M < (pathGraph.n : Int) →
        distanceBetweenLabels o M 3 = some (infinity, (-1, -1)) :=
  ⟨pathGraph_wf, by decide,
    query_miss pathGraph pathGraph_wf [3, 0, 4, 1, 2] (by decide) pathLabels
      (by decide) pathLabels_range 2 2 (by decide) (by decide) (by decide) 3 (by decide)⟩

/-! ## The sizes of the tables -/

theorem portalCount_nat (n ro : Nat) : portalCount n (ro : Int) = some ro := by
  unfold portalCount
  have h1 : ¬ ((ro : Int) = -1) := by omega
  have h2 : ¬ ((ro : Int) < 0) := by omega
  simp [h1, h2]

/-- Claim C12, counterexample: on the path `0 - 1 - 2` with vertex 2 as the portal and the
labels `0, 7, 2`, the construction reads `labels[7]` in a table of 3 entries: the access is
out of range. -/
theorem construction_label_out_of_range :
    shortPath.WF ∧ [2, 0, 1].Perm (List.range shortPath.n) ∧
      initializeWithLabels shortPath [2, 0, 1] [0, 7, 2] 1 = none :=
  ⟨shortPath_wf, by decide, rfl⟩

/-- Claim C12, amended: for every well-formed graph on `n` vertices, every `ro` with
`1 ≤ ro ≤ n`, every shuffle and every label assignment of length `n` whose values lie in
`0..n-1` (not necessarily contiguous), the construction completes without an out-of-range
access, and the tables have the sizes `n` (vertices, labels, portal indices) and `ro`
(portals). -/
theorem construction_index_safe (g : Graph) (hg : g.WF) (perm : List Nat)
    (hperm : perm.Perm (List.range g.n)) (ll : List Int) (hll : ll.length = g.n)
    (hrange : ∀ l ∈ ll, 0 ≤ l ∧ l < (g.n : Int))
    (ro : Nat) (h1 : 1 ≤ ro) (h2 : ro ≤ g.n) :
    ∃ o, initializeWithLabels g perm ll (ro : Int) = some o ∧
      o.vertices.length = g.n ∧ o.labels.length = g.n ∧ o.portalIndices.length = g.n ∧
      o.portalNumbers.length = ro ∧ o.portals.length = ro ∧ 1 ≤ o.portals.length := by
  obtain ⟨o, pn, pidx, ho, hsel, hb, _, hlen⟩ :=
    valid_built g hg perm hperm ll (le_of_eq hll.symm)
      (fun v l _ hvl => hrange l (List.getElem?_mem hvl)) (ro : Int) ro
      (portalCount_nat g.n ro) h2
  refine ⟨o, ho, hb.vlen, hb.llen, ?_, ?_, ?_, ?_⟩
  · rw [hb.pidx_eq]
    exact (selectPortals_spec hsel).2.2.1
  · rw [hb.pn_eq]
    exact hlen
  · rw [hb.plen]
    exact hlen
  · rw [hb.plen, hlen]
    exact h1

theorem construction_index_safe_witness :
    shortPath.WF ∧ [2, 0, 1].Perm (List.range shortPath.n) ∧
    ∃ o, initializeWithLabels shortPath [2, 0, 1] [0, 2, 2] ((1 : Nat) : Int) = some o ∧
      o.vertices.length = shortPath.n ∧ o.labels.length = shortPath.n ∧
      o.portalIndices.length = shortPath.n ∧
      o.portalNumbers.length = 1 ∧ o.portals.length = 1 ∧ 1 ≤ o.portals.length :=
  ⟨shortPath_wf, by decide,
    construction_index_safe shortPath shortPath_wf [2, 0, 1] (by decide) [0, 2, 2]
      (by decide) (by decide) 1 (by decide) (by decide)⟩

/-! ## The default portal count -/

/-- The construction depends on `ro` through the portal count only. -/
theorem initializeWithLabels_count (g : Graph) (perm : List Nat) (ll : List Int) (ro ro2 : Int)
    (h : portalCount g.n ro = portalCount g.n ro2) :
    initializeWithLabels g perm ll ro = initializeWithLabels g perm ll ro2 := by
  unfold initializeWithLabels
  rw [h]

theorem portalCount_three : portalCount 3 (-1) = portalCount 3 1 := by
  have h : Nat.sqrt 3 = 1 := (Nat.eq_sqrt.mpr ⟨by decide, by decide⟩).symm
  unfold portalCount
  simp [h]

/-- Claim C13, counterexample: for `n = 3` the nearest integer to the square root is 2, yet
the construction with `ro = -1` selects one portal. -/
theorem default_count_truncates :
    IsRoundSqrt 3 2 ∧
    ∃ o, initializeWithLabels shortPath [0, 1, 2] [0, 1, 2] (-1) = some o ∧
      o.portalNumbers.length = 1 ∧ o.portals.length = 1 := by
  refine ⟨by decide, ?_⟩
  rw [initializeWithLabels_count shortPath [0, 1, 2] [0, 1, 2] (-1) 1 portalCount_three]
  exact ⟨_, rfl, by decide, by decide⟩

/-- Claim C13, amended: on valid input with `n ≥ 1` and `ro = -1` the construction selects
`max(1, r)` portals where `r` is the square root of `n` rounded down, the integer with
`r * r ≤ n < (r + 1) * (r + 1)`. -/
theorem default_portal_count (g : Graph) (hg : g.WF) (hn : 1 ≤ g.n) (perm : List Nat)
    (hperm : perm.Perm (List.range g.n)) (ll : List Int) (hll : g.n ≤ ll.length)
    (hrange : ∀ (v : Nat) (l : Int), v < g.n → ll[v]? = some l → 0 ≤ l ∧ l < (g.n : Int)) :
    ∃ o r, initializeWithLabels g perm ll (-1) = some o ∧
      r * r ≤ g.n ∧ g.n < (r + 1) * (r + 1) ∧
      o.portalNumbers.length = max 1 r ∧ o.portals.length = max 1 r := by
  have hk : portalCount g.n (-1) = some (max 1 (Nat.sqrt g.n)) := by
    unfold portalCount
    simp
  have hkn : max 1 (Nat.sqrt g.n) ≤ g.n := max_le hn (Nat.sqrt_le_self g.n)
  obtain ⟨o, pn, pidx, ho, hsel, hb, _, hlen⟩ :=
    valid_built g hg perm hperm ll hll hrange (-1) _ hk hkn
  refine ⟨o, Nat.sqrt g.n, ho, Nat.sqrt_le g.n, Nat.lt_succ_sqrt g.n, ?_, ?_⟩
  · rw [hb.pn_eq]
    exact hlen
  · rw [hb.plen]
    exact hlen

theorem default_portal_count_witness :
    pathGraph.WF ∧ 1 ≤ pathGraph.n ∧
    ∃ o r, initializeWithLabels pathGraph [3, 0, 4, 1, 2] pathLabels (-1) = some o ∧
      r * r ≤ pathGraph.n ∧ pathGraph.n < (r + 1) * (r + 1) ∧
      o.portalNumbers.length = max 1 r ∧ o.portals.length = max 1 r :=
  ⟨pathGraph_wf, by decide,
    default_portal_count pathGraph pathGraph_wf (by decide) [3, 0, 4, 1, 2] (by decide)
      pathLabels (by decide) pathLabels_range⟩

/-! ## Swapping the arguments of `distanceBetweenLabels` -/

theorem stdMin_fst {β : Type} (r : β → β → Prop) [DecidableRel r] (a b : W × β) :
    (stdMin (pairLt r) a b).1 = min a.1 b.1 := by
  unfold stdMin
  split_ifs with h
  · have hle : b.1 ≤ a.1 := by
      rcases h with h | ⟨h, _⟩
      · exact le_of_lt h
      · exact le_of_eq h
    exact (min_eq_right hle).symm
  · have hle : a.1 ≤ b.1 := by
      by_contra hc
      exact h (Or.inl (lt_of_not_le hc))
    exact (min_eq_left hle).symm

theorem portalStep_fst (l1 l2 : Int) (r r2 : W × (Int × Int)) (P : Portal) (h : r.1 = r2.1) :
    (portalStep l1 l2 r P).1 = (portalStep l2 l1 r2 P).1 := by
  unfold portalStep
  cases h1 : mapGet P.N_l l1 with
  | nil =>
    cases h2 : mapGet P.N_l l2 with
    | nil => exact h
    | cons u tu => exact h
  | cons v tv =>
    cases h2 : mapGet P.N_l l2 with
    | nil => exact h
    | cons u tu =>
      show (stdMin (pairLt ltII) r (v.1 + u.1, ((v.2 : Int), (u.2 : Int)))).1 =
        (stdMin (pairLt ltII) r2 (u.1 + v.1, ((u.2 : Int), (v.2 : Int)))).1
      rw [stdMin_fst, stdMin_fst, h, add_comm v.1 u.1]

/-- The distance of the portal candidate does not depend on the order of the two labels. -/
theorem portalStep_fold_comm (l1 l2 : Int) (ps : List Portal) :
    ∀ (r r2 : W × (Int × Int)), r.1 = r2.1 →
      (ps.foldl (portalStep l1 l2) r).1 = (ps.foldl (portalStep l2 l1) r2).1 := by
  induction ps with
  | nil =>
    intro r r2 h
    exact h
  | cons P ps ih =>
    intro r r2 h
    simp only [List.foldl_cons]
    exact ih _ _ (portalStep_fst l1 l2 r r2 P h)

/-- The result of `distanceBetweenLabels` against its portal candidate. -/
theorem distanceBetweenLabels_le_fold {o : Oracle} {l1 l2 : Int} {r : W × (Int × Int)}
    {lab : Label} (h : distanceBetweenLabels o l1 l2 = some r)
    (hlab : indexInt o.labels l1 = some lab) :
    r.1 ≤ (o.portals.foldl (portalStep l1 l2) (infinity, (-1, -1))).1 ∧
      (mapFind lab.P_l l2 = none →
        r.1 = (o.portals.foldl (portalStep l1 l2) (infinity, (-1, -1))).1) := by
  unfold distanceBetweenLabels at h
  simp only [hlab] at h
  cases hfind : mapFind lab.P_l l2 with
  | none =>
    rw [hfind] at h
    simp only [Option.some.injEq] at h
    rw [← h]
    exact ⟨le_refl _, fun _ => rfl⟩
  | some s =>
    rw [hfind] at h
    cases s with
    | nil => exact absurd h (by simp)
    | cons x t =>
      simp only [Option.some.injEq] at h
      rw [← h]
      exact ⟨(stdMin_fst_le ltII _ _).1, fun e => absurd e (by simp)⟩

theorem IsDistBetween.swap_args {g : Graph} (hg : g.WF) (hs : g.Symmetric) {S T : Nat → Prop}
    {d : W} (h : IsDistBetween g S T d) : IsDistBetween g T S d := by
  constructor
  · rcases h.1 with e | ⟨a, b, k, hS, hT, hw, e⟩
    · exact Or.inl e
    · exact Or.inr ⟨b, a, k, hT, hS, Walk.reverse hg hs hw, e⟩
  · rintro y (rfl | ⟨a, b, k, hT, hS, hw, rfl⟩)
    · exact le_top
    · exact h.2 (Or.inr ⟨b, a, k, hS, hT, Walk.reverse hg hs hw, rfl⟩)

/-- Claim C20, counterexample: in the scenario with vertex 0 as the portal,
`distanceBetweenLabels(0, 1)` returns the distance 2 and `distanceBetweenLabels(1, 0)` returns
the distance 1. -/
theorem pair_query_asymmetric :
    pathGraph.Symmetric ∧
    ∃ o, initializeWithLabels pathGraph [0, 1, 2, 3, 4] pathLabels 1 = some o ∧
      distanceBetweenLabels o 0 1 = some (2, (0, 2)) ∧
      distanceBetweenLabels o 1 0 = some (1, (1, 2)) :=
  ⟨pathGraph_symmetric, _, rfl, by decide, by decide⟩

/-- Claim C20, amended: on valid input over a symmetric graph, for all labels `L1`, `L2` in
`0..n-1`, both `distanceBetweenLabels(L1, L2)` and `distanceBetweenLabels(L2, L1)` return a
distance that is at least the true shortest distance between the vertices labelled `L1` and
the vertices labelled `L2`; when the Label Pairwise Index holds no record for `(L1, L2)` the
first distance is at least the second, when it holds no record for `(L2, L1)` the second is at
least the first, and when it holds a record for neither the two calls return the same
distance. -/
theorem pair_query_symmetry (g : Graph) (hg : g.WF) (hs : g.Symmetric) (perm : List Nat)
    (hperm : perm.Perm (List.range g.n)) (ll : List Int) (hll : g.n ≤ ll.length)
    (hrange : ∀ (v : Nat) (l : Int), v < g.n → ll[v]? = some l → 0 ≤ l ∧ l < (g.n : Int))
    (ro : Int) (k : Nat) (hk : portalCount g.n ro = some k) (hkn : k ≤ g.n)
    (L1 L2 : Int) (h1 : 0 ≤ L1) (h1n : L1 < (g.n : Int)) (h2 : 0 ≤ L2)
    (h2n : L2 < (g.n : Int)) :
    ∃ o, initializeWithLabels g perm ll ro = some o ∧
      ∃ r1 r2 lab1 lab2, distanceBetweenLabels o L1 L2 = some r1 ∧
        distanceBetweenLabels o L2 L1 = some r2 ∧
        indexInt o.labels L1 = some lab1 ∧ indexInt o.labels L2 = some lab2 ∧
        (∀ d, IsDistBetween g (fun a => ll[a]? = some L1) (fun b => ll[b]? = some L2) d →
          d ≤ r1.1 ∧ d ≤ r2.1) ∧
        (mapFind lab1.P_l L2 = none → r2.1 ≤ r1.1) ∧
        (mapFind lab2.P_l L1 = none → r1.1 ≤ r2.1) ∧
        (mapFind lab1.P_l L2 = none → mapFind lab2.P_l L1 = none → r1.1 = r2.1) := by
  obtain ⟨o, pn, pidx, ho, hsel, hb, _, _⟩ :=
    valid_built g hg perm hperm ll hll hrange ro k hk hkn
  refine ⟨o, ho, ?_⟩
  have hcore := (soundness_core g hg hs perm ll ro o ho [] List.nodup_nil o rfl).2
  obtain ⟨r1, hr1, hs1⟩ := hcore L1 L2 h1 h1n
  obtain ⟨r2, hr2, hs2⟩ := hcore L2 L1 h2 h2n
  obtain ⟨lab1, hidx1, _⟩ := indexInt_some o.labels L1 h1 (by rw [hb.llen]; exact h1n)
  obtain ⟨lab2, hidx2, _⟩ := indexInt_some o.labels L2 h2 (by rw [hb.llen]; exact h2n)
  obtain ⟨hle1, heq1⟩ := distanceBetweenLabels_le_fold hr1 hidx1
  obtain ⟨hle2, heq2⟩ := distanceBetweenLabels_le_fold hr2 hidx2
  have hcomm := portalStep_fold_comm L1 L2 o.portals (infinity, (-1, -1))
    (infinity, (-1, -1)) rfl
  refine ⟨r1, r2, lab1, lab2, hr1, hr2, hidx1, hidx2, ?_, ?_, ?_, ?_⟩
  · intro d hd
    constructor
    · simpa using hs1 d d hd hd
    · have hd2 := hd.swap_args hg hs
      simpa using hs2 d d hd2 hd2
  · intro hnone
    rw [heq1 hnone, hcomm]
    exact hle2
  · intro hnone
    rw [heq2 hnone, ← hcomm]
    exact hle1
  · intro hn1 hn2
    rw [heq1 hn1, heq2 hn2, hcomm]

theorem pair_query_symmetry_witness :
    pathGraph.WF ∧ pathGraph.Symmetric ∧
    ∃ o, initializeWithLabels pathGraph [3, 0, 4, 1, 2] pathLabels 2 = some o ∧
      ∃ r1 r2 lab1 lab2, distanceBetweenLabels o 0 2 = some r1 ∧
        distanceBetweenLabels o 2 0 = some r2 ∧
        indexInt o.labels 0 = some lab1 ∧ indexInt o.labels 2 = some lab2 ∧
        (∀ d, IsDistBetween pathGraph (fun a => pathLabels[a]? = some 0)
            (fun b => pathLabels[b]? = some 2) d →
          d ≤ r1.1 ∧ d ≤ r2.1) ∧
        (mapFind lab1.P_l 2 = none → r2.1 ≤ r1.1) ∧
        (mapFind lab2.P_l 0 = none → r1.1 ≤ r2.1) ∧
        (mapFind lab1.P_l 2 = none → mapFind lab2.P_l 0 = none → r1.1 = r2.1) :=
  ⟨pathGraph_wf, pathGraph_symmetric,
    pair_query_symmetry pathGraph pathGraph_wf pathGraph_symmetric [3, 0, 4, 1, 2]
      (by decide) pathLabels (by decide) pathLabels_range 2 2 (by decide) (by decide)
      0 2 (by decide) (by decide) (by decide) (by decide)⟩
end OracleGeneral
